import Mathlib

/-!
# A mark-and-sweep collector for a small stack VM

Shallow embedding of `src/main.c`.

* Pointers are natural numbers, `0` is `NULL`.
* The malloc'd storage is a partial map from addresses to objects
  (`Mem`); `free` removes an address, dereferencing `NULL` or an address that
  is not allocated is undefined behaviour and is reported as
  `Fault.invalidPointer`.
* `Object* stack[STACK_MAX_SIZE]` with `stackSize` is the list of the entries
  `stack[0] .. stack[stackSize-1]` (bottom first), so `stackSize` is its
  length.
* `int` counters are mathematical integers; the product `numObjects * 2` of
  `gc` is brought back into the 32-bit range of `int` (`wrapInt`), which
  matters from 2^30 live objects on. The steps of one on `numObjects` are not
  wrapped; the statements that depend on the range of `int` keep the count
  below 2^30.
* The recursion of `mark` and the loop of `marksweep` take a fuel argument;
  the theorems show that a fuel above the length of the object list is always
  enough on a well-formed heap.
* `malloc` returns an address chosen by the environment: the allocating
  operations take it as the argument `addr`.
-/

namespace GC

/-- Value of `STACK_MAX_SIZE`. -/
def STACK_MAX_SIZE : Nat := 256

/-- Value of `INIT_OBJ_NUM_MAX`. -/
def INIT_OBJ_NUM_MAX : Int := 8

/-- The enum `ObjectType`. -/
inductive ObjectType where
  | INT
  | PAIR
  deriving DecidableEq, Repr

/-- The struct `Object`. The members of the anonymous union (`value` and the
pair `head`, `tail`) are kept as separate fields; the program only reads the
member that matches `type`. -/
structure Object where
  type : ObjectType
  marked : Nat
  next : Nat
  value : Int
  head : Nat
  tail : Nat
  deriving DecidableEq, Repr

/-- The allocated storage: which addresses hold an object. -/
abbrev Mem := Nat → Option Object

/-- The struct `VM`, together with the storage its pointers refer to. -/
structure VM where
  mem : Mem
  stack : List Nat
  firstObject : Nat
  numObjects : Int
  maxObjects : Int

/-- The ways an operation can fail to return. -/
inductive Fault where
  | stackOverflow
  | stackUnderflow
  | invalidPointer
  | outOfFuel
  deriving DecidableEq, Repr

/-- Message printed by `assert` before `exit(1)`. -/
def Fault.message : Fault → String
  | .stackOverflow => "Stack overflow!"
  | .stackUnderflow => "Stack underflow!"
  | .invalidPointer => ""
  | .outOfFuel => ""

/-- Dereference of a pointer. -/
def load (m : Mem) (p : Nat) : Except Fault Object :=
  if p = 0 then .error .invalidPointer
  else match m p with
    | some o => .ok o
    | none => .error .invalidPointer

/-- Write of an object at an address. -/
def store (m : Mem) (p : Nat) (o : Object) : Mem :=
  fun a => if a = p then some o else m a

/-- The call `free(p)`. -/
def free (m : Mem) (p : Nat) : Mem :=
  fun a => if a = p then none else m a

/-- The function `newVM`; the storage starts empty. -/
def newVM : VM :=
  { mem := fun _ => none
    stack := []
    firstObject := 0
    numObjects := 0
    maxObjects := INIT_OBJ_NUM_MAX }

/-- The function `push`. -/
def push (vm : VM) (value : Nat) : Except Fault VM :=
  if vm.stack.length < STACK_MAX_SIZE then
    .ok { vm with stack := vm.stack ++ [value] }
  else .error .stackOverflow

/-- The function `pop`: the new state and the popped pointer. -/
def pop (vm : VM) : Except Fault (VM × Nat) :=
  match vm.stack.getLast? with
  | some v => .ok ({ vm with stack := vm.stack.dropLast }, v)
  | none => .error .stackUnderflow

/-- The function `mark`. -/
def mark : Nat → Mem → Nat → Except Fault Mem
  | 0, _, _ => .error .outOfFuel
  | fuel + 1, m, object =>
    match load m object with
    | .error e => .error e
    | .ok o =>
      if o.marked ≠ 0 then .ok m
      else
        let m1 := store m object { o with marked := 1 }
        if o.type = ObjectType.PAIR then
          match mark fuel m1 o.head with
          | .error e => .error e
          | .ok m2 =>
            match load m2 object with
            | .error e => .error e
            | .ok o2 => mark fuel m2 o2.tail
        else .ok m1

/-- The loop of `markAll` over the stack entries, bottom first. -/
def markRoots (fuel : Nat) : Mem → List Nat → Except Fault Mem
  | m, [] => .ok m
  | m, r :: rs =>
    match mark fuel m r with
    | .error e => .error e
    | .ok m1 => markRoots fuel m1 rs

/-- The function `markAll`. -/
def markAll (fuel : Nat) (vm : VM) : Except Fault VM :=
  match markRoots fuel vm.mem vm.stack with
  | .error e => .error e
  | .ok m => .ok { vm with mem := m }

/-- The place an `Object**` points to during the sweep: `&vm->firstObject` or
`&o->next` of the object at an address. -/
inductive Loc where
  | first
  | nextOf (a : Nat)
  deriving DecidableEq, Repr

/-- Read through an `Object**`. -/
def readLoc (vm : VM) : Loc → Except Fault Nat
  | .first => .ok vm.firstObject
  | .nextOf a =>
    match load vm.mem a with
    | .error e => .error e
    | .ok o => .ok o.next

/-- Write through an `Object**`. -/
def writeLoc (vm : VM) (v : Nat) : Loc → Except Fault VM
  | .first => .ok { vm with firstObject := v }
  | .nextOf a =>
    match load vm.mem a with
    | .error e => .error e
    | .ok o => .ok { vm with mem := store vm.mem a { o with next := v } }

/-- The `while (*object)` loop of `marksweep`, `object` being the location. -/
def sweepLoop : Nat → VM → Loc → Except Fault VM
  | 0, _, _ => .error .outOfFuel
  | fuel + 1, vm, object =>
    match readLoc vm object with
    | .error e => .error e
    | .ok p =>
      if p = 0 then .ok vm
      else
        match load vm.mem p with
        | .error e => .error e
        | .ok o =>
          if o.marked = 0 then
            match writeLoc vm o.next object with
            | .error e => .error e
            | .ok vm1 =>
              sweepLoop fuel
                { vm1 with mem := free vm1.mem p, numObjects := vm1.numObjects - 1 }
                object
          else
            sweepLoop fuel
              { vm with mem := store vm.mem p { o with marked := 0 } }
              (.nextOf p)

/-- The function `marksweep`. -/
def marksweep (fuel : Nat) (vm : VM) : Except Fault VM :=
  sweepLoop fuel vm .first

/-- A mathematical integer brought back into the range of the C type `int`
(32 bits, two's complement), as the machine does on overflow. -/
def wrapInt (x : Int) : Int :=
  (x + 2147483648) % 4294967296 - 2147483648

/-- The function `gc` (state part). The product `vm->numObjects * 2` is a
product of `int`s. -/
def gc (fuel : Nat) (vm : VM) : Except Fault VM :=
  match markAll fuel vm with
  | .error e => .error e
  | .ok vm1 =>
    match marksweep fuel vm1 with
    | .error e => .error e
    | .ok vm2 =>
      .ok { vm2 with
        maxObjects :=
          if vm2.numObjects = 0 then INIT_OBJ_NUM_MAX else wrapInt (vm2.numObjects * 2) }

/-- The two numbers `gc` prints: collected and remaining. -/
def gcReport (fuel : Nat) (vm : VM) : Except Fault (Int × Int) :=
  match gc fuel vm with
  | .error e => .error e
  | .ok vm1 => .ok (vm.numObjects - vm1.numObjects, vm1.numObjects)

/-- The part of `newObject` after the collection test: the object at the
address `addr` returned by `malloc` is linked in front of the list. The
members of the union are not initialised by `newObject`; they are zero here. -/
def allocate (vm : VM) (type : ObjectType) (addr : Nat) : VM :=
  { vm with
    mem := store vm.mem addr
      { type := type, marked := 0, next := vm.firstObject, value := 0, head := 0, tail := 0 }
    firstObject := addr
    numObjects := vm.numObjects + 1 }

/-- The function `newObject`; the returned pointer is `addr`. -/
def newObject (fuel : Nat) (vm : VM) (type : ObjectType) (addr : Nat) : Except Fault VM :=
  if vm.numObjects = vm.maxObjects then
    match gc fuel vm with
    | .error e => .error e
    | .ok vm1 => .ok (allocate vm1 type addr)
  else .ok (allocate vm type addr)

/-- The function `pushInt`. -/
def pushInt (fuel : Nat) (vm : VM) (intValue : Int) (addr : Nat) : Except Fault VM :=
  match newObject fuel vm .INT addr with
  | .error e => .error e
  | .ok vm1 =>
    match load vm1.mem addr with
    | .error e => .error e
    | .ok o => push { vm1 with mem := store vm1.mem addr { o with value := intValue } } addr

/-- The function `pushPair`; the returned pointer is `addr`. -/
def pushPair (fuel : Nat) (vm : VM) (addr : Nat) : Except Fault VM :=
  match newObject fuel vm .PAIR addr with
  | .error e => .error e
  | .ok vm1 =>
    match pop vm1 with
    | .error e => .error e
    | .ok (vm2, t) =>
      match load vm2.mem addr with
      | .error e => .error e
      | .ok o =>
        let vm3 := { vm2 with mem := store vm2.mem addr { o with tail := t } }
        match pop vm3 with
        | .error e => .error e
        | .ok (vm4, h) =>
          match load vm4.mem addr with
          | .error e => .error e
          | .ok o1 =>
            push { vm4 with mem := store vm4.mem addr { o1 with head := h } } addr

/-- The function `freeVM`, up to the release of the `VM` itself. -/
def freeVM (fuel : Nat) (vm : VM) : Except Fault VM :=
  gc fuel { vm with stack := [] }

/-- The assignment `a->tail = b` of `handlingTest`. -/
def setTail (vm : VM) (a b : Nat) : Except Fault VM :=
  match load vm.mem a with
  | .error e => .error e
  | .ok o => .ok { vm with mem := store vm.mem a { o with tail := b } }

/-! ## Specification vocabulary -/

/-- The test `object->marked` at an address (false where nothing is allocated). -/
def isMarked (m : Mem) (a : Nat) : Bool :=
  match m a with
  | some o => o.marked != 0
  | none => false

/-- The list `l` is the sequence of addresses met when walking `next` from
`p` until `NULL`. -/
def Chain (m : Mem) : Nat → List Nat → Prop
  | p, [] => p = 0
  | p, a :: l =>
    p = a ∧ a ≠ 0 ∧
      match m a with
      | some o => Chain m o.next l
      | none => False

/-- The object at `a` is a pair and `b` is its `head` or its `tail`. -/
def Edge (m : Mem) (a b : Nat) : Prop :=
  match m a with
  | some o => o.type = ObjectType.PAIR ∧ (o.head = b ∨ o.tail = b)
  | none => False

/-- The address `b` is reached from `a` by following zero or more `head` or
`tail` references of pairs. -/
def Reach (m : Mem) : Nat → Nat → Prop :=
  Relation.ReflTransGen (Edge m)

/-- The object at `a` is reachable from some entry of the stack. -/
def Reachable (vm : VM) (a : Nat) : Prop :=
  ∃ r ∈ vm.stack, Reach vm.mem r a

/-- The object at `a`, when it is a pair, has its `head` and `tail` in `l`. -/
def closedAt (m : Mem) (l : List Nat) (a : Nat) : Bool :=
  match m a with
  | some o => decide (o.type = ObjectType.PAIR → o.head ∈ l ∧ o.tail ∈ l)
  | none => true

/-- The references of the objects of `l` stay inside `l`. -/
def Closed (m : Mem) (l : List Nat) : Prop :=
  ∀ a ∈ l, closedAt m l a = true

/-- Well-formed state: `l` is the object list from `firstObject`, every stack
entry and every `head` and `tail` of a pair of the list points into the list. -/
def WellFormed (vm : VM) (l : List Nat) : Prop :=
  Chain vm.mem vm.firstObject l ∧ (∀ r ∈ vm.stack, r ∈ l) ∧ Closed vm.mem l

/-- Every object of the list has `marked == 0`. -/
def AllUnmarked (m : Mem) (l : List Nat) : Prop :=
  ∀ a ∈ l, isMarked m a = false

/-- The fields of an object other than `marked` and `next`. -/
def Object.payload (o : Object) : ObjectType × Int × Nat × Nat :=
  (o.type, o.value, o.head, o.tail)

/-- State carried by a successful run, `newVM` otherwise. -/
def stateOf (r : Except Fault VM) : VM :=
  match r with
  | .ok vm => vm
  | .error _ => newVM

instance decChain (m : Mem) : (p : Nat) → (l : List Nat) → Decidable (Chain m p l)
  | p, [] => inferInstanceAs (Decidable (p = 0))
  | p, a :: l =>
    match h : m a with
    | some o =>
      match decChain m o.next l with
      | isTrue hc =>
        if h1 : p = a ∧ a ≠ 0 then isTrue (by unfold Chain; rw [h]; exact ⟨h1.1, h1.2, hc⟩)
        else isFalse (by unfold Chain; rw [h]; exact fun hh => h1 ⟨hh.1, hh.2.1⟩)
      | isFalse hc => isFalse (by unfold Chain; rw [h]; exact fun hh => hc hh.2.2)
    | none => isFalse (by unfold Chain; rw [h]; exact fun hh => hh.2.2)

instance decClosed (m : Mem) (l : List Nat) : Decidable (Closed m l) := by
  unfold Closed
  exact List.decidableBAll _ l

instance decWellFormed (vm : VM) (l : List Nat) : Decidable (WellFormed vm l) := by
  unfold WellFormed
  exact inferInstance

instance decAllUnmarked (m : Mem) (l : List Nat) : Decidable (AllUnmarked m l) := by
  unfold AllUnmarked
  exact inferInstance

/-- Between `m` and `m2` the only change is that some objects satisfying `S`
went from `marked == 0` to `marked == 1`. -/
def MarkedOnly (m m2 : Mem) (S : Nat → Prop) : Prop :=
  ∀ a, m2 a = m a ∨ ∃ o, m a = some o ∧ o.marked = 0 ∧ m2 a = some { o with marked := 1 } ∧ S a

/-- A marked pair one of whose two references is not marked. -/
def Pending (m : Mem) (a : Nat) : Prop :=
  ∃ o, m a = some o ∧ o.marked ≠ 0 ∧ o.type = ObjectType.PAIR ∧
    (isMarked m o.head = false ∨ isMarked m o.tail = false)

/-- Number of objects of the list with `marked == 0`. -/
def unmarkedCount (m : Mem) (l : List Nat) : Nat :=
  (l.filter (fun a => !isMarked m a)).length

/-- Every address of the list is a non-null allocated object. -/
def Allocated (m : Mem) (l : List Nat) : Prop :=
  ∀ a ∈ l, a ≠ 0 ∧ ∃ o, m a = some o

/-- What the sweep loop does from a location whose content heads the list `l`. -/
def SweepPost (vm vm2 : VM) (loc : Loc) (l : List Nat) : Prop :=
  ∃ p2, readLoc vm2 loc = .ok p2 ∧ Chain vm2.mem p2 (l.filter (isMarked vm.mem)) ∧
    (∀ a ∈ l, isMarked vm.mem a = true →
      ∃ o o2, vm.mem a = some o ∧ vm2.mem a = some o2 ∧ o2.marked = 0 ∧
        o2.payload = o.payload) ∧
    (∀ a ∈ l, isMarked vm.mem a = false → vm2.mem a = none) ∧
    (∀ a, a ∉ l → loc ≠ .nextOf a → vm2.mem a = vm.mem a) ∧
    (∀ q, loc = .nextOf q → ∃ o, vm.mem q = some o ∧ vm2.mem q = some { o with next := p2 }) ∧
    (loc ≠ .first → vm2.firstObject = vm.firstObject) ∧
    vm2.numObjects = vm.numObjects - ((l.filter (fun a => !isMarked vm.mem a)).length : Int) ∧
    vm2.stack = vm.stack ∧ vm2.maxObjects = vm.maxObjects

/-- What a collection does on a well-formed state whose object list is `l`:
`l2` is the object list afterwards. -/
def GcPost (vm vm2 : VM) (l l2 : List Nat) : Prop :=
  Chain vm2.mem vm2.firstObject l2 ∧ l2.Sublist l ∧ (∀ a, a ∈ l2 ↔ Reachable vm a) ∧
    (∀ a ∈ l2, ∃ o o2, vm.mem a = some o ∧ vm2.mem a = some o2 ∧ o2.marked = 0 ∧
      o2.payload = o.payload) ∧
    (∀ a ∈ l, a ∉ l2 → vm2.mem a = none) ∧
    (∀ a, a ∉ l → vm2.mem a = vm.mem a) ∧
    vm2.numObjects = vm.numObjects - ((l.length : Int) - (l2.length : Int)) ∧
    vm2.stack = vm.stack ∧
    vm2.maxObjects =
      (if vm2.numObjects = 0 then INIT_OBJ_NUM_MAX else wrapInt (vm2.numObjects * 2))

/-! ## The test scenarios

The arguments `a1`, `a2`, ... are the addresses returned by the successive
calls of `malloc`. -/

/-- Sequencing of two steps of a scenario. -/
def andThen (r : Except Fault VM) (f : VM → Except Fault VM) : Except Fault VM :=
  match r with
  | .error e => .error e
  | .ok vm => f vm

/-- The body of `preservingTest` before `gc`. -/
def preservingSetup (fuel a1 a2 : Nat) : Except Fault VM :=
  andThen (pushInt fuel newVM 1 a1) fun vm =>
  pushInt fuel vm 2 a2

/-- The body of `preservingTest` up to the assertion. -/
def preservingTest (fuel a1 a2 : Nat) : Except Fault VM :=
  andThen (preservingSetup fuel a1 a2) (gc fuel)

/-- The body of `collectingTest` before `gc`. -/
def collectingSetup (fuel a1 a2 : Nat) : Except Fault VM :=
  andThen (pushInt fuel newVM 1 a1) fun vm =>
  andThen (pushInt fuel vm 2 a2) fun vm =>
  andThen ((pop vm).map Prod.fst) fun vm =>
  (pop vm).map Prod.fst

/-- The body of `collectingTest` up to the assertion. -/
def collectingTest (fuel a1 a2 : Nat) : Except Fault VM :=
  andThen (collectingSetup fuel a1 a2) (gc fuel)

/-- The body of `reachingTest` before `gc`. -/
def reachingSetup (fuel a1 a2 a3 a4 a5 a6 a7 : Nat) : Except Fault VM :=
  andThen (pushInt fuel newVM 1 a1) fun vm =>
  andThen (pushInt fuel vm 2 a2) fun vm =>
  andThen (pushPair fuel vm a3) fun vm =>
  andThen (pushInt fuel vm 3 a4) fun vm =>
  andThen (pushInt fuel vm 4 a5) fun vm =>
  andThen (pushPair fuel vm a6) fun vm =>
  pushPair fuel vm a7

/-- The body of `reachingTest` up to the assertion. -/
def reachingTest (fuel a1 a2 a3 a4 a5 a6 a7 : Nat) : Except Fault VM :=
  andThen (reachingSetup fuel a1 a2 a3 a4 a5 a6 a7) (gc fuel)

/-- The body of `handlingTest` before `gc`; the pair `a` is at `a3`, the pair
`b` at `a6`. -/
def handlingSetup (fuel a1 a2 a3 a4 a5 a6 : Nat) : Except Fault VM :=
  andThen (pushInt fuel newVM 1 a1) fun vm =>
  andThen (pushInt fuel vm 2 a2) fun vm =>
  andThen (pushPair fuel vm a3) fun vm =>
  andThen (pushInt fuel vm 3 a4) fun vm =>
  andThen (pushInt fuel vm 4 a5) fun vm =>
  andThen (pushPair fuel vm a6) fun vm =>
  andThen (setTail vm a3 a6) fun vm =>
  setTail vm a6 a3

/-- The body of `handlingTest` up to the assertion. -/
def handlingTest (fuel a1 a2 a3 a4 a5 a6 : Nat) : Except Fault VM :=
  andThen (handlingSetup fuel a1 a2 a3 a4 a5 a6) (gc fuel)

/-- The state of `handlingTest` when `gc` is called. -/
def handlingState (a1 a2 a3 a4 a5 a6 : Nat) : VM :=
  { mem :=
      store (store (store (store (store (store (store (store (fun _ => none)
        a1 { type := .INT, marked := 0, next := 0, value := 1, head := 0, tail := 0 })
        a2 { type := .INT, marked := 0, next := a1, value := 2, head := 0, tail := 0 })
        a3 { type := .PAIR, marked := 0, next := a2, value := 0, head := a1, tail := a2 })
        a4 { type := .INT, marked := 0, next := a3, value := 3, head := 0, tail := 0 })
        a5 { type := .INT, marked := 0, next := a4, value := 4, head := 0, tail := 0 })
        a6 { type := .PAIR, marked := 0, next := a5, value := 0, head := a4, tail := a5 })
        a3 { type := .PAIR, marked := 0, next := a2, value := 0, head := a1, tail := a6 })
        a6 { type := .PAIR, marked := 0, next := a5, value := 0, head := a4, tail := a3 }
    stack := [a3, a6]
    firstObject := a6
    numObjects := 6
    maxObjects := 8 }

/-- A heap of three objects `3 → 2 → 1` of which the first and the last are
marked. -/
def sweepExample : VM :=
  { mem := fun a =>
      if a = 1 then some { type := .INT, marked := 1, next := 0, value := 7, head := 0, tail := 0 }
      else if a = 2 then
        some { type := .INT, marked := 0, next := 1, value := 8, head := 0, tail := 0 }
      else if a = 3 then
        some { type := .PAIR, marked := 1, next := 2, value := 0, head := 1, tail := 2 }
      else none
    stack := [3]
    firstObject := 3
    numObjects := 3
    maxObjects := 8 }

/-- A scalar on the stack and two pairs that reference each other and are
not on the stack. -/
def cycleExample : VM :=
  { mem := fun a =>
      if a = 1 then some { type := .INT, marked := 0, next := 0, value := 7, head := 0, tail := 0 }
      else if a = 2 then
        some { type := .PAIR, marked := 0, next := 1, value := 0, head := 1, tail := 3 }
      else if a = 3 then
        some { type := .PAIR, marked := 0, next := 2, value := 0, head := 1, tail := 2 }
      else none
    stack := [1]
    firstObject := 3
    numObjects := 3
    maxObjects := 8 }

/-- The test at the start of `newObject`: a collection when the threshold is
reached. The result is the state in which `malloc` is called. -/
def collectIfFull (fuel : Nat) (vm : VM) : Except Fault VM :=
  if vm.numObjects = vm.maxObjects then gc fuel vm else .ok vm

/-- The operations the harness can call. -/
inductive Op where
  | pushInt (intValue : Int) (addr : Nat)
  | pushPair (addr : Nat)
  | pop
  | gc
  | push (value : Nat)

/-- Effect of an operation on the state (the result of `pop` and `pushPair`
is dropped). -/
def Op.run (fuel : Nat) (vm : VM) : Op → Except Fault VM
  | .pushInt v addr => GC.pushInt fuel vm v addr
  | .pushPair addr => GC.pushPair fuel vm addr
  | .pop => (GC.pop vm).map Prod.fst
  | .gc => GC.gc fuel vm
  | .push r => GC.push vm r

/-- The address is one `malloc` can return in `newObject`: it is not null and
not allocated when `malloc` is called, after the possible collection. -/
def MallocOk (fuel : Nat) (vm : VM) (addr : Nat) : Prop :=
  addr ≠ 0 ∧ ∀ vm1, collectIfFull fuel vm = .ok vm1 → vm1.mem addr = none

/-- The addresses an operation takes from `malloc` are valid. -/
def Op.mallocOk (fuel : Nat) (vm : VM) : Op → Prop
  | .pushInt _ addr => MallocOk fuel vm addr
  | .pushPair addr => MallocOk fuel vm addr
  | _ => True

/-- The operation is a direct `push` of a pointer chosen by the harness. -/
def Op.isPush : Op → Bool
  | .push _ => true
  | _ => false

/-- States reached from `newVM` by operations satisfying `allowed` that
return. -/
inductive ReachedBy (allowed : Op → Prop) : VM → Prop where
  | init : ReachedBy allowed newVM
  | step {vm vm2 : VM} (fuel : Nat) (op : Op) :
    ReachedBy allowed vm → allowed op → op.mallocOk fuel vm → op.run fuel vm = .ok vm2 →
    ReachedBy allowed vm2

/-- States reached from `newVM` by `pushInt`, `pushPair`, `pop` and `gc`. -/
def Reached : VM → Prop :=
  ReachedBy (fun op => op.isPush = false)

/-- The object list exists and `numObjects` is its length. -/
def Counted (vm : VM) : Prop :=
  ∃ l, Chain vm.mem vm.firstObject l ∧ vm.numObjects = (l.length : Int)

/-- The number 2^30: the least number of objects whose double does not fit in
an `int`. -/
def COUNT_LIMIT : Int := 1073741824

/-- States reached from `newVM` by `pushInt`, `pushPair`, `pop` and `gc` in a
run all of whose states hold fewer than `bound` objects. -/
inductive ReachedBelow (bound : Int) : VM → Prop where
  | init : ReachedBelow bound newVM
  | step {vm vm2 : VM} (fuel : Nat) (op : Op) :
    ReachedBelow bound vm → op.isPush = false → op.mallocOk fuel vm →
    op.run fuel vm = .ok vm2 → vm2.numObjects < bound → ReachedBelow bound vm2

/-- The state of `preservingTest` when `gc` is called. -/
def preservingState (a1 a2 : Nat) : VM :=
  { mem :=
      store (store (fun _ => none)
        a1 { type := .INT, marked := 0, next := 0, value := 1, head := 0, tail := 0 })
        a2 { type := .INT, marked := 0, next := a1, value := 2, head := 0, tail := 0 }
    stack := [a1, a2]
    firstObject := a2
    numObjects := 2
    maxObjects := 8 }

/-- The state of `collectingTest` when `gc` is called. -/
def collectingState (a1 a2 : Nat) : VM :=
  { preservingState a1 a2 with stack := [] }

/-- The state of `reachingTest` when `gc` is called. -/
def reachingState (a1 a2 a3 a4 a5 a6 a7 : Nat) : VM :=
  { mem :=
      store (store (store (store (store (store (store (fun _ => none)
        a1 { type := .INT, marked := 0, next := 0, value := 1, head := 0, tail := 0 })
        a2 { type := .INT, marked := 0, next := a1, value := 2, head := 0, tail := 0 })
        a3 { type := .PAIR, marked := 0, next := a2, value := 0, head := a1, tail := a2 })
        a4 { type := .INT, marked := 0, next := a3, value := 3, head := 0, tail := 0 })
        a5 { type := .INT, marked := 0, next := a4, value := 4, head := 0, tail := 0 })
        a6 { type := .PAIR, marked := 0, next := a5, value := 0, head := a4, tail := a5 })
        a7 { type := .PAIR, marked := 0, next := a6, value := 0, head := a3, tail := a6 }
    stack := [a7]
    firstObject := a7
    numObjects := 7
    maxObjects := 8 }

/-- The state between two operations of a run: it is well-formed with object
list `l`, no object of the list is marked, `numObjects` is the length of the
list and the stack holds at most `STACK_MAX_SIZE` entries. -/
def Sound (vm : VM) (l : List Nat) : Prop :=
  WellFormed vm l ∧ AllUnmarked vm.mem l ∧ vm.numObjects = (l.length : Int) ∧
    vm.stack.length ≤ STACK_MAX_SIZE

instance decSound (vm : VM) (l : List Nat) : Decidable (Sound vm l) := by
  unfold Sound
  exact inferInstance

/-- The state of `handlingTest` before `gc`, with the threshold reached. -/
def fullHandling : VM :=
  { handlingState 1 2 3 4 5 6 with maxObjects := 6 }

/-- Two scalars and a stack that holds `STACK_MAX_SIZE` pointers to the first
of them. -/
def fullStackExample : VM :=
  { preservingState 1 2 with stack := List.replicate 256 1 }

/-- The state after `pushInt 1`, `pushInt 2`, `pushPair` from `newVM`, with
the addresses 1, 2, 3. -/
def pairExample : VM :=
  stateOf (andThen (andThen (pushInt 0 newVM 1 1) (fun vm => pushInt 0 vm 2 2))
    (fun vm => pushPair 0 vm 3))

/-- The function `mark`, returning together with the storage the addresses at
which the assignment `object->marked = 1` was executed, in order. -/
def markTrace : Nat → Mem → Nat → Except Fault (Mem × List Nat)
  | 0, _, _ => .error .outOfFuel
  | fuel + 1, m, object =>
    match load m object with
    | .error e => .error e
    | .ok o =>
      if o.marked ≠ 0 then .ok (m, [])
      else
        let m1 := store m object { o with marked := 1 }
        if o.type = ObjectType.PAIR then
          match markTrace fuel m1 o.head with
          | .error e => .error e
          | .ok (m2, t1) =>
            match load m2 object with
            | .error e => .error e
            | .ok o2 =>
              match markTrace fuel m2 o2.tail with
              | .error e => .error e
              | .ok (m3, t2) => .ok (m3, object :: (t1 ++ t2))
        else .ok (m1, [object])

/-- The loop of `markAll` with the trace of `markTrace`. -/
def markRootsTrace (fuel : Nat) : Mem → List Nat → Except Fault (Mem × List Nat)
  | m, [] => .ok (m, [])
  | m, r :: rs =>
    match markTrace fuel m r with
    | .error e => .error e
    | .ok (m1, t1) =>
      match markRootsTrace fuel m1 rs with
      | .error e => .error e
      | .ok (m2, t2) => .ok (m2, t1 ++ t2)

/-- A pair whose `head` and `tail` are the pair itself, on the stack. -/
def selfExample : VM :=
  { mem := fun a =>
      if a = 1 then some { type := .PAIR, marked := 0, next := 0, value := 0, head := 1, tail := 1 }
      else none
    stack := [1]
    firstObject := 1
    numObjects := 1
    maxObjects := 8 }

/-- The state is sound with object list `l`, every object of the list is
reachable from the stack, and nothing else is allocated. -/
def Live (vm : VM) (l : List Nat) : Prop :=
  Sound vm l ∧ (∀ a ∈ l, Reachable vm a) ∧ ∀ a, a ∉ l → vm.mem a = none

/-! ## Storage lemmas -/

theorem load_ok_iff (m : Mem) (p : Nat) (o : Object) :
    load m p = .ok o ↔ p ≠ 0 ∧ m p = some o := by
  unfold load
  by_cases hp : p = 0
  · simp [hp]
  · cases h : m p <;> simp [hp]

theorem load_of_mem (m : Mem) (p : Nat) (o : Object) (hp : p ≠ 0) (h : m p = some o) :
    load m p = .ok o :=
  (load_ok_iff m p o).2 ⟨hp, h⟩

theorem store_same (m : Mem) (p : Nat) (o : Object) : store m p o p = some o := by
  simp [store]

theorem store_other (m : Mem) (p a : Nat) (o : Object) (h : a ≠ p) : store m p o a = m a := by
  simp [store, h]

theorem free_same (m : Mem) (p : Nat) : free m p p = none := by
  simp [free]

theorem free_other (m : Mem) (p a : Nat) (h : a ≠ p) : free m p a = m a := by
  simp [free, h]

theorem isMarked_true_iff (m : Mem) (a : Nat) :
    isMarked m a = true ↔ ∃ o, m a = some o ∧ o.marked ≠ 0 := by
  unfold isMarked
  cases h : m a <;> simp

theorem isMarked_false_of_mem (m : Mem) (a : Nat) (o : Object) (h : m a = some o)
    (h0 : o.marked = 0) : isMarked m a = false := by
  simp [isMarked, h, h0]

theorem isMarked_of_mem (m : Mem) (a : Nat) (o : Object) (h : m a = some o)
    (h0 : o.marked ≠ 0) : isMarked m a = true :=
  (isMarked_true_iff m a).2 ⟨o, h, h0⟩

theorem closed_iff (m : Mem) (l : List Nat) :
    Closed m l ↔
      ∀ a ∈ l, ∀ o, m a = some o → o.type = ObjectType.PAIR → o.head ∈ l ∧ o.tail ∈ l := by
  unfold Closed closedAt
  constructor
  · intro h a ha o ho
    have := h a ha
    rw [ho] at this
    exact of_decide_eq_true this
  · intro h a ha
    cases ho : m a with
    | none => rfl
    | some o => exact decide_eq_true (h a ha o ho)

theorem edge_iff (m : Mem) (a b : Nat) :
    Edge m a b ↔ ∃ o, m a = some o ∧ o.type = ObjectType.PAIR ∧ (o.head = b ∨ o.tail = b) := by
  unfold Edge
  cases h : m a <;> simp

/-! ## The object list -/

theorem chain_cons_iff (m : Mem) (p a : Nat) (l : List Nat) :
    Chain m p (a :: l) ↔ p = a ∧ a ≠ 0 ∧ ∃ o, m a = some o ∧ Chain m o.next l := by
  show (p = a ∧ a ≠ 0 ∧ match m a with | some o => Chain m o.next l | none => False) ↔ _
  cases h : m a <;> simp

theorem chain_nil_iff (m : Mem) (p : Nat) : Chain m p [] ↔ p = 0 := Iff.rfl

theorem chain_unique (m : Mem) : ∀ (l1 l2 : List Nat) (p : Nat),
    Chain m p l1 → Chain m p l2 → l1 = l2
  | [], [], _, _, _ => rfl
  | [], b :: l2, p, h1, h2 => by
    rw [chain_nil_iff] at h1
    rw [chain_cons_iff] at h2
    exact absurd (h2.1 ▸ h1) h2.2.1
  | a :: l1, [], p, h1, h2 => by
    rw [chain_nil_iff] at h2
    rw [chain_cons_iff] at h1
    exact absurd (h1.1 ▸ h2) h1.2.1
  | a :: l1, b :: l2, p, h1, h2 => by
    rw [chain_cons_iff] at h1 h2
    obtain ⟨e1, _, o1, ho1, c1⟩ := h1
    obtain ⟨e2, _, o2, ho2, c2⟩ := h2
    have hab : a = b := e1.symm.trans e2
    subst hab
    have : o1 = o2 := Option.some.inj (ho1.symm.trans ho2)
    subst this
    rw [chain_unique m l1 l2 _ c1 c2]

theorem chain_suffix (m : Mem) : ∀ (l : List Nat) (p a : Nat),
    Chain m p l → a ∈ l → ∃ l2, Chain m a l2 ∧ l2.length ≤ l.length
  | [], _, _, _, ha => by simp at ha
  | b :: l, p, a, h, ha => by
    by_cases hab : a = b
    · subst hab
      refine ⟨a :: l, ?_, le_refl _⟩
      rw [chain_cons_iff] at h ⊢
      exact ⟨rfl, h.2⟩
    · have hal : a ∈ l := by
        rcases List.mem_cons.1 ha with h1 | h1
        · exact absurd h1 hab
        · exact h1
      rw [chain_cons_iff] at h
      obtain ⟨_, _, o, _, c⟩ := h
      obtain ⟨l2, c2, hlen⟩ := chain_suffix m l _ a c hal
      exact ⟨l2, c2, by simp; omega⟩

theorem chain_head_not_mem (m : Mem) (p a : Nat) (l : List Nat) (h : Chain m p (a :: l)) :
    a ∉ l := by
  intro ha
  have h' := h
  rw [chain_cons_iff] at h'
  obtain ⟨e, _, o, _, c⟩ := h'
  obtain ⟨l2, c2, hlen⟩ := chain_suffix m l _ a c ha
  have := chain_unique m _ _ _ (e ▸ h) c2
  rw [← this] at hlen
  simp at hlen

theorem chain_nodup (m : Mem) : ∀ (l : List Nat) (p : Nat), Chain m p l → l.Nodup
  | [], _, _ => List.nodup_nil
  | a :: l, p, h => by
    have hn := chain_head_not_mem m p a l h
    rw [chain_cons_iff] at h
    obtain ⟨_, _, o, _, c⟩ := h
    exact List.nodup_cons.2 ⟨hn, chain_nodup m l _ c⟩

theorem chain_ne_zero (m : Mem) : ∀ (l : List Nat) (p : Nat), Chain m p l → ∀ a ∈ l, a ≠ 0
  | [], _, _, a, ha => by simp at ha
  | b :: l, p, h, a, ha => by
    rw [chain_cons_iff] at h
    obtain ⟨_, hb, o, _, c⟩ := h
    rcases List.mem_cons.1 ha with h1 | h1
    · exact h1 ▸ hb
    · exact chain_ne_zero m l _ c a h1

theorem chain_allocated (m : Mem) : ∀ (l : List Nat) (p : Nat), Chain m p l →
    ∀ a ∈ l, ∃ o, m a = some o
  | [], _, _, a, ha => by simp at ha
  | b :: l, p, h, a, ha => by
    rw [chain_cons_iff] at h
    obtain ⟨_, _, o, ho, c⟩ := h
    rcases List.mem_cons.1 ha with h1 | h1
    · exact ⟨o, h1 ▸ ho⟩
    · exact chain_allocated m l _ c a h1

/-- A chain only depends on the objects of the list. -/
theorem chain_congr (m m2 : Mem) : ∀ (l : List Nat) (p : Nat),
    (∀ a ∈ l, ∃ o o2, m a = some o ∧ m2 a = some o2 ∧ o2.next = o.next) →
    Chain m p l → Chain m2 p l
  | [], _, _, h => h
  | b :: l, p, hl, h => by
    rw [chain_cons_iff] at h ⊢
    obtain ⟨e, hb, o, ho, c⟩ := h
    obtain ⟨o1, o2, h1, h2, hn⟩ := hl b (List.mem_cons_self _ _)
    have : o1 = o := Option.some.inj (h1.symm.trans ho)
    subst this
    refine ⟨e, hb, o2, h2, ?_⟩
    rw [hn]
    exact chain_congr m m2 l _ (fun a ha => hl a (List.mem_cons_of_mem _ ha)) c


/-! ## The mark phase -/

theorem markedOnly_refl (m : Mem) (S : Nat → Prop) : MarkedOnly m m S :=
  fun _ => Or.inl rfl

theorem markedOnly_weaken (m m2 : Mem) (S T : Nat → Prop) (hST : ∀ a, S a → T a)
    (h : MarkedOnly m m2 S) : MarkedOnly m m2 T := by
  intro a
  rcases h a with h1 | ⟨o, ho, h0, h2, hs⟩
  · exact Or.inl h1
  · exact Or.inr ⟨o, ho, h0, h2, hST a hs⟩

theorem markedOnly_trans (m m2 m3 : Mem) (S : Nat → Prop)
    (h12 : MarkedOnly m m2 S) (h23 : MarkedOnly m2 m3 S) : MarkedOnly m m3 S := by
  intro a
  rcases h23 a with h1 | ⟨o, ho, h0, h2, hs⟩
  · rcases h12 a with h3 | ⟨o, ho, h0, h2, hs⟩
    · exact Or.inl (h1.trans h3)
    · exact Or.inr ⟨o, ho, h0, h1.trans h2, hs⟩
  · rcases h12 a with h3 | ⟨o1, ho1, h01, h21, _⟩
    · exact Or.inr ⟨o, h3 ▸ ho, h0, h2, hs⟩
    · rw [h21] at ho
      have := Option.some.inj ho
      rw [← this] at h0
      simp at h0

theorem markedOnly_store (m : Mem) (p : Nat) (o : Object) (S : Nat → Prop)
    (ho : m p = some o) (h0 : o.marked = 0) (hs : S p) :
    MarkedOnly m (store m p { o with marked := 1 }) S := by
  intro a
  by_cases hap : a = p
  · subst hap
    exact Or.inr ⟨o, ho, h0, store_same _ _ _, hs⟩
  · exact Or.inl (store_other _ _ _ _ hap)

theorem markedOnly_isMarked (m m2 : Mem) (S : Nat → Prop) (h : MarkedOnly m m2 S) (a : Nat)
    (ha : isMarked m a = true) : isMarked m2 a = true := by
  rcases h a with h1 | ⟨o, ho, h0, _, _⟩
  · unfold isMarked at ha ⊢
    rw [h1]
    exact ha
  · rw [isMarked_false_of_mem m a o ho h0] at ha
    cases ha

theorem markedOnly_payload (m m2 : Mem) (S : Nat → Prop) (h : MarkedOnly m m2 S) (a : Nat)
    (o : Object) (ho : m a = some o) :
    ∃ o2, m2 a = some o2 ∧ o2.type = o.type ∧ o2.next = o.next ∧ o2.value = o.value ∧
      o2.head = o.head ∧ o2.tail = o.tail := by
  rcases h a with h1 | ⟨o1, ho1, _, h2, _⟩
  · exact ⟨o, h1.trans ho, rfl, rfl, rfl, rfl, rfl⟩
  · have : o1 = o := Option.some.inj (ho1.symm.trans ho)
    subst this
    exact ⟨_, h2, rfl, rfl, rfl, rfl, rfl⟩

theorem markedOnly_payload_rev (m m2 : Mem) (S : Nat → Prop) (h : MarkedOnly m m2 S) (a : Nat)
    (o2 : Object) (ho : m2 a = some o2) :
    ∃ o, m a = some o ∧ o2.type = o.type ∧ o2.next = o.next ∧ o2.value = o.value ∧
      o2.head = o.head ∧ o2.tail = o.tail := by
  rcases h a with h1 | ⟨o1, ho1, _, h2, _⟩
  · exact ⟨o2, h1 ▸ ho, rfl, rfl, rfl, rfl, rfl⟩
  · have : o2 = { o1 with marked := 1 } := Option.some.inj (ho.symm.trans h2)
    subst this
    exact ⟨o1, ho1, rfl, rfl, rfl, rfl, rfl⟩

theorem markedOnly_edge (m m2 : Mem) (S : Nat → Prop) (h : MarkedOnly m m2 S) (a b : Nat) :
    Edge m2 a b ↔ Edge m a b := by
  rw [edge_iff, edge_iff]
  constructor
  · rintro ⟨o2, ho2, ht, hb⟩
    obtain ⟨o, ho, e1, _, _, e4, e5⟩ := markedOnly_payload_rev m m2 S h a o2 ho2
    exact ⟨o, ho, e1 ▸ ht, e4 ▸ e5 ▸ hb⟩
  · rintro ⟨o, ho, ht, hb⟩
    obtain ⟨o2, ho2, e1, _, _, e4, e5⟩ := markedOnly_payload m m2 S h a o ho
    exact ⟨o2, ho2, e1 ▸ ht, e4 ▸ e5 ▸ hb⟩

theorem markedOnly_reach (m m2 : Mem) (S : Nat → Prop) (h : MarkedOnly m m2 S) (a b : Nat) :
    Reach m2 a b ↔ Reach m a b := by
  have he : Edge m2 = Edge m := by
    funext x y
    exact propext (markedOnly_edge m m2 S h x y)
  unfold Reach
  rw [he]

theorem markedOnly_closed (m m2 : Mem) (S : Nat → Prop) (h : MarkedOnly m m2 S) (l : List Nat)
    (hc : Closed m l) : Closed m2 l := by
  rw [closed_iff] at hc ⊢
  intro a ha o2 ho2 ht
  obtain ⟨o, ho, e1, _, _, e4, e5⟩ := markedOnly_payload_rev m m2 S h a o2 ho2
  rw [e4, e5]
  exact hc a ha o ho (e1 ▸ ht)

theorem markedOnly_allocated (m m2 : Mem) (S : Nat → Prop) (h : MarkedOnly m m2 S)
    (l : List Nat) (hc : Allocated m l) : Allocated m2 l := by
  intro a ha
  obtain ⟨h0, o, ho⟩ := hc a ha
  obtain ⟨o2, ho2, _⟩ := markedOnly_payload m m2 S h a o ho
  exact ⟨h0, o2, ho2⟩

theorem unmarkedCount_le (m m2 : Mem) (S : Nat → Prop) (h : MarkedOnly m m2 S) :
    ∀ l : List Nat, unmarkedCount m2 l ≤ unmarkedCount m l
  | [] => le_refl _
  | a :: l => by
    have ih := unmarkedCount_le m m2 S h l
    unfold unmarkedCount at ih ⊢
    cases h2 : isMarked m2 a <;> cases h1 : isMarked m a
    · simp [List.filter_cons, h1, h2]; exact ih
    · rw [markedOnly_isMarked m m2 S h a h1] at h2; cases h2
    · simp [List.filter_cons, h1, h2]; omega
    · simp [List.filter_cons, h1, h2]; exact ih

theorem unmarkedCount_lt (m m2 : Mem) (S : Nat → Prop) (h : MarkedOnly m m2 S) (p : Nat)
    (h1 : isMarked m p = false) (h2 : isMarked m2 p = true) :
    ∀ l : List Nat, p ∈ l → unmarkedCount m2 l < unmarkedCount m l
  | [], hp => by simp at hp
  | a :: l, hp => by
    by_cases hap : a = p
    · subst hap
      have := unmarkedCount_le m m2 S h l
      unfold unmarkedCount at this ⊢
      simp [List.filter_cons, h1, h2]
      omega
    · have hpl : p ∈ l := by
        rcases List.mem_cons.1 hp with e | e
        · exact absurd e.symm hap
        · exact e
      have ih := unmarkedCount_lt m m2 S h p h1 h2 l hpl
      unfold unmarkedCount at ih ⊢
      cases h2 : isMarked m2 a <;> cases h1 : isMarked m a
      · simp [List.filter_cons, h1, h2]; exact ih
      · rw [markedOnly_isMarked m m2 S h a h1] at h2; cases h2
      · simp [List.filter_cons, h1, h2]; omega
      · simp [List.filter_cons, h1, h2]; exact ih

theorem unmarkedCount_le_length (m : Mem) (l : List Nat) : unmarkedCount m l ≤ l.length :=
  List.length_filter_le _ _

theorem pending_of_store (m : Mem) (p a : Nat) (o : Object) (ho : m p = some o)
    (h0 : o.marked = 0) (hap : a ≠ p)
    (h : Pending (store m p { o with marked := 1 }) a) : Pending m a := by
  obtain ⟨oa, hoa, hm, ht, hch⟩ := h
  rw [store_other _ _ _ _ hap] at hoa
  have hmono := markedOnly_isMarked m _ (fun _ => True)
    (markedOnly_store m p o (fun _ => True) ho h0 trivial)
  refine ⟨oa, hoa, hm, ht, ?_⟩
  rcases hch with hh | hh
  · left
    cases hx : isMarked m oa.head
    · rfl
    · rw [hmono _ hx] at hh; cases hh
  · right
    cases hx : isMarked m oa.tail
    · rfl
    · rw [hmono _ hx] at hh; cases hh


theorem reach_refl (m : Mem) (a : Nat) : Reach m a a := Relation.ReflTransGen.refl

theorem reach_step (m : Mem) (a b c : Nat) (h : Edge m a b) (hr : Reach m b c) : Reach m a c :=
  Relation.ReflTransGen.head h hr

/-- With fuel above the number of unmarked objects, `mark` returns; it only
sets mark bits of objects reached from its argument, marks its argument, and
creates no new marked pair with an unmarked reference. -/
theorem mark_spec (l : List Nat) : ∀ (fuel : Nat) (m : Mem) (p : Nat),
    Closed m l → Allocated m l → p ∈ l → unmarkedCount m l < fuel →
    ∃ m2, mark fuel m p = .ok m2 ∧ MarkedOnly m m2 (Reach m p) ∧ isMarked m2 p = true ∧
      ∀ a, Pending m2 a → Pending m a
  | 0, _, _, _, _, _, hf => by omega
  | fuel + 1, m, p, hc, hal, hp, hf => by
    obtain ⟨hp0, o, ho⟩ := hal p hp
    have hload : load m p = .ok o := load_of_mem m p o hp0 ho
    by_cases hm : o.marked ≠ 0
    · refine ⟨m, ?_, markedOnly_refl _ _, isMarked_of_mem m p o ho hm, fun a h => h⟩
      simp [mark, hload, hm]
    · have h0 : o.marked = 0 := by omega
      have hst := markedOnly_store m p o (Reach m p) ho h0 (reach_refl m p)
      have hmp1 : isMarked (store m p { o with marked := 1 }) p = true :=
        isMarked_of_mem _ p _ (store_same _ _ _) (by simp)
      have hcnt1 := unmarkedCount_lt m _ _ hst p (isMarked_false_of_mem m p o ho h0) hmp1 l hp
      by_cases ht : o.type = ObjectType.PAIR
      · have hch := (closed_iff m l).1 hc p hp o ho ht
        have hc1 := markedOnly_closed m _ _ hst l hc
        have hal1 := markedOnly_allocated m _ _ hst l hal
        obtain ⟨m2, hr2, hmo2, hmh, hpend2⟩ :=
          mark_spec l fuel (store m p { o with marked := 1 }) o.head hc1 hal1 hch.1 (by omega)
        have hcnt2 := unmarkedCount_le _ m2 _ hmo2 l
        have hc2 := markedOnly_closed _ m2 _ hmo2 l hc1
        have hal2 := markedOnly_allocated _ m2 _ hmo2 l hal1
        obtain ⟨o2, ho2, _, _, _, _, htl⟩ :=
          markedOnly_payload _ m2 _ hmo2 p _ (store_same m p { o with marked := 1 })
        have hload2 : load m2 p = .ok o2 := load_of_mem m2 p o2 hp0 ho2
        have htl2 : o2.tail = o.tail := htl
        obtain ⟨m3, hr3, hmo3, hmt, hpend3⟩ :=
          mark_spec l fuel m2 o.tail hc2 hal2 hch.2 (by omega)
        have hep : ∀ b, (b = o.head ∨ b = o.tail) → Edge m p b := by
          intro b hb
          rw [edge_iff]
          exact ⟨o, ho, ht, hb.imp Eq.symm Eq.symm⟩
        -- the marks set by the two recursive calls are reached from `p`
        have hmo2' : MarkedOnly (store m p { o with marked := 1 }) m2 (Reach m p) :=
          markedOnly_weaken _ _ _ _
            (fun a ha => reach_step m p o.head a (hep _ (Or.inl rfl))
              ((markedOnly_reach m _ _ hst _ _).1 ha)) hmo2
        have h12 := markedOnly_trans m _ m2 _ hst hmo2'
        have hmo3' : MarkedOnly m2 m3 (Reach m p) :=
          markedOnly_weaken _ _ _ _
            (fun a ha => reach_step m p o.tail a (hep _ (Or.inr rfl))
              ((markedOnly_reach m m2 _ h12 _ _).1 ha)) hmo3
        have h13 := markedOnly_trans m m2 m3 _ h12 hmo3'
        have hp3 : isMarked m3 p = true :=
          markedOnly_isMarked _ _ _ hmo3 p (markedOnly_isMarked _ _ _ hmo2 p hmp1)
        refine ⟨m3, ?_, h13, hp3, ?_⟩
        · rw [mark, hload]
          simp only [h0, ne_eq, not_true_eq_false, if_false, if_pos ht]
          rw [hr2]
          simp only [hload2, htl2]
          exact hr3
        · intro a ha
          by_cases hap : a = p
          · subst hap
            exfalso
            obtain ⟨o3, ho3, _, _, hch3⟩ := ha
            obtain ⟨o', ho', _, _, _, e4, e5⟩ := markedOnly_payload_rev m m3 _ h13 a o3 ho3
            have : o' = o := Option.some.inj (ho'.symm.trans ho)
            subst this
            rw [e4, e5] at hch3
            rw [markedOnly_isMarked _ _ _ hmo3 _ hmh, hmt] at hch3
            simp at hch3
          · exact pending_of_store m p a o ho h0 hap (hpend2 a (hpend3 a ha))
      · refine ⟨_, ?_, hst, hmp1, ?_⟩
        · simp [mark, hload, h0, ht]
        · intro a ha
          by_cases hap : a = p
          · subst hap
            obtain ⟨o3, ho3, _, ht3, _⟩ := ha
            rw [store_same] at ho3
            have := Option.some.inj ho3
            rw [← this] at ht3
            exact absurd ht3 ht
          · exact pending_of_store m p a o ho h0 hap ha

theorem markRoots_spec (l : List Nat) (fuel : Nat) (hfuel : l.length < fuel) :
    ∀ (rs : List Nat) (m : Mem), Closed m l → Allocated m l → (∀ r ∈ rs, r ∈ l) →
    ∃ m2, markRoots fuel m rs = .ok m2 ∧ MarkedOnly m m2 (fun a => ∃ r ∈ rs, Reach m r a) ∧
      (∀ r ∈ rs, isMarked m2 r = true) ∧ ∀ a, Pending m2 a → Pending m a
  | [], m, _, _, _ =>
    ⟨m, rfl, markedOnly_refl _ _, fun r hr => by simp at hr, fun _ h => h⟩
  | r :: rs, m, hc, hal, hrs => by
    have hcnt := unmarkedCount_le_length m l
    obtain ⟨m1, hr1, hmo1, hm1, hp1⟩ :=
      mark_spec l fuel m r hc hal (hrs r (List.mem_cons_self _ _)) (by omega)
    obtain ⟨m2, hr2, hmo2, hm2, hp2⟩ :=
      markRoots_spec l fuel hfuel rs m1 (markedOnly_closed _ _ _ hmo1 l hc)
        (markedOnly_allocated _ _ _ hmo1 l hal) (fun x hx => hrs x (List.mem_cons_of_mem _ hx))
    have hmo1' : MarkedOnly m m1 (fun a => ∃ x ∈ r :: rs, Reach m x a) :=
      markedOnly_weaken _ _ _ _ (fun a ha => ⟨r, List.mem_cons_self _ _, ha⟩) hmo1
    have hmo2' : MarkedOnly m1 m2 (fun a => ∃ x ∈ r :: rs, Reach m x a) :=
      markedOnly_weaken _ _ _ _
        (fun a ⟨x, hx, ha⟩ =>
          ⟨x, List.mem_cons_of_mem _ hx, (markedOnly_reach m m1 _ hmo1 _ _).1 ha⟩) hmo2
    refine ⟨m2, ?_, markedOnly_trans _ _ _ _ hmo1' hmo2', ?_, fun a ha => hp1 a (hp2 a ha)⟩
    · rw [markRoots, hr1]
      exact hr2
    · intro x hx
      rcases List.mem_cons.1 hx with e | e
      · rw [e]
        exact markedOnly_isMarked _ _ _ hmo2 r hm1
      · exact hm2 x e

theorem reach_mem_closed (m : Mem) (l : List Nat) (hc : Closed m l) (r a : Nat)
    (hr : r ∈ l) (h : Reach m r a) : a ∈ l := by
  induction h with
  | refl => exact hr
  | tail _ hbc ih =>
    rw [edge_iff] at hbc
    obtain ⟨o, ho, ht, hb⟩ := hbc
    have := (closed_iff m l).1 hc _ ih o ho ht
    rcases hb with e | e
    · exact e ▸ this.1
    · exact e ▸ this.2

theorem reachable_mem (vm : VM) (l : List Nat) (hwf : WellFormed vm l) (a : Nat)
    (h : Reachable vm a) : a ∈ l := by
  obtain ⟨r, hr, hra⟩ := h
  exact reach_mem_closed vm.mem l hwf.2.2 r a (hwf.2.1 r hr) hra

theorem wellFormed_allocated (vm : VM) (l : List Nat) (hwf : WellFormed vm l) :
    Allocated vm.mem l :=
  fun a ha => ⟨chain_ne_zero _ _ _ hwf.1 a ha, chain_allocated _ _ _ hwf.1 a ha⟩

/-- Summary of `markAll` on a well-formed state without marks. -/
theorem markAll_spec (vm : VM) (l : List Nat) (fuel : Nat)
    (hwf : WellFormed vm l) (hun : AllUnmarked vm.mem l) (hfuel : l.length < fuel) :
    ∃ m2, markAll fuel vm = .ok { vm with mem := m2 } ∧
      MarkedOnly vm.mem m2 (Reachable vm) ∧
      (∀ a ∈ l, isMarked m2 a = true ↔ Reachable vm a) := by
  obtain ⟨m2, hr, hmo, hroots, hpend⟩ :=
    markRoots_spec l fuel hfuel vm.stack vm.mem hwf.2.2 (wellFormed_allocated vm l hwf) hwf.2.1
  refine ⟨m2, ?_, hmo, ?_⟩
  · rw [markAll, hr]
  · have hnp : ∀ a, a ∈ l → ¬ Pending m2 a := by
      intro a ha hp
      obtain ⟨o, ho, hm, _⟩ := hpend a hp
      have := hun a ha
      rw [isMarked_of_mem _ a o ho hm] at this
      cases this
    intro a ha
    constructor
    · intro hma
      rcases hmo a with h1 | ⟨_, _, _, _, hs⟩
      · have := hun a ha
        unfold isMarked at this hma
        rw [h1] at hma
        rw [hma] at this
        cases this
      · exact hs
    · rintro ⟨r, hr, hra⟩
      have hra2 : Reach m2 r a := (markedOnly_reach vm.mem m2 _ hmo r a).2 hra
      have hc2 := markedOnly_closed _ _ _ hmo l hwf.2.2
      -- the traversal stays in the list, where no pair is pending
      have key : ∀ b, Reach m2 r b → b ∈ l ∧ isMarked m2 b = true := by
        intro b hb
        induction hb with
        | refl => exact ⟨hwf.2.1 r hr, hroots r hr⟩
        | tail hxy hyz ih =>
          rename_i y z
          have hz : z ∈ l :=
            reach_mem_closed m2 l hc2 y z ih.1 (Relation.ReflTransGen.single hyz)
          refine ⟨hz, ?_⟩
          rw [edge_iff] at hyz
          obtain ⟨o, ho, ht, hb⟩ := hyz
          obtain ⟨o', ho', hm'⟩ := (isMarked_true_iff m2 y).1 ih.2
          have : o' = o := Option.some.inj (ho'.symm.trans ho)
          subst this
          cases hx : isMarked m2 z
          · exfalso
            refine hnp y ih.1 ⟨o', ho, hm', ht, ?_⟩
            rcases hb with e | e
            · exact Or.inl (e ▸ hx)
            · exact Or.inr (e ▸ hx)
          · rfl
      exact (key a hra2).2

/-! ## The sweep phase -/

theorem readLoc_nextOf_iff (vm : VM) (q p : Nat) :
    readLoc vm (.nextOf q) = .ok p ↔ q ≠ 0 ∧ ∃ o, vm.mem q = some o ∧ o.next = p := by
  show (match load vm.mem q with
    | .error e => Except.error e
    | .ok o => Except.ok o.next) = .ok p ↔ _
  cases h : load vm.mem q with
  | error e =>
    simp only [false_iff, reduceCtorEq]
    rintro ⟨h0, o, ho, _⟩
    rw [load_of_mem _ _ _ h0 ho] at h
    cases h
  | ok o =>
    obtain ⟨h0, ho⟩ := (load_ok_iff _ _ _).1 h
    simp only [Except.ok.injEq]
    constructor
    · intro e
      exact ⟨h0, o, ho, e⟩
    · rintro ⟨_, o', ho', e⟩
      have : o' = o := Option.some.inj (ho'.symm.trans ho)
      exact this ▸ e

theorem filter_isMarked_congr (m m2 : Mem) (l : List Nat) (h : ∀ a ∈ l, m2 a = m a) :
    l.filter (isMarked m2) = l.filter (isMarked m) := by
  apply List.filter_congr
  intro a ha
  unfold isMarked
  rw [h a ha]

theorem filter_not_isMarked_congr (m m2 : Mem) (l : List Nat) (h : ∀ a ∈ l, m2 a = m a) :
    l.filter (fun a => !isMarked m2 a) = l.filter (fun a => !isMarked m a) := by
  apply List.filter_congr
  intro a ha
  unfold isMarked
  rw [h a ha]

theorem chain_of_eq_on (m m2 : Mem) (l : List Nat) (p : Nat) (h : ∀ a ∈ l, m2 a = m a)
    (hc : Chain m p l) : Chain m2 p l := by
  refine chain_congr m m2 l p (fun a ha => ?_) hc
  obtain ⟨o, ho⟩ := chain_allocated m l p hc a ha
  exact ⟨o, o, ho, (h a ha).trans ho, rfl⟩


theorem isMarked_congr (m m2 : Mem) (a : Nat) (h : m2 a = m a) :
    isMarked m2 a = isMarked m a := by
  unfold isMarked
  rw [h]

theorem readLoc_congr (vm vm2 : VM) (loc : Loc)
    (hq : ∀ q, loc = .nextOf q → vm2.mem q = vm.mem q)
    (hf : loc = .first → vm2.firstObject = vm.firstObject) :
    readLoc vm2 loc = readLoc vm loc := by
  cases loc with
  | first => simp [readLoc, hf rfl]
  | nextOf q => simp [readLoc, load, hq q rfl]

theorem writeLoc_spec (vm : VM) (loc : Loc) (p v : Nat) (hr : readLoc vm loc = .ok p) :
    ∃ vm1, writeLoc vm v loc = .ok vm1 ∧ readLoc vm1 loc = .ok v ∧
      (∀ b, loc ≠ .nextOf b → vm1.mem b = vm.mem b) ∧
      (∀ q, loc = .nextOf q → ∃ o, vm.mem q = some o ∧ vm1.mem q = some { o with next := v }) ∧
      (loc ≠ .first → vm1.firstObject = vm.firstObject) ∧
      vm1.numObjects = vm.numObjects ∧ vm1.stack = vm.stack ∧
      vm1.maxObjects = vm.maxObjects := by
  cases loc with
  | first =>
    refine ⟨{ vm with firstObject := v }, rfl, rfl, fun _ _ => rfl, ?_, ?_, rfl, rfl, rfl⟩
    · intro q hq
      cases hq
    · intro h
      exact absurd rfl h
  | nextOf q =>
    obtain ⟨h0, o, ho, _⟩ := (readLoc_nextOf_iff vm q p).1 hr
    have hl := load_of_mem vm.mem q o h0 ho
    refine ⟨{ vm with mem := store vm.mem q { o with next := v } }, ?_, ?_, ?_, ?_,
      fun _ => rfl, rfl, rfl, rfl⟩
    · simp [writeLoc, hl]
    · rw [readLoc_nextOf_iff]
      exact ⟨h0, _, store_same _ _ _, rfl⟩
    · intro b hb
      exact store_other _ _ _ _ (fun e => hb (e ▸ rfl))
    · intro q' hq'
      cases hq'
      exact ⟨o, ho, store_same _ _ _⟩

theorem sweepLoop_spec : ∀ (l : List Nat) (fuel : Nat) (vm : VM) (loc : Loc) (p : Nat),
    readLoc vm loc = .ok p → Chain vm.mem p l → (∀ a ∈ l, loc ≠ .nextOf a) →
    l.length < fuel → ∃ vm2, sweepLoop fuel vm loc = .ok vm2 ∧ SweepPost vm vm2 loc l
  | _, 0, _, _, _, _, _, _, hf => by omega
  | [], fuel + 1, vm, loc, p, hr, hc, _, _ => by
    rw [chain_nil_iff] at hc
    subst hc
    refine ⟨vm, ?_, 0, hr, rfl, fun a ha => by simp at ha, fun a ha => by simp at ha,
      fun _ _ _ => rfl, ?_, fun _ => rfl, by simp, rfl, rfl⟩
    · rw [sweepLoop, hr]
      simp
    · intro q hq
      subst hq
      obtain ⟨_, o, ho, hn⟩ := (readLoc_nextOf_iff vm q 0).1 hr
      refine ⟨o, ho, ?_⟩
      rw [ho, ← hn]
  | a :: l, fuel + 1, vm, loc, p, hr, hc, hloc, hf => by
    have hnm := chain_head_not_mem vm.mem p a l hc
    rw [chain_cons_iff] at hc
    obtain ⟨hpa, ha0, o, ho, hcl⟩ := hc
    subst hpa
    have hload := load_of_mem vm.mem p o ha0 ho
    have hlen : l.length < fuel := by
      simp only [List.length_cons] at hf
      omega
    have hlocp : loc ≠ .nextOf p := hloc p (List.mem_cons_self _ _)
    have hlocl : ∀ b ∈ l, loc ≠ .nextOf b := fun b hb => hloc b (List.mem_cons_of_mem _ hb)
    have hne : ∀ b ∈ l, b ≠ p := fun b hb e => hnm (e ▸ hb)
    by_cases hm : o.marked = 0
    · -- the object at `p` is unlinked and freed
      have hmp : isMarked vm.mem p = false := isMarked_false_of_mem _ _ _ ho hm
      obtain ⟨vm1, hw, hr1, hfr1, hq1, hfi1, hn1, hs1, hx1⟩ := writeLoc_spec vm loc p o.next hr
      have hstep : sweepLoop (fuel + 1) vm loc =
          sweepLoop fuel
            { vm1 with mem := free vm1.mem p, numObjects := vm1.numObjects - 1 } loc := by
        rw [sweepLoop, hr]
        simp only [ha0, if_false, hload, hm, if_true, hw]
      have hrA : readLoc
          { vm1 with mem := free vm1.mem p, numObjects := vm1.numObjects - 1 } loc
            = .ok o.next := by
        rw [← hr1]
        apply readLoc_congr
        · intro q hq
          exact free_other _ _ _ (fun e => hlocp (e ▸ hq))
        · intro _
          rfl
      have hAeq : ∀ b, b ≠ p → loc ≠ .nextOf b → free vm1.mem p b = vm.mem b := by
        intro b hb hlb
        rw [free_other _ _ _ hb]
        exact hfr1 b hlb
      have hAl : ∀ b ∈ l, free vm1.mem p b = vm.mem b := fun b hb =>
        hAeq b (hne b hb) (hlocl b hb)
      obtain ⟨vm2, hrun, p2, hr2, hc2, hmk, hum, hfr, hq, hfi, hn, hs, hmx⟩ :=
        sweepLoop_spec l fuel _ loc o.next hrA (chain_of_eq_on _ _ _ _ hAl hcl) hlocl hlen
      refine ⟨vm2, hstep.trans hrun, p2, hr2, ?_, ?_, ?_, ?_, ?_, ?_, ?_, hs.trans hs1,
        hmx.trans hx1⟩
      · rw [List.filter_cons_of_neg (by simp [hmp])]
        rw [← filter_isMarked_congr vm.mem _ l hAl]
        exact hc2
      · intro b hb hbm
        rcases List.mem_cons.1 hb with e | e
        · rw [e, hmp] at hbm
          cases hbm
        · have hbm' : isMarked (free vm1.mem p) b = true :=
            (isMarked_congr _ _ b (hAl b e)).trans hbm
          obtain ⟨ob, o2, h1, h2, h3, h4⟩ := hmk b e hbm'
          exact ⟨ob, o2, (hAl b e) ▸ h1, h2, h3, h4⟩
      · intro b hb hbm
        rcases List.mem_cons.1 hb with e | e
        · rw [e]
          rw [hfr p hnm hlocp]
          exact free_same _ _
        · exact hum b e ((isMarked_congr _ _ b (hAl b e)).trans hbm)
      · intro b hb hlb
        have hbp : b ≠ p := fun e => hb (e ▸ List.mem_cons_self _ _)
        have hbl : b ∉ l := fun e => hb (List.mem_cons_of_mem _ e)
        rw [hfr b hbl hlb]
        exact hAeq b hbp hlb
      · intro q hql
        obtain ⟨oq, hoq, hoq1⟩ := hq1 q hql
        obtain ⟨oA, hoA, hoA2⟩ := hq q hql
        have hqp : q ≠ p := fun e => hlocp (e ▸ hql)
        have hA : free vm1.mem p q = some { oq with next := o.next } := by
          rw [free_other _ _ _ hqp]
          exact hoq1
        have : oA = { oq with next := o.next } := Option.some.inj (hoA.symm.trans hA)
        subst this
        exact ⟨oq, hoq, hoA2⟩
      · intro h
        exact (hfi h).trans (hfi1 h)
      · rw [hn, List.filter_cons_of_pos (by simp [hmp]),
          filter_not_isMarked_congr vm.mem _ l hAl]
        simp only [hn1, List.length_cons, Nat.cast_add, Nat.cast_one]
        ring
    · -- the object at `p` is kept, its mark is cleared
      have hmp : isMarked vm.mem p = true := isMarked_of_mem _ _ _ ho hm
      have hstep : sweepLoop (fuel + 1) vm loc =
          sweepLoop fuel { vm with mem := store vm.mem p { o with marked := 0 } }
            (.nextOf p) := by
        rw [sweepLoop, hr]
        simp only [ha0, if_false, hload, hm]
      have hrB : readLoc { vm with mem := store vm.mem p { o with marked := 0 } } (.nextOf p)
          = .ok o.next := by
        rw [readLoc_nextOf_iff]
        exact ⟨ha0, _, store_same _ _ _, rfl⟩
      have hBeq : ∀ b, b ≠ p → store vm.mem p { o with marked := 0 } b = vm.mem b :=
        fun b hb => store_other _ _ _ _ hb
      have hBl : ∀ b ∈ l, store vm.mem p { o with marked := 0 } b = vm.mem b :=
        fun b hb => hBeq b (hne b hb)
      have hlocB : ∀ b ∈ l, Loc.nextOf p ≠ Loc.nextOf b := by
        intro b hb e
        cases e
        exact hnm hb
      obtain ⟨vm2, hrun, p2, hr2, hc2, hmk, hum, hfr, hq, hfi, hn, hs, hmx⟩ :=
        sweepLoop_spec l fuel _ (.nextOf p) o.next hrB (chain_of_eq_on _ _ _ _ hBl hcl)
          hlocB hlen
      obtain ⟨oB, hoB, hoB2⟩ := hq p rfl
      have hoBe : oB = { o with marked := 0 } :=
        Option.some.inj (hoB.symm.trans (store_same _ _ _))
      subst hoBe
      have hfirst : vm2.firstObject = vm.firstObject := hfi (by simp)
      have hkeep : ∀ b, b ∉ l → b ≠ p → vm2.mem b = vm.mem b := by
        intro b hbl hbp
        rw [hfr b hbl (fun e => hbp (by cases e; rfl))]
        exact hBeq b hbp
      refine ⟨vm2, hstep.trans hrun, p, ?_, ?_, ?_, ?_, ?_, ?_, fun _ => hfirst, ?_, hs, hmx⟩
      · rw [← hr]
        apply readLoc_congr
        · intro q hql
          apply hkeep q
          · exact fun e => hlocl q e hql
          · exact fun e => hlocp (e ▸ hql)
        · intro _
          exact hfirst
      · rw [List.filter_cons_of_pos hmp, chain_cons_iff]
        refine ⟨rfl, ha0, _, hoB2, ?_⟩
        rw [← filter_isMarked_congr vm.mem _ l hBl]
        exact hc2
      · intro b hb hbm
        rcases List.mem_cons.1 hb with e | e
        · rw [e]
          exact ⟨o, _, ho, hoB2, rfl, rfl⟩
        · have hbm' : isMarked (store vm.mem p { o with marked := 0 }) b = true :=
            (isMarked_congr _ _ b (hBl b e)).trans hbm
          obtain ⟨ob, o2, h1, h2, h3, h4⟩ := hmk b e hbm'
          exact ⟨ob, o2, (hBl b e) ▸ h1, h2, h3, h4⟩
      · intro b hb hbm
        rcases List.mem_cons.1 hb with e | e
        · rw [e, hmp] at hbm
          cases hbm
        · exact hum b e ((isMarked_congr _ _ b (hBl b e)).trans hbm)
      · intro b hb _
        exact hkeep b (fun e => hb (List.mem_cons_of_mem _ e))
          (fun e => hb (e ▸ List.mem_cons_self _ _))
      · intro q hql
        obtain ⟨_, oq, hoq, hnq⟩ := (readLoc_nextOf_iff vm q p).1 (hql ▸ hr)
        refine ⟨oq, hoq, ?_⟩
        rw [hkeep q (fun e => hlocl q e hql) (fun e => hlocp (e ▸ hql)), hoq, ← hnq]
      · rw [hn, List.filter_cons_of_neg (by simp [hmp]),
          filter_not_isMarked_congr vm.mem _ l hBl]

theorem marksweep_spec (vm : VM) (l : List Nat) (fuel : Nat)
    (hl : Chain vm.mem vm.firstObject l) (hfuel : l.length < fuel) :
    ∃ vm2, marksweep fuel vm = .ok vm2 ∧ SweepPost vm vm2 .first l :=
  sweepLoop_spec l fuel vm .first vm.firstObject rfl hl (fun _ _ h => by cases h) hfuel

theorem length_filter_split (f : Nat → Bool) : ∀ l : List Nat,
    (l.filter f).length + (l.filter (fun a => !f a)).length = l.length
  | [] => rfl
  | a :: l => by
    have ih := length_filter_split f l
    cases h : f a <;> simp [List.filter_cons, h] <;> omega

/-- A collection on a well-formed state without marks returns, and keeps
exactly the reachable objects. -/
theorem gc_spec (vm : VM) (l : List Nat) (fuel : Nat)
    (hwf : WellFormed vm l) (hun : AllUnmarked vm.mem l) (hfuel : l.length < fuel) :
    ∃ vm2 l2, gc fuel vm = .ok vm2 ∧ GcPost vm vm2 l l2 := by
  obtain ⟨m1, hmark, hmo, hiff⟩ := markAll_spec vm l fuel hwf hun hfuel
  have hc1 : Chain m1 vm.firstObject l := by
    refine chain_congr vm.mem m1 l _ (fun a ha => ?_) hwf.1
    obtain ⟨o, ho⟩ := chain_allocated _ _ _ hwf.1 a ha
    obtain ⟨o2, ho2, _, hn, _⟩ := markedOnly_payload _ _ _ hmo a o ho
    exact ⟨o, o2, ho, ho2, hn⟩
  obtain ⟨vm2, hsweep, p2, hr2, hc2, hmk, hum, hfr, _, _, hn, hs, hmx⟩ :=
    marksweep_spec { vm with mem := m1 } l fuel hc1 hfuel
  have hp2 : p2 = vm2.firstObject := (Except.ok.inj hr2).symm
  subst hp2
  have hmem : ∀ a, a ∈ l.filter (isMarked m1) ↔ Reachable vm a := by
    intro a
    rw [List.mem_filter]
    constructor
    · rintro ⟨ha, hm⟩
      exact (hiff a ha).1 hm
    · intro hr
      have ha := reachable_mem vm l hwf a hr
      exact ⟨ha, (hiff a ha).2 hr⟩
  refine ⟨{ vm2 with maxObjects :=
      if vm2.numObjects = 0 then INIT_OBJ_NUM_MAX else wrapInt (vm2.numObjects * 2) },
    l.filter (isMarked m1), ?_, hc2, List.filter_sublist l, hmem, ?_, ?_, ?_, ?_, hs, rfl⟩
  · rw [gc, hmark]
    simp only [hsweep]
  · intro a ha
    obtain ⟨hal, ham⟩ := List.mem_filter.1 ha
    obtain ⟨o1, o2, h1, h2, h3, h4⟩ := hmk a hal ham
    obtain ⟨o, ho, e1, _, e3, e4, e5⟩ := markedOnly_payload_rev _ _ _ hmo a o1 h1
    refine ⟨o, o2, ho, h2, h3, h4.trans ?_⟩
    simp only [Object.payload, e1, e3, e4, e5]
  · intro a ha hna
    apply hum a ha
    cases hx : isMarked m1 a
    · rfl
    · exact absurd (List.mem_filter.2 ⟨ha, hx⟩) hna
  · intro a ha
    have h1 : vm2.mem a = m1 a := hfr a ha (by simp)
    rw [h1]
    rcases hmo a with h | ⟨_, _, _, _, hr⟩
    · exact h
    · exact absurd (reachable_mem vm l hwf a hr) ha
  · have hsp := length_filter_split (isMarked m1) l
    show vm2.numObjects = _
    rw [hn]
    show vm.numObjects - ((l.filter (fun a => !isMarked m1 a)).length : Int) =
      vm.numObjects - ((l.length : Int) - ((l.filter (isMarked m1)).length : Int))
    omega

/-! ## The allocating operations when no collection is triggered -/

theorem store_store (m : Mem) (p : Nat) (o o2 : Object) :
    store (store m p o) p o2 = store m p o2 := by
  funext a
  unfold store
  by_cases h : a = p <;> simp [h]

theorem pushInt_nogc (fuel : Nat) (vm : VM) (v : Int) (addr : Nat)
    (hn : vm.numObjects ≠ vm.maxObjects) (h0 : addr ≠ 0)
    (hs : vm.stack.length < STACK_MAX_SIZE) :
    pushInt fuel vm v addr = .ok
      { vm with
        mem := store vm.mem addr
          { type := .INT, marked := 0, next := vm.firstObject, value := v, head := 0, tail := 0 }
        stack := vm.stack ++ [addr]
        firstObject := addr
        numObjects := vm.numObjects + 1 } := by
  simp [pushInt, newObject, hn, allocate, load, h0, store_same, push, hs, store_store]

theorem pushPair_nogc (fuel : Nat) (vm : VM) (addr : Nat) (s : List Nat) (x y : Nat)
    (hn : vm.numObjects ≠ vm.maxObjects) (h0 : addr ≠ 0)
    (hs : vm.stack = s ++ [x, y]) (hlen : s.length < STACK_MAX_SIZE) :
    pushPair fuel vm addr = .ok
      { vm with
        mem := store vm.mem addr
          { type := .PAIR, marked := 0, next := vm.firstObject, value := 0, head := x, tail := y }
        stack := s ++ [addr]
        firstObject := addr
        numObjects := vm.numObjects + 1 } := by
  have e1 : (s ++ [x, y]).getLast? = some y := by simp
  have e2 : (s ++ [x, y]).dropLast = s ++ [x] := by
    rw [show s ++ [x, y] = (s ++ [x]) ++ [y] by simp, List.dropLast_concat]
  have e3 : (s ++ [x]).getLast? = some x := by simp
  have e4 : (s ++ [x]).dropLast = s := List.dropLast_concat
  simp [pushPair, newObject, hn, allocate, load, h0, store_same, push, pop, hs, e1, e2, e3, e4,
    hlen, store_store]

theorem setTail_eq (vm : VM) (a b : Nat) (o : Object) (h0 : a ≠ 0) (ho : vm.mem a = some o) :
    setTail vm a b = .ok { vm with mem := store vm.mem a { o with tail := b } } := by
  simp [setTail, load_of_mem vm.mem a o h0 ho]

theorem handlingSetup_eq (fuel a1 a2 a3 a4 a5 a6 : Nat)
    (hnd : [a1, a2, a3, a4, a5, a6].Nodup) (h0 : 0 ∉ [a1, a2, a3, a4, a5, a6]) :
    handlingSetup fuel a1 a2 a3 a4 a5 a6 = .ok (handlingState a1 a2 a3 a4 a5 a6) := by
  simp only [List.nodup_cons, List.mem_cons, List.mem_singleton, not_or, List.not_mem_nil,
    not_false_eq_true, List.nodup_nil, and_true] at hnd h0
  obtain ⟨⟨h12, h13, h14, h15, h16⟩, ⟨h23, h24, h25, h26⟩, ⟨h34, h35, h36⟩, ⟨h45, h46⟩, h56⟩ := hnd
  obtain ⟨z1, z2, z3, z4, z5, z6⟩ := h0
  unfold handlingSetup
  rw [pushInt_nogc _ _ _ _ (by simp [newVM, INIT_OBJ_NUM_MAX]) (Ne.symm z1)
    (by simp [newVM, STACK_MAX_SIZE])]
  simp only [andThen, newVM]
  rw [pushInt_nogc _ _ _ _ (by simp [INIT_OBJ_NUM_MAX]) (Ne.symm z2) (by simp [STACK_MAX_SIZE])]
  simp only
  rw [pushPair_nogc _ _ _ [] a1 a2 (by simp [INIT_OBJ_NUM_MAX]) (Ne.symm z3) (by simp)
    (by simp [STACK_MAX_SIZE])]
  simp only
  rw [pushInt_nogc _ _ _ _ (by simp [INIT_OBJ_NUM_MAX]) (Ne.symm z4) (by simp [STACK_MAX_SIZE])]
  simp only
  rw [pushInt_nogc _ _ _ _ (by simp [INIT_OBJ_NUM_MAX]) (Ne.symm z5) (by simp [STACK_MAX_SIZE])]
  simp only
  rw [pushPair_nogc _ _ _ [a3] a4 a5 (by simp [INIT_OBJ_NUM_MAX]) (Ne.symm z6) (by simp)
    (by simp [STACK_MAX_SIZE])]
  simp only
  rw [setTail_eq _ a3 a6 { type := .PAIR, marked := 0, next := a2, value := 0, head := a1, tail := a2 }
    (Ne.symm z3) (by simp [store, h34, h35, h36])]
  simp only
  rw [setTail_eq _ a6 a3 { type := .PAIR, marked := 0, next := a5, value := 0, head := a4, tail := a5 }
    (Ne.symm z6) (by simp [store, Ne.symm h36])]
  norm_num [INIT_OBJ_NUM_MAX, handlingState]

/-! ## The contracts of the collector -/

/-- C1: on a well-formed state whose heap objects all have `marked == 0`,
`markAll` returns and afterwards an object of the heap is marked if and only
if it is reachable from a stack entry through `head` and `tail` references of
pairs; the unreachable objects are left as they were, with `marked == 0`. -/
theorem markAll_marks_exactly_reachable (vm : VM) (l : List Nat) (fuel : Nat)
    (hwf : WellFormed vm l) (hun : AllUnmarked vm.mem l) (hfuel : l.length < fuel) :
    ∃ vm2, markAll fuel vm = .ok vm2 ∧
      (∀ a ∈ l, isMarked vm2.mem a = true ↔ Reachable vm a) ∧
      (∀ a ∈ l, ¬ Reachable vm a → isMarked vm2.mem a = false) ∧
      (∀ a, ¬ Reachable vm a → vm2.mem a = vm.mem a) := by
  obtain ⟨m2, hrun, hmo, hiff⟩ := markAll_spec vm l fuel hwf hun hfuel
  refine ⟨_, hrun, hiff, ?_, ?_⟩
  · intro a ha hnr
    cases hx : isMarked m2 a
    · rfl
    · exact absurd ((hiff a ha).1 hx) hnr
  · intro a hnr
    rcases hmo a with h | ⟨_, _, _, _, hr⟩
    · exact h
    · exact absurd hr hnr

theorem markAll_marks_exactly_reachable_witness :
    WellFormed (handlingState 1 2 3 4 5 6) [6, 5, 4, 3, 2, 1] ∧
    AllUnmarked (handlingState 1 2 3 4 5 6).mem [6, 5, 4, 3, 2, 1] ∧
    ∃ vm2, markAll 7 (handlingState 1 2 3 4 5 6) = .ok vm2 ∧
      (∀ a ∈ [6, 5, 4, 3, 2, 1],
        isMarked vm2.mem a = true ↔ Reachable (handlingState 1 2 3 4 5 6) a) ∧
      (∀ a ∈ [6, 5, 4, 3, 2, 1],
        ¬ Reachable (handlingState 1 2 3 4 5 6) a → isMarked vm2.mem a = false) ∧
      (∀ a, ¬ Reachable (handlingState 1 2 3 4 5 6) a →
        vm2.mem a = (handlingState 1 2 3 4 5 6).mem a) :=
  ⟨by decide, by decide,
    markAll_marks_exactly_reachable (handlingState 1 2 3 4 5 6) [6, 5, 4, 3, 2, 1] 7
      (by decide) (by decide) (by decide)⟩

/-- C2: for any mark bits, when `l` is the object list, `marksweep` returns;
the object list afterwards is `l` restricted to the marked objects, in the
same order; each of them has `marked == 0`; `numObjects` has decreased by the
number of unmarked objects of `l`, and these have been freed. -/
theorem marksweep_contract (vm : VM) (l : List Nat) (fuel : Nat)
    (hl : Chain vm.mem vm.firstObject l) (hfuel : l.length < fuel) :
    ∃ vm2, marksweep fuel vm = .ok vm2 ∧
      Chain vm2.mem vm2.firstObject (l.filter (isMarked vm.mem)) ∧
      (∀ a ∈ l.filter (isMarked vm.mem), isMarked vm2.mem a = false) ∧
      vm2.numObjects =
        vm.numObjects - ((l.filter (fun a => !isMarked vm.mem a)).length : Int) ∧
      (∀ a ∈ l, isMarked vm.mem a = false → vm2.mem a = none) := by
  obtain ⟨vm2, hrun, p2, hr2, hc2, hmk, hum, _, _, _, hn, _, _⟩ :=
    marksweep_spec vm l fuel hl hfuel
  have hp2 : p2 = vm2.firstObject := (Except.ok.inj hr2).symm
  subst hp2
  refine ⟨vm2, hrun, hc2, ?_, hn, hum⟩
  intro a ha
  obtain ⟨hal, ham⟩ := List.mem_filter.1 ha
  obtain ⟨_, o2, _, h2, h3, _⟩ := hmk a hal ham
  exact isMarked_false_of_mem _ _ _ h2 h3

theorem marksweep_contract_witness :
    Chain sweepExample.mem sweepExample.firstObject [3, 2, 1] ∧
    ∃ vm2, marksweep 4 sweepExample = .ok vm2 ∧
      Chain vm2.mem vm2.firstObject ([3, 2, 1].filter (isMarked sweepExample.mem)) ∧
      (∀ a ∈ [3, 2, 1].filter (isMarked sweepExample.mem), isMarked vm2.mem a = false) ∧
      vm2.numObjects = sweepExample.numObjects -
        (([3, 2, 1].filter (fun a => !isMarked sweepExample.mem a)).length : Int) ∧
      (∀ a ∈ [3, 2, 1], isMarked sweepExample.mem a = false → vm2.mem a = none) :=
  ⟨by decide, marksweep_contract sweepExample [3, 2, 1] 4 (by decide) (by decide)⟩

theorem sublist_eq_filter : ∀ (l2 l : List Nat), l2.Sublist l → l.Nodup →
    l2 = l.filter (fun a => decide (a ∈ l2)) := by
  intro l2 l h
  induction h with
  | slnil => intro _; rfl
  | cons a h ih =>
    rename_i l2 l
    intro hnd
    obtain ⟨ha, hnd'⟩ := List.nodup_cons.1 hnd
    have ha2 : a ∉ l2 := fun hx => ha (h.subset hx)
    rw [List.filter_cons_of_neg (by simpa using ha2)]
    exact ih hnd'
  | cons₂ a h ih =>
    rename_i l2 l
    intro hnd
    obtain ⟨ha, hnd'⟩ := List.nodup_cons.1 hnd
    rw [List.filter_cons_of_pos (by simp)]
    congr 1
    have hc : l.filter (fun x => decide (x ∈ a :: l2)) = l.filter (fun x => decide (x ∈ l2)) := by
      apply List.filter_congr
      intro x hx
      have hxa : x ≠ a := fun e => ha (e ▸ hx)
      simp [hxa]
    rw [hc]
    exact ih hnd'

theorem sublist_eq_of_subset (l2 l : List Nat) (h : l2.Sublist l) (hnd : l.Nodup)
    (hs : ∀ a ∈ l, a ∈ l2) : l2 = l := by
  have := sublist_eq_filter l2 l h hnd
  rw [this]
  apply List.filter_eq_self.2
  intro a ha
  simpa using hs a ha

/-- C5: on a well-formed state without marks, a single `gc` returns and no
object that is unreachable from the stack is in the object list afterwards,
whether or not it lies on a reference cycle; the unreachable objects of the
old list have been freed. -/
theorem gc_reclaims_unreachable (vm : VM) (l : List Nat) (fuel : Nat)
    (hwf : WellFormed vm l) (hun : AllUnmarked vm.mem l) (hfuel : l.length < fuel) :
    ∃ vm2 l2, gc fuel vm = .ok vm2 ∧ Chain vm2.mem vm2.firstObject l2 ∧
      ∀ a, ¬ Reachable vm a → a ∉ l2 ∧ (a ∈ l → vm2.mem a = none) := by
  obtain ⟨vm2, l2, hrun, hc, _, hmem, _, hfree, _⟩ := gc_spec vm l fuel hwf hun hfuel
  refine ⟨vm2, l2, hrun, hc, ?_⟩
  intro a hnr
  have hna : a ∉ l2 := fun h => hnr ((hmem a).1 h)
  exact ⟨hna, fun ha => hfree a ha hna⟩

theorem gc_reclaims_unreachable_witness :
    WellFormed cycleExample [3, 2, 1] ∧ AllUnmarked cycleExample.mem [3, 2, 1] ∧
    Edge cycleExample.mem 2 3 ∧ Edge cycleExample.mem 3 2 ∧
    ¬ Reachable cycleExample 2 ∧ ¬ Reachable cycleExample 3 ∧
    ∃ vm2 l2, gc 4 cycleExample = .ok vm2 ∧ Chain vm2.mem vm2.firstObject l2 ∧
      2 ∉ l2 ∧ 3 ∉ l2 ∧ vm2.mem 2 = none ∧ vm2.mem 3 = none := by
  have hin : ∀ a, Reachable cycleExample a → a ∈ [1] := by
    rintro a ⟨r, hr, hra⟩
    exact reach_mem_closed cycleExample.mem [1] (by decide) r a hr hra
  have h2 : ¬ Reachable cycleExample 2 := fun h => absurd (hin 2 h) (by decide)
  have h3 : ¬ Reachable cycleExample 3 := fun h => absurd (hin 3 h) (by decide)
  obtain ⟨vm2, l2, hrun, hc, hall⟩ :=
    gc_reclaims_unreachable cycleExample [3, 2, 1] 4 (by decide) (by decide) (by decide)
  exact ⟨by decide, by decide, (edge_iff _ _ _).2 ⟨_, rfl, rfl, Or.inr rfl⟩,
    (edge_iff _ _ _).2 ⟨_, rfl, rfl, Or.inr rfl⟩, h2, h3, vm2, l2, hrun, hc, (hall 2 h2).1,
    (hall 3 h3).1, (hall 2 h2).2 (by decide), (hall 3 h3).2 (by decide)⟩

/-! ## The cycle scenario -/

theorem handlingState_wf (a1 a2 a3 a4 a5 a6 : Nat)
    (hnd : [a1, a2, a3, a4, a5, a6].Nodup) (h0 : 0 ∉ [a1, a2, a3, a4, a5, a6]) :
    WellFormed (handlingState a1 a2 a3 a4 a5 a6) [a6, a5, a4, a3, a2, a1] ∧
      AllUnmarked (handlingState a1 a2 a3 a4 a5 a6).mem [a6, a5, a4, a3, a2, a1] := by
  simp only [List.nodup_cons, List.mem_cons, List.mem_singleton, not_or, List.not_mem_nil,
    not_false_eq_true, List.nodup_nil, and_true] at hnd h0
  obtain ⟨⟨h12, h13, h14, h15, h16⟩, ⟨h23, h24, h25, h26⟩, ⟨h34, h35, h36⟩, ⟨h45, h46⟩, h56⟩ := hnd
  obtain ⟨z1, z2, z3, z4, z5, z6⟩ := h0
  have z1' := Ne.symm z1
  have z2' := Ne.symm z2
  have z3' := Ne.symm z3
  have z4' := Ne.symm z4
  have z5' := Ne.symm z5
  have z6' := Ne.symm z6
  have k12 := Ne.symm h12
  have k13 := Ne.symm h13
  have k14 := Ne.symm h14
  have k15 := Ne.symm h15
  have k16 := Ne.symm h16
  have k23 := Ne.symm h23
  have k24 := Ne.symm h24
  have k25 := Ne.symm h25
  have k26 := Ne.symm h26
  have k34 := Ne.symm h34
  have k35 := Ne.symm h35
  have k36 := Ne.symm h36
  have k45 := Ne.symm h45
  have k46 := Ne.symm h46
  have k56 := Ne.symm h56
  refine ⟨⟨?_, ?_, ?_⟩, ?_⟩
  · simp [Chain, handlingState, store, *]
  · simp [handlingState]
  · simp [Closed, closedAt, handlingState, store, *]
  · simp [AllUnmarked, isMarked, handlingState, store, *]

theorem handlingState_lookup (a1 a2 a3 a4 a5 a6 : Nat)
    (hnd : [a1, a2, a3, a4, a5, a6].Nodup) :
    (handlingState a1 a2 a3 a4 a5 a6).mem a1 =
        some { type := .INT, marked := 0, next := 0, value := 1, head := 0, tail := 0 } ∧
      (handlingState a1 a2 a3 a4 a5 a6).mem a2 =
        some { type := .INT, marked := 0, next := a1, value := 2, head := 0, tail := 0 } ∧
      (handlingState a1 a2 a3 a4 a5 a6).mem a3 =
        some { type := .PAIR, marked := 0, next := a2, value := 0, head := a1, tail := a6 } ∧
      (handlingState a1 a2 a3 a4 a5 a6).mem a4 =
        some { type := .INT, marked := 0, next := a3, value := 3, head := 0, tail := 0 } ∧
      (handlingState a1 a2 a3 a4 a5 a6).mem a5 =
        some { type := .INT, marked := 0, next := a4, value := 4, head := 0, tail := 0 } ∧
      (handlingState a1 a2 a3 a4 a5 a6).mem a6 =
        some { type := .PAIR, marked := 0, next := a5, value := 0, head := a4, tail := a3 } := by
  simp only [List.nodup_cons, List.mem_cons, List.mem_singleton, not_or, List.not_mem_nil,
    not_false_eq_true, List.nodup_nil, and_true] at hnd
  obtain ⟨⟨h12, h13, h14, h15, h16⟩, ⟨h23, h24, h25, h26⟩, ⟨h34, h35, h36⟩, ⟨h45, h46⟩, h56⟩ := hnd
  have k12 := Ne.symm h12
  have k13 := Ne.symm h13
  have k14 := Ne.symm h14
  have k15 := Ne.symm h15
  have k16 := Ne.symm h16
  have k23 := Ne.symm h23
  have k24 := Ne.symm h24
  have k25 := Ne.symm h25
  have k26 := Ne.symm h26
  have k34 := Ne.symm h34
  have k35 := Ne.symm h35
  have k36 := Ne.symm h36
  have k45 := Ne.symm h45
  have k46 := Ne.symm h46
  have k56 := Ne.symm h56
  refine ⟨?_, ?_, ?_, ?_, ?_, ?_⟩ <;> simp [handlingState, store, *]

theorem handlingState_reachable (a1 a2 a3 a4 a5 a6 : Nat)
    (hnd : [a1, a2, a3, a4, a5, a6].Nodup) (a : Nat) :
    Reachable (handlingState a1 a2 a3 a4 a5 a6) a ↔ a ∈ [a6, a4, a3, a1] := by
  obtain ⟨e1, _, e3, e4, _, e6⟩ := handlingState_lookup a1 a2 a3 a4 a5 a6 hnd
  have hst : (handlingState a1 a2 a3 a4 a5 a6).stack = [a3, a6] := rfl
  constructor
  · rintro ⟨r, hr, hra⟩
    have hcl : Closed (handlingState a1 a2 a3 a4 a5 a6).mem [a6, a4, a3, a1] := by
      rw [closed_iff]
      intro b hb o ho ht
      simp only [List.mem_cons, List.mem_singleton, List.not_mem_nil, or_false] at hb
      rcases hb with rfl | rfl | rfl | rfl
      · rw [e6] at ho
        cases ho
        simp
      · rw [e4] at ho
        cases ho
        cases ht
      · rw [e3] at ho
        cases ho
        simp
      · rw [e1] at ho
        cases ho
        cases ht
    refine reach_mem_closed _ _ hcl r a ?_ hra
    rw [hst] at hr
    simp only [List.mem_cons, List.mem_singleton, List.not_mem_nil, or_false] at hr ⊢
    rcases hr with rfl | rfl
    · exact Or.inr (Or.inr (Or.inl rfl))
    · exact Or.inl rfl
  · intro ha
    simp only [List.mem_cons, List.mem_singleton, List.not_mem_nil, or_false] at ha
    rcases ha with rfl | rfl | rfl | rfl
    · exact ⟨_, by rw [hst]; simp, reach_refl _ _⟩
    · refine ⟨a6, by rw [hst]; simp, reach_step _ _ _ _ ?_ (reach_refl _ _)⟩
      rw [edge_iff]
      exact ⟨_, e6, rfl, Or.inl rfl⟩
    · exact ⟨_, by rw [hst]; simp, reach_refl _ _⟩
    · refine ⟨a3, by rw [hst]; simp, reach_step _ _ _ _ ?_ (reach_refl _ _)⟩
      rw [edge_iff]
      exact ⟨_, e3, rfl, Or.inl rfl⟩

/-- The collection of the cycle scenario: the pairs `a3`, `a6` and the scalars
`a1`, `a4` are kept. -/
theorem handlingState_gc (fuel a1 a2 a3 a4 a5 a6 : Nat)
    (hnd : [a1, a2, a3, a4, a5, a6].Nodup) (h0 : 0 ∉ [a1, a2, a3, a4, a5, a6])
    (hfuel : 6 < fuel) :
    ∃ vm2, gc fuel (handlingState a1 a2 a3 a4 a5 a6) = .ok vm2 ∧
      GcPost (handlingState a1 a2 a3 a4 a5 a6) vm2 [a6, a5, a4, a3, a2, a1] [a6, a4, a3, a1] := by
  obtain ⟨hwf, hun⟩ := handlingState_wf a1 a2 a3 a4 a5 a6 hnd h0
  obtain ⟨vm2, l2, hrun, hpost⟩ := gc_spec _ _ fuel hwf hun (by simpa using hfuel)
  have hl2 : l2 = [a6, a4, a3, a1] := by
    have hsub := hpost.2.1
    have hmem := hpost.2.2.1
    rw [sublist_eq_filter l2 _ hsub (chain_nodup _ _ _ hwf.1)]
    have hdec : ∀ x, decide (x ∈ l2) = decide (x ∈ [a6, a4, a3, a1]) := by
      intro x
      rw [decide_eq_decide, hmem x, handlingState_reachable a1 a2 a3 a4 a5 a6 hnd x]
    simp only [hdec]
    simp only [List.nodup_cons, List.mem_cons, List.mem_singleton, not_or, List.not_mem_nil,
      not_false_eq_true, List.nodup_nil, and_true] at hnd
    obtain ⟨⟨h12, h13, h14, h15, h16⟩, ⟨h23, h24, h25, h26⟩, ⟨h34, h35, h36⟩, ⟨h45, h46⟩, h56⟩ :=
      hnd
    have k12 := Ne.symm h12
    have k13 := Ne.symm h13
    have k14 := Ne.symm h14
    have k15 := Ne.symm h15
    have k16 := Ne.symm h16
    have k23 := Ne.symm h23
    have k24 := Ne.symm h24
    have k25 := Ne.symm h25
    have k26 := Ne.symm h26
    have k34 := Ne.symm h34
    have k35 := Ne.symm h35
    have k36 := Ne.symm h36
    have k45 := Ne.symm h45
    have k46 := Ne.symm h46
    have k56 := Ne.symm h56
    simp [List.filter_cons, *]
  exact ⟨vm2, hrun, hl2 ▸ hpost⟩

theorem stateOf_ok (vm : VM) : stateOf (.ok vm) = vm := rfl

/-- C6: in the cycle scenario (`pushInt 1`, `pushInt 2`, `pushPair` giving
`a`, `pushInt 3`, `pushInt 4`, `pushPair` giving `b`, `a->tail = b`,
`b->tail = a`, `gc`), whatever distinct non-null addresses `malloc` returns
and for any fuel above the six objects, the run returns with
`numObjects == 4`. -/
theorem handlingTest_count (fuel a1 a2 a3 a4 a5 a6 : Nat)
    (hnd : [a1, a2, a3, a4, a5, a6].Nodup) (h0 : 0 ∉ [a1, a2, a3, a4, a5, a6])
    (hfuel : 6 < fuel) :
    ∃ vm, handlingTest fuel a1 a2 a3 a4 a5 a6 = .ok vm ∧ vm.numObjects = 4 := by
  obtain ⟨vm2, hrun, hpost⟩ := handlingState_gc fuel a1 a2 a3 a4 a5 a6 hnd h0 hfuel
  refine ⟨vm2, ?_, ?_⟩
  · rw [handlingTest, handlingSetup_eq fuel a1 a2 a3 a4 a5 a6 hnd h0]
    exact hrun
  · have hn := hpost.2.2.2.2.2.2.1
    rw [hn]
    simp [handlingState]

theorem handlingTest_count_witness :
    [1, 2, 3, 4, 5, 6].Nodup ∧ 0 ∉ [1, 2, 3, 4, 5, 6] ∧ 6 < 7 ∧
    ∃ vm, handlingTest 7 1 2 3 4 5 6 = .ok vm ∧ vm.numObjects = 4 :=
  ⟨by decide, by decide, by decide,
    handlingTest_count 7 1 2 3 4 5 6 (by decide) (by decide) (by decide)⟩

/-- C7, as stated, fails: with `malloc` returning the addresses 1 to 6 it is
not the case that the pairs `a` (at 3) and `b` (at 6) are unreachable when
`gc` runs, are freed, and that the four scalars (at 1, 2, 4, 5) are on the
stack and survive. -/
theorem handlingTest_survivors_counterexample :
    ¬ (¬ Reachable (stateOf (handlingSetup 7 1 2 3 4 5 6)) 3 ∧
        ¬ Reachable (stateOf (handlingSetup 7 1 2 3 4 5 6)) 6 ∧
        ∃ vm2, handlingTest 7 1 2 3 4 5 6 = .ok vm2 ∧ vm2.mem 3 = none ∧ vm2.mem 6 = none ∧
          ∀ s ∈ [1, 2, 4, 5],
            s ∈ (stateOf (handlingSetup 7 1 2 3 4 5 6)).stack ∧ vm2.mem s ≠ none) := by
  rintro ⟨h, _⟩
  apply h
  rw [handlingSetup_eq 7 1 2 3 4 5 6 (by decide) (by decide), stateOf_ok,
    handlingState_reachable 1 2 3 4 5 6 (by decide)]
  decide

/-- C7, amended: in the cycle scenario, when `gc` runs the stack is `[a, b]`,
so both pairs are reachable; the run returns and the object list afterwards
is `b`, scalar 3, `a`, scalar 1 (the pairs and their `head`s), while the
scalars 2 and 4, which no pair references after the two assignments and which
are not on the stack, have been freed. -/
theorem handlingTest_survivors (fuel a1 a2 a3 a4 a5 a6 : Nat)
    (hnd : [a1, a2, a3, a4, a5, a6].Nodup) (h0 : 0 ∉ [a1, a2, a3, a4, a5, a6])
    (hfuel : 6 < fuel) :
    ∃ vm1 vm2, handlingSetup fuel a1 a2 a3 a4 a5 a6 = .ok vm1 ∧ gc fuel vm1 = .ok vm2 ∧
      handlingTest fuel a1 a2 a3 a4 a5 a6 = .ok vm2 ∧
      vm1.stack = [a3, a6] ∧ Reachable vm1 a3 ∧ Reachable vm1 a6 ∧
      ¬ Reachable vm1 a2 ∧ ¬ Reachable vm1 a5 ∧
      Chain vm2.mem vm2.firstObject [a6, a4, a3, a1] ∧
      vm2.mem a2 = none ∧ vm2.mem a5 = none ∧ vm2.numObjects = 4 ∧
      (∃ o, vm2.mem a1 = some o ∧ o.type = .INT ∧ o.value = 1) ∧
      (∃ o, vm2.mem a4 = some o ∧ o.type = .INT ∧ o.value = 3) ∧
      (∃ o, vm2.mem a3 = some o ∧ o.type = .PAIR ∧ o.head = a1 ∧ o.tail = a6) ∧
      (∃ o, vm2.mem a6 = some o ∧ o.type = .PAIR ∧ o.head = a4 ∧ o.tail = a3) := by
  obtain ⟨vm2, hrun, hc, _, _, hpay, hfree, _, hn, _, _⟩ :=
    handlingState_gc fuel a1 a2 a3 a4 a5 a6 hnd h0 hfuel
  obtain ⟨e1, _, e3, e4, _, e6⟩ := handlingState_lookup a1 a2 a3 a4 a5 a6 hnd
  have hsetup := handlingSetup_eq fuel a1 a2 a3 a4 a5 a6 hnd h0
  have hr := handlingState_reachable a1 a2 a3 a4 a5 a6 hnd
  have hnd' := hnd
  simp only [List.nodup_cons, List.mem_cons, List.mem_singleton, not_or, List.not_mem_nil,
    not_false_eq_true, List.nodup_nil, and_true] at hnd'
  obtain ⟨⟨h12, h13, h14, h15, h16⟩, ⟨h23, h24, h25, h26⟩, ⟨h34, h35, h36⟩, ⟨h45, h46⟩, h56⟩ :=
    hnd'
  have k12 := Ne.symm h12
  have k13 := Ne.symm h13
  have k14 := Ne.symm h14
  have k15 := Ne.symm h15
  have k16 := Ne.symm h16
  have k23 := Ne.symm h23
  have k24 := Ne.symm h24
  have k25 := Ne.symm h25
  have k26 := Ne.symm h26
  have k34 := Ne.symm h34
  have k35 := Ne.symm h35
  have k36 := Ne.symm h36
  have k45 := Ne.symm h45
  have k46 := Ne.symm h46
  have k56 := Ne.symm h56
  have hm2 : a2 ∉ [a6, a4, a3, a1] := by
    simp only [List.mem_cons, List.mem_singleton, List.not_mem_nil, or_false, not_or]
    exact ⟨h26, h24, h23, k12⟩
  have hm5 : a5 ∉ [a6, a4, a3, a1] := by
    simp only [List.mem_cons, List.mem_singleton, List.not_mem_nil, or_false, not_or]
    exact ⟨h56, k45, k35, k15⟩
  have hsurv : ∀ a o, a ∈ [a6, a4, a3, a1] → (handlingState a1 a2 a3 a4 a5 a6).mem a = some o →
      ∃ o2, vm2.mem a = some o2 ∧ o2.type = o.type ∧ o2.value = o.value ∧
        o2.head = o.head ∧ o2.tail = o.tail := by
    intro a o ha ho
    obtain ⟨o', o2, h1, h2, _, h4⟩ := hpay a ha
    have : o' = o := Option.some.inj (h1.symm.trans ho)
    subst this
    simp only [Object.payload, Prod.mk.injEq] at h4
    exact ⟨o2, h2, h4.1, h4.2.1, h4.2.2.1, h4.2.2.2⟩
  refine ⟨_, vm2, hsetup, hrun, ?_, rfl, (hr a3).2 (by simp), (hr a6).2 (by simp), ?_, ?_, hc,
    ?_, ?_, ?_, ?_, ?_, ?_, ?_⟩
  · rw [handlingTest, hsetup]
    exact hrun
  · rw [hr a2]
    exact hm2
  · rw [hr a5]
    exact hm5
  · exact hfree a2 (by simp) hm2
  · exact hfree a5 (by simp) hm5
  · rw [hn]
    simp [handlingState]
  · obtain ⟨o2, h2, t, v, _, _⟩ := hsurv a1 _ (by simp) e1
    exact ⟨o2, h2, t, v⟩
  · obtain ⟨o2, h2, t, v, _, _⟩ := hsurv a4 _ (by simp) e4
    exact ⟨o2, h2, t, v⟩
  · obtain ⟨o2, h2, t, _, hh, ht⟩ := hsurv a3 _ (by simp) e3
    exact ⟨o2, h2, t, hh, ht⟩
  · obtain ⟨o2, h2, t, _, hh, ht⟩ := hsurv a6 _ (by simp) e6
    exact ⟨o2, h2, t, hh, ht⟩

theorem handlingTest_survivors_witness :
    [1, 2, 3, 4, 5, 6].Nodup ∧ 0 ∉ [1, 2, 3, 4, 5, 6] ∧ 6 < 7 ∧
    ∃ vm1 vm2, handlingSetup 7 1 2 3 4 5 6 = .ok vm1 ∧ gc 7 vm1 = .ok vm2 ∧
      handlingTest 7 1 2 3 4 5 6 = .ok vm2 ∧
      vm1.stack = [3, 6] ∧ Reachable vm1 3 ∧ Reachable vm1 6 ∧
      ¬ Reachable vm1 2 ∧ ¬ Reachable vm1 5 ∧
      Chain vm2.mem vm2.firstObject [6, 4, 3, 1] ∧
      vm2.mem 2 = none ∧ vm2.mem 5 = none ∧ vm2.numObjects = 4 ∧
      (∃ o, vm2.mem 1 = some o ∧ o.type = .INT ∧ o.value = 1) ∧
      (∃ o, vm2.mem 4 = some o ∧ o.type = .INT ∧ o.value = 3) ∧
      (∃ o, vm2.mem 3 = some o ∧ o.type = .PAIR ∧ o.head = 1 ∧ o.tail = 6) ∧
      (∃ o, vm2.mem 6 = some o ∧ o.type = .PAIR ∧ o.head = 4 ∧ o.tail = 3) :=
  ⟨by decide, by decide, by decide,
    handlingTest_survivors 7 1 2 3 4 5 6 (by decide) (by decide) (by decide)⟩

/-! ## Allocation and teardown -/

theorem gc_empty_stack (vm : VM) (l : List Nat) (fuel : Nat)
    (hl : Chain vm.mem vm.firstObject l) (hun : AllUnmarked vm.mem l)
    (hcount : vm.numObjects = (l.length : Int)) (hfuel : l.length < fuel)
    (hs : vm.stack = []) :
    ∃ vm2, gc fuel vm = .ok vm2 ∧ vm2.firstObject = 0 ∧ Chain vm2.mem vm2.firstObject [] ∧
      vm2.numObjects = 0 ∧ vm2.maxObjects = 8 ∧ (∀ a ∈ l, vm2.mem a = none) ∧
      vm2.stack = [] := by
  obtain ⟨vm2, hrun, p2, hr2, hc2, _, hum, _, _, _, hn, hst, _⟩ :=
    marksweep_spec vm l fuel hl hfuel
  have hp2 : p2 = vm2.firstObject := (Except.ok.inj hr2).symm
  subst hp2
  have hnone : l.filter (isMarked vm.mem) = [] := by
    rw [List.filter_eq_nil_iff]
    intro a ha
    rw [hun a ha]
    simp
  have hall : l.filter (fun a => !isMarked vm.mem a) = l := by
    rw [List.filter_eq_self]
    intro a ha
    rw [hun a ha]
    rfl
  rw [hnone] at hc2
  rw [hall, hcount, sub_self] at hn
  have hroots : markRoots fuel vm.mem vm.stack = .ok vm.mem := by
    rw [hs]
    rfl
  have hmark : markAll fuel vm = .ok vm := by
    rw [markAll, hroots]
  refine ⟨{ vm2 with maxObjects :=
      if vm2.numObjects = 0 then INIT_OBJ_NUM_MAX else wrapInt (vm2.numObjects * 2) },
    ?_, hc2, hc2, hn,
    ?_, fun a ha => hum a ha (hun a ha), hst.trans hs⟩
  · rw [gc, hmark]
    simp only [hrun]
  · simp [hn, INIT_OBJ_NUM_MAX]

/-- C10: when all marks are clear and `numObjects` is the length of the
object list, `gc` with an empty stack returns with an empty object list,
`numObjects == 0` and `maxObjects == 8`, every object freed; so `freeVM`,
which empties the stack and collects, reaches `numObjects == 0` whatever the
stack and the references of the heap were. -/
theorem freeVM_drains_heap (vm : VM) (l : List Nat) (fuel : Nat)
    (hl : Chain vm.mem vm.firstObject l) (hun : AllUnmarked vm.mem l)
    (hcount : vm.numObjects = (l.length : Int)) (hfuel : l.length < fuel) :
    (vm.stack = [] →
      ∃ vm2, gc fuel vm = .ok vm2 ∧ Chain vm2.mem vm2.firstObject [] ∧
        vm2.numObjects = 0 ∧ vm2.maxObjects = 8 ∧ ∀ a ∈ l, vm2.mem a = none) ∧
    ∃ vm2, freeVM fuel vm = .ok vm2 ∧ Chain vm2.mem vm2.firstObject [] ∧
      vm2.numObjects = 0 ∧ vm2.maxObjects = 8 ∧ ∀ a ∈ l, vm2.mem a = none := by
  constructor
  · intro hs
    obtain ⟨vm2, hrun, _, hc, hn, hm, hfree, _⟩ := gc_empty_stack vm l fuel hl hun hcount hfuel hs
    exact ⟨vm2, hrun, hc, hn, hm, hfree⟩
  · obtain ⟨vm2, hrun, _, hc, hn, hm, hfree, _⟩ :=
      gc_empty_stack { vm with stack := [] } l fuel hl hun hcount hfuel rfl
    exact ⟨vm2, hrun, hc, hn, hm, hfree⟩

theorem freeVM_drains_heap_witness :
    Chain (handlingState 1 2 3 4 5 6).mem (handlingState 1 2 3 4 5 6).firstObject
      [6, 5, 4, 3, 2, 1] ∧
    AllUnmarked (handlingState 1 2 3 4 5 6).mem [6, 5, 4, 3, 2, 1] ∧
    (handlingState 1 2 3 4 5 6).numObjects = (([6, 5, 4, 3, 2, 1] : List Nat).length : Int) ∧
    ∃ vm2, freeVM 7 (handlingState 1 2 3 4 5 6) = .ok vm2 ∧
      Chain vm2.mem vm2.firstObject [] ∧ vm2.numObjects = 0 ∧ vm2.maxObjects = 8 ∧
      ∀ a ∈ [6, 5, 4, 3, 2, 1], vm2.mem a = none :=
  ⟨by decide, by decide, by decide,
    (freeVM_drains_heap (handlingState 1 2 3 4 5 6) [6, 5, 4, 3, 2, 1] 7
      (by decide) (by decide) (by decide) (by decide)).2⟩

/-! ## Fuel -/

theorem mark_fuel_mono : ∀ (fuel : Nat) (m : Mem) (p : Nat) (m2 : Mem),
    mark fuel m p = .ok m2 → mark (fuel + 1) m p = .ok m2
  | 0, _, _, _, h => by cases h
  | fuel + 1, m, p, m2, h => by
    rw [mark] at h ⊢
    cases hl : load m p with
    | error e => rw [hl] at h; cases h
    | ok o =>
      rw [hl] at h
      simp only at h ⊢
      by_cases hm : o.marked ≠ 0
      · rw [if_pos hm] at h ⊢
        exact h
      · rw [if_neg hm] at h ⊢
        by_cases ht : o.type = ObjectType.PAIR
        · rw [if_pos ht] at h ⊢
          cases h1 : mark fuel (store m p { o with marked := 1 }) o.head with
          | error e => rw [h1] at h; cases h
          | ok m1 =>
            rw [h1] at h
            rw [mark_fuel_mono fuel _ _ _ h1]
            simp only at h ⊢
            cases h2 : load m1 p with
            | error e => rw [h2] at h; cases h
            | ok o2 =>
              rw [h2] at h
              simp only at h ⊢
              exact mark_fuel_mono fuel _ _ _ h
        · rw [if_neg ht] at h ⊢
          exact h

theorem markRoots_fuel_mono (fuel : Nat) : ∀ (rs : List Nat) (m m2 : Mem),
    markRoots fuel m rs = .ok m2 → markRoots (fuel + 1) m rs = .ok m2
  | [], _, _, h => h
  | r :: rs, m, m2, h => by
    rw [markRoots] at h ⊢
    cases h1 : mark fuel m r with
    | error e => rw [h1] at h; cases h
    | ok m1 =>
      rw [h1] at h
      rw [mark_fuel_mono fuel _ _ _ h1]
      exact markRoots_fuel_mono fuel rs m1 m2 h

theorem sweepLoop_fuel_mono : ∀ (fuel : Nat) (vm : VM) (loc : Loc) (vm2 : VM),
    sweepLoop fuel vm loc = .ok vm2 → sweepLoop (fuel + 1) vm loc = .ok vm2
  | 0, _, _, _, h => by cases h
  | fuel + 1, vm, loc, vm2, h => by
    rw [sweepLoop] at h ⊢
    cases hr : readLoc vm loc with
    | error e => rw [hr] at h; cases h
    | ok p =>
      rw [hr] at h
      simp only at h ⊢
      by_cases hp : p = 0
      · rw [if_pos hp] at h ⊢
        exact h
      · rw [if_neg hp] at h ⊢
        cases hl : load vm.mem p with
        | error e => rw [hl] at h; cases h
        | ok o =>
          rw [hl] at h
          simp only at h ⊢
          by_cases hm : o.marked = 0
          · rw [if_pos hm] at h ⊢
            cases hw : writeLoc vm o.next loc with
            | error e => rw [hw] at h; cases h
            | ok vm1 =>
              rw [hw] at h
              simp only at h ⊢
              exact sweepLoop_fuel_mono fuel _ _ _ h
          · rw [if_neg hm] at h ⊢
            exact sweepLoop_fuel_mono fuel _ _ _ h

theorem gc_fuel_mono (fuel : Nat) (vm vm2 : VM) (h : gc fuel vm = .ok vm2) :
    gc (fuel + 1) vm = .ok vm2 := by
  rw [gc] at h ⊢
  rw [markAll] at h ⊢
  cases h1 : markRoots fuel vm.mem vm.stack with
  | error e => rw [h1] at h; cases h
  | ok m1 =>
    rw [h1] at h
    rw [markRoots_fuel_mono fuel _ _ _ h1]
    simp only at h ⊢
    rw [marksweep] at h ⊢
    cases h2 : sweepLoop fuel { vm with mem := m1 } .first with
    | error e => rw [h2] at h; cases h
    | ok vm3 =>
      rw [h2] at h
      rw [sweepLoop_fuel_mono fuel _ _ _ h2]
      exact h

theorem gc_fuel_le (fuel k : Nat) (vm vm2 : VM) (h : gc fuel vm = .ok vm2) :
    gc (fuel + k) vm = .ok vm2 := by
  induction k with
  | zero => exact h
  | succ k ih => exact gc_fuel_mono _ _ _ ih

/-! ## What the operations do when they return -/

theorem mark_frame : ∀ (fuel : Nat) (m : Mem) (p : Nat) (m2 : Mem),
    mark fuel m p = .ok m2 → MarkedOnly m m2 (fun _ => True)
  | 0, _, _, _, h => by cases h
  | fuel + 1, m, p, m2, h => by
    rw [mark] at h
    cases hl : load m p with
    | error e => rw [hl] at h; cases h
    | ok o =>
      rw [hl] at h
      simp only at h
      obtain ⟨_, ho⟩ := (load_ok_iff m p o).1 hl
      by_cases hm : o.marked ≠ 0
      · rw [if_pos hm] at h
        cases h
        exact markedOnly_refl _ _
      · rw [if_neg hm] at h
        have h0 : o.marked = 0 := by omega
        have hst := markedOnly_store m p o (fun _ => True) ho h0 trivial
        by_cases ht : o.type = ObjectType.PAIR
        · rw [if_pos ht] at h
          cases h1 : mark fuel (store m p { o with marked := 1 }) o.head with
          | error e => rw [h1] at h; cases h
          | ok m1 =>
            rw [h1] at h
            simp only at h
            have hf1 := mark_frame fuel _ _ _ h1
            cases h2 : load m1 p with
            | error e => rw [h2] at h; cases h
            | ok o2 =>
              rw [h2] at h
              simp only at h
              have hf2 := mark_frame fuel _ _ _ h
              exact markedOnly_trans _ _ _ _ (markedOnly_trans _ _ _ _ hst hf1) hf2
        · rw [if_neg ht] at h
          cases h
          exact hst

theorem markRoots_frame (fuel : Nat) : ∀ (rs : List Nat) (m m2 : Mem),
    markRoots fuel m rs = .ok m2 → MarkedOnly m m2 (fun _ => True)
  | [], m, m2, h => by
    cases h
    exact markedOnly_refl _ _
  | r :: rs, m, m2, h => by
    rw [markRoots] at h
    cases h1 : mark fuel m r with
    | error e => rw [h1] at h; cases h
    | ok m1 =>
      rw [h1] at h
      exact markedOnly_trans _ _ _ _ (mark_frame fuel _ _ _ h1)
        (markRoots_frame fuel rs m1 m2 h)

/-- Whenever `gc` returns on a state with an object list, the new object list
is a sublist of the old one and `numObjects` has decreased by the number of
objects removed. -/
theorem gc_counted (fuel : Nat) (vm vm2 : VM) (l : List Nat)
    (hl : Chain vm.mem vm.firstObject l) (hrun : gc fuel vm = .ok vm2) :
    ∃ l2, Chain vm2.mem vm2.firstObject l2 ∧ l2.Sublist l ∧
      vm2.numObjects = vm.numObjects - ((l.length : Int) - (l2.length : Int)) ∧
      vm2.stack = vm.stack ∧
      vm2.maxObjects =
        (if vm2.numObjects = 0 then INIT_OBJ_NUM_MAX else wrapInt (vm2.numObjects * 2)) := by
  have hF := gc_fuel_le fuel (l.length + 1) vm vm2 hrun
  rw [gc, markAll] at hF
  cases h1 : markRoots (fuel + (l.length + 1)) vm.mem vm.stack with
  | error e => rw [h1] at hF; cases hF
  | ok m1 =>
    rw [h1] at hF
    simp only at hF
    have hmo := markRoots_frame _ _ _ _ h1
    have hc1 : Chain m1 vm.firstObject l := by
      refine chain_congr vm.mem m1 l _ (fun a ha => ?_) hl
      obtain ⟨o, ho⟩ := chain_allocated _ _ _ hl a ha
      obtain ⟨o2, ho2, _, hn, _⟩ := markedOnly_payload _ _ _ hmo a o ho
      exact ⟨o, o2, ho, ho2, hn⟩
    obtain ⟨vm3, hsweep, p2, hr2, hc2, _, _, _, _, _, hn, hs, _⟩ :=
      marksweep_spec { vm with mem := m1 } l (fuel + (l.length + 1)) hc1 (by omega)
    rw [hsweep] at hF
    simp only [Except.ok.injEq] at hF
    subst hF
    have hp2 : p2 = vm3.firstObject := (Except.ok.inj hr2).symm
    subst hp2
    refine ⟨l.filter (isMarked m1), hc2, List.filter_sublist l, ?_, hs, rfl⟩
    have hsp := length_filter_split (isMarked m1) l
    show vm3.numObjects = _
    rw [hn]
    show vm.numObjects - ((l.filter (fun a => !isMarked m1 a)).length : Int) =
      vm.numObjects - ((l.length : Int) - ((l.filter (isMarked m1)).length : Int))
    omega

theorem newObject_eq (fuel : Nat) (vm : VM) (type : ObjectType) (addr : Nat) :
    newObject fuel vm type addr =
      andThen (collectIfFull fuel vm) (fun vm1 => .ok (allocate vm1 type addr)) := by
  unfold newObject collectIfFull andThen
  by_cases h : vm.numObjects = vm.maxObjects
  · rw [if_pos h, if_pos h]
  · rw [if_neg h, if_neg h]

theorem pushInt_ok (fuel : Nat) (vm : VM) (v : Int) (addr : Nat) (vm2 : VM)
    (h : pushInt fuel vm v addr = .ok vm2) :
    ∃ vm1, collectIfFull fuel vm = .ok vm1 ∧ addr ≠ 0 ∧ vm1.stack.length < STACK_MAX_SIZE ∧
      vm2 = { vm1 with
        mem := store vm1.mem addr
          { type := .INT, marked := 0, next := vm1.firstObject, value := v, head := 0, tail := 0 }
        stack := vm1.stack ++ [addr]
        firstObject := addr
        numObjects := vm1.numObjects + 1 } := by
  rw [pushInt, newObject_eq] at h
  cases h1 : collectIfFull fuel vm with
  | error e => rw [h1] at h; cases h
  | ok vm1 =>
    rw [h1] at h
    simp only [andThen] at h
    by_cases h0 : addr = 0
    · simp [load, h0] at h
    · simp only [allocate, load, h0, if_false, store_same, push, store_store] at h
      by_cases hs : vm1.stack.length < STACK_MAX_SIZE
      · rw [if_pos hs] at h
        exact ⟨vm1, rfl, h0, hs, (Except.ok.inj h).symm⟩
      · rw [if_neg hs] at h
        cases h

theorem pop_ok (vm vm2 : VM) (r : Nat) (h : pop vm = .ok (vm2, r)) :
    vm.stack = vm2.stack ++ [r] ∧ vm2 = { vm with stack := vm.stack.dropLast } := by
  rw [pop] at h
  cases hg : vm.stack.getLast? with
  | none => rw [hg] at h; cases h
  | some y =>
    rw [hg] at h
    simp only [Except.ok.injEq, Prod.mk.injEq] at h
    obtain ⟨h1, h2⟩ := h
    subst h1 h2
    exact ⟨(List.dropLast_append_getLast? y hg).symm, rfl⟩

theorem pushPair_ok (fuel : Nat) (vm : VM) (addr : Nat) (vm2 : VM)
    (h : pushPair fuel vm addr = .ok vm2) :
    ∃ vm1 s x y, collectIfFull fuel vm = .ok vm1 ∧ addr ≠ 0 ∧ vm1.stack = s ++ [x, y] ∧
      s.length < STACK_MAX_SIZE ∧
      vm2 = { vm1 with
        mem := store vm1.mem addr
          { type := .PAIR, marked := 0, next := vm1.firstObject, value := 0, head := x, tail := y }
        stack := s ++ [addr]
        firstObject := addr
        numObjects := vm1.numObjects + 1 } := by
  rw [pushPair, newObject_eq] at h
  cases h1 : collectIfFull fuel vm with
  | error e => rw [h1] at h; cases h
  | ok vm1 =>
    rw [h1] at h
    simp only [andThen] at h
    cases hp1 : pop (allocate vm1 .PAIR addr) with
    | error e => rw [hp1] at h; cases h
    | ok r1 =>
      obtain ⟨vmA, y⟩ := r1
      rw [hp1] at h
      simp only at h
      obtain ⟨hsA, hA⟩ := pop_ok _ _ _ hp1
      by_cases h0 : addr = 0
      · simp [load, h0] at h
      · have hmA : vmA.mem addr = some
            { type := .PAIR, marked := 0, next := vm1.firstObject, value := 0, head := 0,
              tail := 0 } := by
          rw [hA]
          exact store_same _ _ _
        rw [load_of_mem _ _ _ h0 hmA] at h
        simp only at h
        generalize hvC : ({ vmA with
            mem := store vmA.mem addr
              { type := .PAIR, marked := 0, next := vm1.firstObject, value := 0, head := 0,
                tail := y } } : VM) = vmC at h
        cases hp2 : pop vmC with
        | error e => rw [hp2] at h; cases h
        | ok r2 =>
          obtain ⟨vmB, x⟩ := r2
          rw [hp2] at h
          simp only at h
          obtain ⟨hsB, hB⟩ := pop_ok _ _ _ hp2
          subst hvC
          have hmB : vmB.mem addr = some
              { type := .PAIR, marked := 0, next := vm1.firstObject, value := 0, head := 0,
                tail := y } := by
            rw [hB]
            exact store_same _ _ _
          rw [load_of_mem _ _ _ h0 hmB] at h
          simp only [push] at h
          by_cases hs : vmB.stack.length < STACK_MAX_SIZE
          · rw [if_pos hs] at h
            refine ⟨vm1, vmB.stack, x, y, rfl, h0, ?_, hs, ?_⟩
            · have e1 : vm1.stack = vmA.stack ++ [y] := hsA
              have e2 : vmA.stack = vmB.stack ++ [x] := hsB
              rw [e1, e2]
              simp
            · rw [← Except.ok.inj h, hB, hA]
              simp [allocate, store_store]
          · rw [if_neg hs] at h
            cases h

/-! ## The counter and the threshold along runs -/

theorem gc_counted_step (fuel : Nat) (vm vm2 : VM) (hc : Counted vm)
    (hrun : gc fuel vm = .ok vm2) : Counted vm2 ∧ vm2.numObjects ≤ vm.numObjects := by
  obtain ⟨l, hl, hn⟩ := hc
  obtain ⟨l2, hl2, hsub, hn2, _, _⟩ := gc_counted fuel vm vm2 l hl hrun
  have hlen := hsub.length_le
  have hn2' : vm2.numObjects = (l2.length : Int) := by
    rw [hn2, hn]
    ring
  refine ⟨⟨l2, hl2, hn2'⟩, ?_⟩
  rw [hn2]
  omega

theorem collectIfFull_counted (fuel : Nat) (vm vm1 : VM) (hc : Counted vm)
    (hrun : collectIfFull fuel vm = .ok vm1) :
    Counted vm1 ∧ vm1.numObjects ≤ vm.numObjects := by
  unfold collectIfFull at hrun
  by_cases h : vm.numObjects = vm.maxObjects
  · rw [if_pos h] at hrun
    exact gc_counted_step fuel vm vm1 hc hrun
  · rw [if_neg h] at hrun
    cases hrun
    exact ⟨hc, le_refl _⟩

theorem counted_link (vm1 : VM) (addr : Nat) (o : Object) (s : List Nat)
    (hc : Counted vm1) (h0 : addr ≠ 0) (hfresh : vm1.mem addr = none)
    (hnext : o.next = vm1.firstObject) :
    Counted { vm1 with
      mem := store vm1.mem addr o
      stack := s
      firstObject := addr
      numObjects := vm1.numObjects + 1 } := by
  obtain ⟨l, hl, hn⟩ := hc
  have hnm : addr ∉ l := by
    intro h
    obtain ⟨o', ho'⟩ := chain_allocated _ _ _ hl addr h
    rw [hfresh] at ho'
    cases ho'
  refine ⟨addr :: l, ?_, ?_⟩
  · show Chain (store vm1.mem addr o) addr (addr :: l)
    rw [chain_cons_iff]
    refine ⟨rfl, h0, o, store_same _ _ _, ?_⟩
    rw [hnext]
    exact chain_of_eq_on vm1.mem _ l _
      (fun a ha => store_other _ _ _ _ (fun e => hnm (e ▸ ha))) hl
  · show vm1.numObjects + 1 = _
    rw [hn]
    simp

/-- Every operation that returns keeps the object list counted by
`numObjects`. -/
theorem run_counted (fuel : Nat) (vm vm2 : VM) (op : Op) (hc : Counted vm)
    (hm : op.mallocOk fuel vm) (hrun : op.run fuel vm = .ok vm2) : Counted vm2 := by
  cases op with
  | pushInt v addr =>
    obtain ⟨vm1, h1, h0, _, h2⟩ := pushInt_ok fuel vm v addr vm2 hrun
    obtain ⟨hc1, _⟩ := collectIfFull_counted fuel vm vm1 hc h1
    subst h2
    exact counted_link vm1 addr _ _ hc1 h0 (hm.2 vm1 h1) rfl
  | pushPair addr =>
    obtain ⟨vm1, s, x, y, h1, h0, _, _, h2⟩ := pushPair_ok fuel vm addr vm2 hrun
    obtain ⟨hc1, _⟩ := collectIfFull_counted fuel vm vm1 hc h1
    subst h2
    exact counted_link vm1 addr _ _ hc1 h0 (hm.2 vm1 h1) rfl
  | pop =>
    have hrun' : (GC.pop vm).map Prod.fst = .ok vm2 := hrun
    cases hp : GC.pop vm with
    | error e => rw [hp] at hrun'; cases hrun'
    | ok r =>
      obtain ⟨vmA, x⟩ := r
      rw [hp] at hrun'
      have e : vmA = vm2 := Except.ok.inj hrun'
      subst e
      obtain ⟨_, h2⟩ := pop_ok vm vmA x hp
      rw [h2]
      exact hc
  | gc => exact (gc_counted_step fuel vm vm2 hc hrun).1
  | push r =>
    have hrun' : GC.push vm r = .ok vm2 := hrun
    unfold GC.push at hrun'
    by_cases hs : vm.stack.length < STACK_MAX_SIZE
    · rw [if_pos hs] at hrun'
      cases hrun'
      exact hc
    · rw [if_neg hs] at hrun'
      cases hrun'

theorem reachedBy_counted (allowed : Op → Prop) (vm : VM) (h : ReachedBy allowed vm) :
    Counted vm := by
  induction h with
  | init => exact ⟨[], rfl, rfl⟩
  | step fuel op _ _ hm hrun ih => exact run_counted fuel _ _ op ih hm hrun

theorem counted_nonneg (vm : VM) (hc : Counted vm) : 0 ≤ vm.numObjects := by
  obtain ⟨l, _, hn⟩ := hc
  rw [hn]
  exact Int.natCast_nonneg _

/-! ## The threshold while the product fits in an `int` -/

theorem wrapInt_of_range (x : Int) (h1 : -2147483648 ≤ x) (h2 : x < 2147483648) :
    wrapInt x = x := by
  unfold wrapInt
  omega

theorem gc_maxObjects (fuel : Nat) (vm vm2 : VM) (hrun : gc fuel vm = .ok vm2) :
    vm2.maxObjects =
      (if vm2.numObjects = 0 then INIT_OBJ_NUM_MAX else wrapInt (vm2.numObjects * 2)) := by
  rw [gc] at hrun
  cases h1 : markAll fuel vm with
  | error e => rw [h1] at hrun; cases hrun
  | ok vm1 =>
    rw [h1] at hrun
    simp only at hrun
    cases h2 : marksweep fuel vm1 with
    | error e => rw [h2] at hrun; cases hrun
    | ok vm3 =>
      rw [h2] at hrun
      cases hrun
      rfl

theorem threshold_below (n : Int) (h0 : 0 ≤ n) (hb : n < COUNT_LIMIT) :
    (if n = 0 then INIT_OBJ_NUM_MAX else wrapInt (n * 2)) = (if n = 0 then 8 else n * 2) ∧
    n < (if n = 0 then INIT_OBJ_NUM_MAX else wrapInt (n * 2)) ∧
    2 ≤ (if n = 0 then INIT_OBJ_NUM_MAX else wrapInt (n * 2)) := by
  unfold COUNT_LIMIT at hb
  by_cases hn : n = 0
  · simp only [hn, if_true, INIT_OBJ_NUM_MAX]
    decide
  · simp only [if_neg hn]
    rw [wrapInt_of_range (n * 2) (by omega) (by omega)]
    omega

theorem gc_below (fuel : Nat) (vm vm2 : VM) (hc : Counted vm) (hrun : gc fuel vm = .ok vm2)
    (hb : vm2.numObjects < COUNT_LIMIT) :
    vm2.numObjects < vm2.maxObjects ∧ 2 ≤ vm2.maxObjects := by
  have h0 := counted_nonneg vm2 (gc_counted_step fuel vm vm2 hc hrun).1
  rw [gc_maxObjects fuel vm vm2 hrun]
  exact (threshold_below vm2.numObjects h0 hb).2

theorem collectIfFull_below (fuel : Nat) (vm vm1 : VM) (hc : Counted vm)
    (hle : vm.numObjects ≤ vm.maxObjects) (h2 : 2 ≤ vm.maxObjects)
    (hb : vm.numObjects < COUNT_LIMIT) (hrun : collectIfFull fuel vm = .ok vm1) :
    vm1.numObjects < vm1.maxObjects ∧ 2 ≤ vm1.maxObjects := by
  have hle1 := (collectIfFull_counted fuel vm vm1 hc hrun).2
  unfold collectIfFull at hrun
  by_cases h : vm.numObjects = vm.maxObjects
  · rw [if_pos h] at hrun
    exact gc_below fuel vm vm1 hc hrun (lt_of_le_of_lt hle1 hb)
  · rw [if_neg h] at hrun
    cases hrun
    exact ⟨lt_of_le_of_ne hle h, h2⟩

/-- While the states hold fewer than 2^30 objects, every operation that
returns keeps `numObjects` at most `maxObjects` and `maxObjects` at least 2. -/
theorem run_below (fuel : Nat) (vm vm2 : VM) (op : Op) (hc : Counted vm)
    (hle : vm.numObjects ≤ vm.maxObjects) (h2 : 2 ≤ vm.maxObjects)
    (hb : vm.numObjects < COUNT_LIMIT) (hb2 : vm2.numObjects < COUNT_LIMIT)
    (hrun : op.run fuel vm = .ok vm2) :
    vm2.numObjects ≤ vm2.maxObjects ∧ 2 ≤ vm2.maxObjects := by
  cases op with
  | pushInt v addr =>
    obtain ⟨vm1, h1, _, _, he⟩ := pushInt_ok fuel vm v addr vm2 hrun
    obtain ⟨hlt, hge⟩ := collectIfFull_below fuel vm vm1 hc hle h2 hb h1
    subst he
    exact ⟨Int.add_one_le_of_lt hlt, hge⟩
  | pushPair addr =>
    obtain ⟨vm1, s, x, y, h1, _, _, _, he⟩ := pushPair_ok fuel vm addr vm2 hrun
    obtain ⟨hlt, hge⟩ := collectIfFull_below fuel vm vm1 hc hle h2 hb h1
    subst he
    exact ⟨Int.add_one_le_of_lt hlt, hge⟩
  | pop =>
    have hrun' : (GC.pop vm).map Prod.fst = .ok vm2 := hrun
    cases hp : GC.pop vm with
    | error e => rw [hp] at hrun'; cases hrun'
    | ok r =>
      obtain ⟨vmA, x⟩ := r
      rw [hp] at hrun'
      have e : vmA = vm2 := Except.ok.inj hrun'
      subst e
      obtain ⟨_, he⟩ := pop_ok vm vmA x hp
      rw [he]
      exact ⟨hle, h2⟩
  | gc =>
    obtain ⟨hlt, hge⟩ := gc_below fuel vm vm2 hc hrun hb2
    exact ⟨le_of_lt hlt, hge⟩
  | push r =>
    have hrun' : GC.push vm r = .ok vm2 := hrun
    unfold GC.push at hrun'
    by_cases hs : vm.stack.length < STACK_MAX_SIZE
    · rw [if_pos hs] at hrun'
      cases hrun'
      exact ⟨hle, h2⟩
    · rw [if_neg hs] at hrun'
      cases hrun'

theorem reachedBelow_reached (bound : Int) (vm : VM) (h : ReachedBelow bound vm) :
    Reached vm := by
  induction h with
  | init => exact ReachedBy.init
  | step fuel op _ hop hm hrun _ ih => exact ReachedBy.step fuel op ih hop hm hrun

theorem reachedBelow_lt (bound : Int) (vm : VM) (hb : 0 < bound) (h : ReachedBelow bound vm) :
    vm.numObjects < bound := by
  induction h with
  | init => exact hb
  | step fuel op _ _ _ _ hlt _ => exact hlt

theorem reachedBelow_threshold (vm : VM) (h : ReachedBelow COUNT_LIMIT vm) :
    vm.numObjects ≤ vm.maxObjects ∧ 2 ≤ vm.maxObjects := by
  induction h with
  | init => exact ⟨by decide, by decide⟩
  | step fuel op hprev _ _ hrun hlt ih =>
    exact run_below fuel _ _ op (reachedBy_counted _ _ (reachedBelow_reached _ _ hprev))
      ih.1 ih.2 (reachedBelow_lt _ _ (by decide) hprev) hlt hrun

theorem reachedBelow_pushInt_gc :
    ReachedBelow COUNT_LIMIT (stateOf (andThen (pushInt 2 newVM 1 1) (gc 2))) := by
  have h1 : ReachedBelow COUNT_LIMIT (stateOf (pushInt 2 newVM 1 1)) := by
    refine ReachedBelow.step 2 (.pushInt 1 1) ReachedBelow.init rfl ?_ rfl (by decide)
    refine ⟨by decide, ?_⟩
    intro vm1 h
    cases h
    rfl
  exact ReachedBelow.step 2 .gc h1 rfl trivial rfl (by decide)

/-- C8, as stated, fails: from `newVM`, `pushInt 1` followed by `gc` gives a
reached state with `numObjects == 1` and `maxObjects == 2`, which is neither
`max(numObjects * 2, 8)` nor at least 8. -/
theorem gc_threshold_counterexample :
    ∃ vm2, andThen (pushInt 2 newVM 1 1) (gc 2) = .ok vm2 ∧ Reached vm2 ∧
      vm2.numObjects = 1 ∧ vm2.maxObjects = 2 ∧
      vm2.maxObjects ≠ max (vm2.numObjects * 2) INIT_OBJ_NUM_MAX ∧
      ¬ (INIT_OBJ_NUM_MAX ≤ vm2.maxObjects) := by
  refine ⟨stateOf (andThen (pushInt 2 newVM 1 1) (gc 2)), rfl, ?_, by decide, by decide,
    by decide, by decide⟩
  exact reachedBelow_reached _ _ reachedBelow_pushInt_gc

/-- C8, amended: whenever `gc` returns, `maxObjects` is 8 if the new
`numObjects` is zero and otherwise the `int` product `numObjects * 2`; as
long as the new `numObjects` is below 2^30 that product is `numObjects * 2`
itself, and `maxObjects` is `max(numObjects * 2, 8)` exactly when
`numObjects` is zero or at least 4. In every state reached from `newVM` by
`pushInt`, `pushPair`, `pop` and `gc` in a run whose states all hold fewer
than 2^30 objects, the threshold is at least 2. -/
theorem gc_threshold :
    (∀ (fuel : Nat) (vm vm2 : VM), gc fuel vm = .ok vm2 →
      vm2.maxObjects = (if vm2.numObjects = 0 then 8 else wrapInt (vm2.numObjects * 2)) ∧
      (0 ≤ vm2.numObjects → vm2.numObjects < COUNT_LIMIT →
        vm2.maxObjects = (if vm2.numObjects = 0 then 8 else vm2.numObjects * 2) ∧
        ((vm2.numObjects = 0 ∨ 4 ≤ vm2.numObjects) ↔
          vm2.maxObjects = max (vm2.numObjects * 2) 8))) ∧
    (∀ vm, ReachedBelow COUNT_LIMIT vm → 2 ≤ vm.maxObjects) := by
  refine ⟨?_, fun vm h => (reachedBelow_threshold vm h).2⟩
  intro fuel vm vm2 hrun
  have hmax := gc_maxObjects fuel vm vm2 hrun
  refine ⟨hmax, ?_⟩
  intro h0 hb
  have hmax2 : vm2.maxObjects = (if vm2.numObjects = 0 then 8 else vm2.numObjects * 2) := by
    rw [hmax]
    exact (threshold_below vm2.numObjects h0 hb).1
  refine ⟨hmax2, ?_⟩
  rw [hmax2]
  by_cases hz : vm2.numObjects = 0
  · simp [hz]
  · rw [if_neg hz]
    constructor
    · intro h
      rcases h with h | h
      · exact absurd h hz
      · rw [max_eq_left (by omega)]
    · intro h
      right
      have := le_max_right (vm2.numObjects * 2) 8
      omega

theorem gc_threshold_witness :
    (∃ vm2, gc 4 cycleExample = .ok vm2 ∧ vm2.numObjects = 1 ∧ vm2.maxObjects = 2 ∧
      vm2.maxObjects = (if vm2.numObjects = 0 then 8 else vm2.numObjects * 2)) ∧
    ReachedBelow COUNT_LIMIT (stateOf (andThen (pushInt 2 newVM 1 1) (gc 2))) ∧
    2 ≤ (stateOf (andThen (pushInt 2 newVM 1 1) (gc 2))).maxObjects :=
  ⟨⟨stateOf (gc 4 cycleExample), rfl, by decide, by decide,
    ((gc_threshold.1 4 cycleExample _ rfl).2 (by decide) (by decide)).1⟩,
    reachedBelow_pushInt_gc, gc_threshold.2 _ reachedBelow_pushInt_gc⟩

/-! ## The first three scenarios -/

theorem preservingSetup_eq (fuel a1 a2 : Nat) (z1 : a1 ≠ 0) (z2 : a2 ≠ 0) :
    preservingSetup fuel a1 a2 = .ok (preservingState a1 a2) := by
  unfold preservingSetup
  rw [pushInt_nogc _ _ _ _ (by simp [newVM, INIT_OBJ_NUM_MAX]) z1
    (by simp [newVM, STACK_MAX_SIZE])]
  simp only [andThen, newVM]
  rw [pushInt_nogc _ _ _ _ (by simp [INIT_OBJ_NUM_MAX]) z2 (by simp [STACK_MAX_SIZE])]
  norm_num [INIT_OBJ_NUM_MAX, preservingState]

theorem collectingSetup_eq (fuel a1 a2 : Nat) (z1 : a1 ≠ 0) (z2 : a2 ≠ 0) :
    collectingSetup fuel a1 a2 = .ok (collectingState a1 a2) := by
  unfold collectingSetup
  rw [pushInt_nogc _ _ _ _ (by simp [newVM, INIT_OBJ_NUM_MAX]) z1
    (by simp [newVM, STACK_MAX_SIZE])]
  simp only [andThen, newVM]
  rw [pushInt_nogc _ _ _ _ (by simp [INIT_OBJ_NUM_MAX]) z2 (by simp [STACK_MAX_SIZE])]
  norm_num [INIT_OBJ_NUM_MAX, collectingState, preservingState, pop, Except.map]

theorem preservingState_wf (a1 a2 : Nat) (h12 : a1 ≠ a2) (z1 : a1 ≠ 0) (z2 : a2 ≠ 0) :
    WellFormed (preservingState a1 a2) [a2, a1] ∧
      AllUnmarked (preservingState a1 a2).mem [a2, a1] := by
  have k12 := Ne.symm h12
  refine ⟨⟨?_, ?_, ?_⟩, ?_⟩
  · simp [Chain, preservingState, store, *]
  · simp [preservingState]
  · simp [Closed, closedAt, preservingState, store, *]
  · simp [AllUnmarked, isMarked, preservingState, store, *]

/-- When every object of the list is reachable, a collection returns and
keeps `numObjects`. -/
theorem gc_all_reachable (vm : VM) (l : List Nat) (fuel : Nat)
    (hwf : WellFormed vm l) (hun : AllUnmarked vm.mem l) (hfuel : l.length < fuel)
    (hall : ∀ a ∈ l, Reachable vm a) :
    ∃ vm2, gc fuel vm = .ok vm2 ∧ vm2.numObjects = vm.numObjects := by
  obtain ⟨vm2, l2, hrun, _, hsub, hmem, _, _, _, hn, _, _⟩ := gc_spec vm l fuel hwf hun hfuel
  refine ⟨vm2, hrun, ?_⟩
  have : l2 = l :=
    sublist_eq_of_subset l2 l hsub (chain_nodup _ _ _ hwf.1) (fun a ha => (hmem a).2 (hall a ha))
  rw [hn, this]
  simp

/-- The scenario of `preservingTest`: two scalars on the stack are kept. -/
theorem preservingTest_count (fuel a1 a2 : Nat) (h12 : a1 ≠ a2) (z1 : a1 ≠ 0) (z2 : a2 ≠ 0)
    (hfuel : 2 < fuel) :
    ∃ vm, preservingTest fuel a1 a2 = .ok vm ∧ vm.numObjects = 2 := by
  obtain ⟨hwf, hun⟩ := preservingState_wf a1 a2 h12 z1 z2
  have hall : ∀ a ∈ [a2, a1], Reachable (preservingState a1 a2) a := by
    intro a ha
    refine ⟨a, ?_, reach_refl _ _⟩
    simp only [List.mem_cons, List.mem_singleton, List.not_mem_nil, or_false] at ha
    show a ∈ [a1, a2]
    simp only [List.mem_cons, List.mem_singleton, List.not_mem_nil, or_false]
    exact ha.symm
  obtain ⟨vm2, hrun, hn⟩ := gc_all_reachable _ _ fuel hwf hun (by simpa using hfuel) hall
  refine ⟨vm2, ?_, hn⟩
  rw [preservingTest, preservingSetup_eq fuel a1 a2 z1 z2]
  exact hrun

/-- The scenario of `collectingTest`: two scalars popped from the stack are
collected. -/
theorem collectingTest_count (fuel a1 a2 : Nat) (h12 : a1 ≠ a2) (z1 : a1 ≠ 0) (z2 : a2 ≠ 0)
    (hfuel : 2 < fuel) :
    ∃ vm, collectingTest fuel a1 a2 = .ok vm ∧ vm.numObjects = 0 := by
  obtain ⟨hwf, hun⟩ := preservingState_wf a1 a2 h12 z1 z2
  obtain ⟨vm2, hrun, _, _, hn, _⟩ :=
    gc_empty_stack (collectingState a1 a2) [a2, a1] fuel hwf.1 hun rfl (by simpa using hfuel) rfl
  refine ⟨vm2, ?_, hn⟩
  rw [collectingTest, collectingSetup_eq fuel a1 a2 z1 z2]
  exact hrun

theorem reachingSetup_eq (fuel a1 a2 a3 a4 a5 a6 a7 : Nat) (h0 : 0 ∉ [a1, a2, a3, a4, a5, a6, a7]) :
    reachingSetup fuel a1 a2 a3 a4 a5 a6 a7 = .ok (reachingState a1 a2 a3 a4 a5 a6 a7) := by
  simp only [List.mem_cons, List.mem_singleton, not_or, List.not_mem_nil,
    not_false_eq_true, and_true] at h0
  obtain ⟨z1, z2, z3, z4, z5, z6, z7⟩ := h0
  unfold reachingSetup
  rw [pushInt_nogc _ _ _ _ (by simp [newVM, INIT_OBJ_NUM_MAX]) (Ne.symm z1)
    (by simp [newVM, STACK_MAX_SIZE])]
  simp only [andThen, newVM]
  rw [pushInt_nogc _ _ _ _ (by simp [INIT_OBJ_NUM_MAX]) (Ne.symm z2) (by simp [STACK_MAX_SIZE])]
  simp only
  rw [pushPair_nogc _ _ _ [] a1 a2 (by simp [INIT_OBJ_NUM_MAX]) (Ne.symm z3) (by simp)
    (by simp [STACK_MAX_SIZE])]
  simp only
  rw [pushInt_nogc _ _ _ _ (by simp [INIT_OBJ_NUM_MAX]) (Ne.symm z4) (by simp [STACK_MAX_SIZE])]
  simp only
  rw [pushInt_nogc _ _ _ _ (by simp [INIT_OBJ_NUM_MAX]) (Ne.symm z5) (by simp [STACK_MAX_SIZE])]
  simp only
  rw [pushPair_nogc _ _ _ [a3] a4 a5 (by simp [INIT_OBJ_NUM_MAX]) (Ne.symm z6) (by simp)
    (by simp [STACK_MAX_SIZE])]
  simp only
  rw [pushPair_nogc _ _ _ [] a3 a6 (by simp [INIT_OBJ_NUM_MAX]) (Ne.symm z7) (by simp)
    (by simp [STACK_MAX_SIZE])]
  norm_num [INIT_OBJ_NUM_MAX, reachingState]

theorem reachingState_lookup (a1 a2 a3 a4 a5 a6 a7 : Nat) (hnd : [a1, a2, a3, a4, a5, a6, a7].Nodup) :
    (reachingState a1 a2 a3 a4 a5 a6 a7).mem a1 =
        some { type := .INT, marked := 0, next := 0, value := 1, head := 0, tail := 0 } ∧
      (reachingState a1 a2 a3 a4 a5 a6 a7).mem a2 =
        some { type := .INT, marked := 0, next := a1, value := 2, head := 0, tail := 0 } ∧
      (reachingState a1 a2 a3 a4 a5 a6 a7).mem a3 =
        some { type := .PAIR, marked := 0, next := a2, value := 0, head := a1, tail := a2 } ∧
      (reachingState a1 a2 a3 a4 a5 a6 a7).mem a4 =
        some { type := .INT, marked := 0, next := a3, value := 3, head := 0, tail := 0 } ∧
      (reachingState a1 a2 a3 a4 a5 a6 a7).mem a5 =
        some { type := .INT, marked := 0, next := a4, value := 4, head := 0, tail := 0 } ∧
      (reachingState a1 a2 a3 a4 a5 a6 a7).mem a6 =
        some { type := .PAIR, marked := 0, next := a5, value := 0, head := a4, tail := a5 } ∧
      (reachingState a1 a2 a3 a4 a5 a6 a7).mem a7 =
        some { type := .PAIR, marked := 0, next := a6, value := 0, head := a3, tail := a6 } := by
  simp only [List.nodup_cons, List.mem_cons, List.mem_singleton, not_or, List.not_mem_nil,
    not_false_eq_true, List.nodup_nil, and_true] at hnd
  obtain ⟨⟨h12, h13, h14, h15, h16, h17⟩, ⟨h23, h24, h25, h26, h27⟩, ⟨h34, h35, h36, h37⟩, ⟨h45, h46, h47⟩, ⟨h56, h57⟩, h67⟩ :=
    hnd
  have k12 := Ne.symm h12
  have k13 := Ne.symm h13
  have k14 := Ne.symm h14
  have k15 := Ne.symm h15
  have k16 := Ne.symm h16
  have k17 := Ne.symm h17
  have k23 := Ne.symm h23
  have k24 := Ne.symm h24
  have k25 := Ne.symm h25
  have k26 := Ne.symm h26
  have k27 := Ne.symm h27
  have k34 := Ne.symm h34
  have k35 := Ne.symm h35
  have k36 := Ne.symm h36
  have k37 := Ne.symm h37
  have k45 := Ne.symm h45
  have k46 := Ne.symm h46
  have k47 := Ne.symm h47
  have k56 := Ne.symm h56
  have k57 := Ne.symm h57
  have k67 := Ne.symm h67
  refine ⟨?_, ?_, ?_, ?_, ?_, ?_, ?_⟩ <;> simp [reachingState, store, *]

theorem reachingState_wf (a1 a2 a3 a4 a5 a6 a7 : Nat) (hnd : [a1, a2, a3, a4, a5, a6, a7].Nodup) (h0 : 0 ∉ [a1, a2, a3, a4, a5, a6, a7]) :
    WellFormed (reachingState a1 a2 a3 a4 a5 a6 a7) [a7, a6, a5, a4, a3, a2, a1] ∧
      AllUnmarked (reachingState a1 a2 a3 a4 a5 a6 a7).mem [a7, a6, a5, a4, a3, a2, a1] := by
  obtain ⟨e1, e2, e3, e4, e5, e6, e7⟩ := reachingState_lookup a1 a2 a3 a4 a5 a6 a7 hnd
  simp only [List.mem_cons, List.mem_singleton, not_or, List.not_mem_nil,
    not_false_eq_true, and_true] at h0
  obtain ⟨z1, z2, z3, z4, z5, z6, z7⟩ := h0
  refine ⟨⟨?_, ?_, ?_⟩, ?_⟩
  · simp only [chain_cons_iff, chain_nil_iff]
    exact ⟨rfl, Ne.symm z7, _, e7, rfl, Ne.symm z6, _, e6, rfl, Ne.symm z5, _, e5, rfl,
      Ne.symm z4, _, e4, rfl, Ne.symm z3, _, e3, rfl, Ne.symm z2, _, e2, rfl, Ne.symm z1, _, e1,
      rfl⟩
  · simp [reachingState]
  · rw [closed_iff]
    intro b hb o ho ht
    simp only [List.mem_cons, List.mem_singleton, List.not_mem_nil, or_false] at hb
    rcases hb with rfl | rfl | rfl | rfl | rfl | rfl | rfl
    · rw [e7] at ho
      cases ho
      simp
    · rw [e6] at ho
      cases ho
      simp
    · rw [e5] at ho
      cases ho
      cases ht
    · rw [e4] at ho
      cases ho
      cases ht
    · rw [e3] at ho
      cases ho
      simp
    · rw [e2] at ho
      cases ho
      cases ht
    · rw [e1] at ho
      cases ho
      cases ht
  · intro b hb
    simp only [List.mem_cons, List.mem_singleton, List.not_mem_nil, or_false] at hb
    rcases hb with rfl | rfl | rfl | rfl | rfl | rfl | rfl
    · exact isMarked_false_of_mem _ _ _ e7 rfl
    · exact isMarked_false_of_mem _ _ _ e6 rfl
    · exact isMarked_false_of_mem _ _ _ e5 rfl
    · exact isMarked_false_of_mem _ _ _ e4 rfl
    · exact isMarked_false_of_mem _ _ _ e3 rfl
    · exact isMarked_false_of_mem _ _ _ e2 rfl
    · exact isMarked_false_of_mem _ _ _ e1 rfl

theorem reachingState_all_reachable (a1 a2 a3 a4 a5 a6 a7 : Nat) (hnd : [a1, a2, a3, a4, a5, a6, a7].Nodup) :
    ∀ a ∈ [a7, a6, a5, a4, a3, a2, a1], Reachable (reachingState a1 a2 a3 a4 a5 a6 a7) a := by
  obtain ⟨_, _, e3, _, _, e6, e7⟩ := reachingState_lookup a1 a2 a3 a4 a5 a6 a7 hnd
  have g73 : Edge (reachingState a1 a2 a3 a4 a5 a6 a7).mem a7 a3 := (edge_iff _ _ _).2 ⟨_, e7, rfl, Or.inl rfl⟩
  have g76 : Edge (reachingState a1 a2 a3 a4 a5 a6 a7).mem a7 a6 := (edge_iff _ _ _).2 ⟨_, e7, rfl, Or.inr rfl⟩
  have g31 : Edge (reachingState a1 a2 a3 a4 a5 a6 a7).mem a3 a1 := (edge_iff _ _ _).2 ⟨_, e3, rfl, Or.inl rfl⟩
  have g32 : Edge (reachingState a1 a2 a3 a4 a5 a6 a7).mem a3 a2 := (edge_iff _ _ _).2 ⟨_, e3, rfl, Or.inr rfl⟩
  have g64 : Edge (reachingState a1 a2 a3 a4 a5 a6 a7).mem a6 a4 := (edge_iff _ _ _).2 ⟨_, e6, rfl, Or.inl rfl⟩
  have g65 : Edge (reachingState a1 a2 a3 a4 a5 a6 a7).mem a6 a5 := (edge_iff _ _ _).2 ⟨_, e6, rfl, Or.inr rfl⟩
  have hroot : a7 ∈ (reachingState a1 a2 a3 a4 a5 a6 a7).stack := List.mem_singleton.2 rfl
  intro b hb
  simp only [List.mem_cons, List.mem_singleton, List.not_mem_nil, or_false] at hb
  rcases hb with rfl | rfl | rfl | rfl | rfl | rfl | rfl
  · exact ⟨_, hroot, reach_refl _ _⟩
  · exact ⟨_, hroot, reach_step _ _ _ _ g76 (reach_refl _ _)⟩
  · exact ⟨_, hroot, reach_step _ _ _ _ g76 (reach_step _ _ _ _ g65 (reach_refl _ _))⟩
  · exact ⟨_, hroot, reach_step _ _ _ _ g76 (reach_step _ _ _ _ g64 (reach_refl _ _))⟩
  · exact ⟨_, hroot, reach_step _ _ _ _ g73 (reach_refl _ _)⟩
  · exact ⟨_, hroot, reach_step _ _ _ _ g73 (reach_step _ _ _ _ g32 (reach_refl _ _))⟩
  · exact ⟨_, hroot, reach_step _ _ _ _ g73 (reach_step _ _ _ _ g31 (reach_refl _ _))⟩

/-- The scenario of `reachingTest`: the seven objects of the nested pair are
kept. -/
theorem reachingTest_count (fuel a1 a2 a3 a4 a5 a6 a7 : Nat) (hnd : [a1, a2, a3, a4, a5, a6, a7].Nodup) (h0 : 0 ∉ [a1, a2, a3, a4, a5, a6, a7])
    (hfuel : 7 < fuel) :
    ∃ vm, reachingTest fuel a1 a2 a3 a4 a5 a6 a7 = .ok vm ∧ vm.numObjects = 7 := by
  obtain ⟨hwf, hun⟩ := reachingState_wf a1 a2 a3 a4 a5 a6 a7 hnd h0
  obtain ⟨vm2, hrun, hn⟩ := gc_all_reachable _ _ fuel hwf hun (by simpa using hfuel)
    (reachingState_all_reachable a1 a2 a3 a4 a5 a6 a7 hnd)
  refine ⟨vm2, ?_, hn⟩
  rw [reachingTest, reachingSetup_eq fuel a1 a2 a3 a4 a5 a6 a7 h0]
  exact hrun

/-! ## Liveness and reclamation -/

/-- C3: on a well-formed state without marks, `gc` returns and every object
reachable from the stack is still in the object list afterwards, with the
same type, value, `head` and `tail`; when every object of the heap is
reachable, `numObjects` is unchanged. In particular `preservingTest` ends
with `numObjects == 2` and `reachingTest` with `numObjects == 7`, whatever
distinct non-null addresses `malloc` returns. -/
theorem gc_preserves_reachable (vm : VM) (l : List Nat) (fuel : Nat)
    (hwf : WellFormed vm l) (hun : AllUnmarked vm.mem l) (hfuel : l.length < fuel) :
    (∃ vm2 l2, gc fuel vm = .ok vm2 ∧ Chain vm2.mem vm2.firstObject l2 ∧
      (∀ a, Reachable vm a → a ∈ l2 ∧ ∃ o o2, vm.mem a = some o ∧ vm2.mem a = some o2 ∧
        o2.type = o.type ∧ o2.value = o.value ∧ o2.head = o.head ∧ o2.tail = o.tail) ∧
      ((∀ a ∈ l, Reachable vm a) → vm2.numObjects = vm.numObjects)) ∧
    (∀ f a1 a2 : Nat, a1 ≠ a2 → a1 ≠ 0 → a2 ≠ 0 → 2 < f →
      ∃ vm3, preservingTest f a1 a2 = .ok vm3 ∧ vm3.numObjects = 2) ∧
    (∀ f a1 a2 a3 a4 a5 a6 a7 : Nat, [a1, a2, a3, a4, a5, a6, a7].Nodup →
      0 ∉ [a1, a2, a3, a4, a5, a6, a7] → 7 < f →
      ∃ vm3, reachingTest f a1 a2 a3 a4 a5 a6 a7 = .ok vm3 ∧ vm3.numObjects = 7) := by
  refine ⟨?_, preservingTest_count, reachingTest_count⟩
  obtain ⟨vm2, l2, hrun, hc, hsub, hmem, hpay, _, _, hn, _, _⟩ := gc_spec vm l fuel hwf hun hfuel
  refine ⟨vm2, l2, hrun, hc, ?_, ?_⟩
  · intro a hr
    have ha := (hmem a).2 hr
    obtain ⟨o, o2, h1, h2, _, h4⟩ := hpay a ha
    simp only [Object.payload, Prod.mk.injEq] at h4
    exact ⟨ha, o, o2, h1, h2, h4.1, h4.2.1, h4.2.2.1, h4.2.2.2⟩
  · intro hall
    obtain ⟨vm2', hrun', hn'⟩ := gc_all_reachable vm l fuel hwf hun hfuel hall
    rw [hrun] at hrun'
    cases hrun'
    exact hn'

theorem gc_preserves_reachable_witness :
    WellFormed (preservingState 1 2) [2, 1] ∧ AllUnmarked (preservingState 1 2).mem [2, 1] ∧
    ∃ vm2 l2, gc 3 (preservingState 1 2) = .ok vm2 ∧ Chain vm2.mem vm2.firstObject l2 ∧
      (∀ a, Reachable (preservingState 1 2) a → a ∈ l2 ∧
        ∃ o o2, (preservingState 1 2).mem a = some o ∧ vm2.mem a = some o2 ∧
          o2.type = o.type ∧ o2.value = o.value ∧ o2.head = o.head ∧ o2.tail = o.tail) ∧
      ((∀ a ∈ [2, 1], Reachable (preservingState 1 2) a) →
        vm2.numObjects = (preservingState 1 2).numObjects) :=
  ⟨by decide, by decide,
    (gc_preserves_reachable (preservingState 1 2) [2, 1] 3
      (by decide) (by decide) (by decide)).1⟩

/-- C4: on a well-formed state without marks whose `numObjects` is the length
of the object list, `gc` returns with `numObjects` equal to the number of
distinct objects reachable from the stack before the collection. In
particular `collectingTest` (two scalars pushed and popped, then `gc`) ends
with `numObjects == 0`. -/
theorem gc_count_eq_reachable (vm : VM) (l : List Nat) (fuel : Nat)
    (hwf : WellFormed vm l) (hun : AllUnmarked vm.mem l) (hfuel : l.length < fuel)
    (hcount : vm.numObjects = (l.length : Int)) :
    (∃ vm2, gc fuel vm = .ok vm2 ∧
      vm2.numObjects = ((Set.ncard {a | Reachable vm a} : Nat) : Int)) ∧
    (∀ f a1 a2 : Nat, a1 ≠ a2 → a1 ≠ 0 → a2 ≠ 0 → 2 < f →
      ∃ vm3, collectingTest f a1 a2 = .ok vm3 ∧ vm3.numObjects = 0) := by
  refine ⟨?_, collectingTest_count⟩
  obtain ⟨vm2, l2, hrun, hc, _, hmem, _, _, _, hn, _, _⟩ := gc_spec vm l fuel hwf hun hfuel
  refine ⟨vm2, hrun, ?_⟩
  have hset : {a | Reachable vm a} = (↑l2.toFinset : Set Nat) := by
    ext a
    simp [hmem a]
  rw [hset, Set.ncard_coe_Finset, List.toFinset_card_of_nodup (chain_nodup _ _ _ hc), hn, hcount]
  ring

theorem gc_count_eq_reachable_witness :
    WellFormed (collectingState 1 2) [2, 1] ∧ AllUnmarked (collectingState 1 2).mem [2, 1] ∧
    (collectingState 1 2).numObjects = (([2, 1] : List Nat).length : Int) ∧
    ∃ vm2, gc 3 (collectingState 1 2) = .ok vm2 ∧
      vm2.numObjects = ((Set.ncard {a | Reachable (collectingState 1 2) a} : Nat) : Int) :=
  ⟨by decide, by decide, by decide,
    (gc_count_eq_reachable (collectingState 1 2) [2, 1] 3
      (by decide) (by decide) (by decide) (by decide)).1⟩

/-! ## The state after a collection -/

/-- Whenever `gc` returns on a well-formed state without marks, it has done
what `GcPost` says, whatever the fuel was. -/
theorem gc_post_of_ok (vm vm2 : VM) (l : List Nat) (fuel : Nat)
    (hwf : WellFormed vm l) (hun : AllUnmarked vm.mem l) (hrun : gc fuel vm = .ok vm2) :
    ∃ l2, GcPost vm vm2 l l2 := by
  have hF := gc_fuel_le fuel (l.length + 1) vm vm2 hrun
  obtain ⟨vm3, l2, hrun3, hpost⟩ := gc_spec vm l (fuel + (l.length + 1)) hwf hun (by omega)
  rw [hF] at hrun3
  cases hrun3
  exact ⟨l2, hpost⟩

/-- Reachability from the stack is the same before and after a collection. -/
theorem gcPost_reach (vm vm2 : VM) (l l2 : List Nat) (hpost : GcPost vm vm2 l l2)
    (r a : Nat) (hr : r ∈ vm.stack) (h : Reach vm.mem r a) : Reach vm2.mem r a := by
  obtain ⟨_, _, hmem, hpay, _⟩ := hpost
  induction h with
  | refl => exact reach_refl _ _
  | tail hrb hbc ih =>
    rename_i b c
    have hb : b ∈ l2 := (hmem b).2 ⟨r, hr, hrb⟩
    obtain ⟨o, o2, ho, ho2, _, hp⟩ := hpay b hb
    simp only [Object.payload, Prod.mk.injEq] at hp
    rw [edge_iff] at hbc
    obtain ⟨o', ho', ht, hch⟩ := hbc
    have : o' = o := Option.some.inj (ho'.symm.trans ho)
    subst this
    refine Relation.ReflTransGen.tail ih ?_
    rw [edge_iff]
    exact ⟨o2, ho2, hp.1 ▸ ht, hp.2.2.1 ▸ hp.2.2.2 ▸ hch⟩

/-- The state after a collection is well-formed, without marks, and all its
objects are reachable. -/
theorem gcPost_wf (vm vm2 : VM) (l l2 : List Nat) (hpost : GcPost vm vm2 l l2) :
    WellFormed vm2 l2 ∧ AllUnmarked vm2.mem l2 ∧ ∀ a ∈ l2, Reachable vm2 a := by
  have hpost' := hpost
  obtain ⟨hc, _, hmem, hpay, _, _, _, hs, _⟩ := hpost
  refine ⟨⟨hc, ?_, ?_⟩, ?_, ?_⟩
  · intro r hr
    rw [hs] at hr
    exact (hmem r).2 ⟨r, hr, reach_refl _ _⟩
  · rw [closed_iff]
    intro a ha o2 ho2 ht
    obtain ⟨o, o2', ho, ho2', _, hp⟩ := hpay a ha
    have : o2' = o2 := Option.some.inj (ho2'.symm.trans ho2)
    subst this
    simp only [Object.payload, Prod.mk.injEq] at hp
    obtain ⟨r, hr, hra⟩ := (hmem a).1 ha
    have he : ∀ b, (o.head = b ∨ o.tail = b) → Edge vm.mem a b := by
      intro b hb
      rw [edge_iff]
      exact ⟨o, ho, hp.1 ▸ ht, hb⟩
    rw [hp.2.2.1, hp.2.2.2]
    exact ⟨(hmem _).2 ⟨r, hr, Relation.ReflTransGen.tail hra (he _ (Or.inl rfl))⟩,
      (hmem _).2 ⟨r, hr, Relation.ReflTransGen.tail hra (he _ (Or.inr rfl))⟩⟩
  · intro a ha
    obtain ⟨_, o2, _, ho2, hm, _⟩ := hpay a ha
    exact isMarked_false_of_mem _ _ _ ho2 hm
  · intro a ha
    obtain ⟨r, hr, hra⟩ := (hmem a).1 ha
    exact ⟨r, hs ▸ hr, gcPost_reach vm vm2 l l2 hpost' r a hr hra⟩

theorem chain_same_list (m m2 : Mem) : ∀ (l : List Nat) (p p2 : Nat),
    Chain m p l → Chain m2 p2 l →
    p = p2 ∧ ∀ a ∈ l, ∃ o o2, m a = some o ∧ m2 a = some o2 ∧ o2.next = o.next
  | [], p, p2, h1, h2 => by
    rw [chain_nil_iff] at h1 h2
    exact ⟨h1.trans h2.symm, fun a ha => by simp at ha⟩
  | b :: l, p, p2, h1, h2 => by
    rw [chain_cons_iff] at h1 h2
    obtain ⟨e1, _, o, ho, c1⟩ := h1
    obtain ⟨e2, _, o2, ho2, c2⟩ := h2
    obtain ⟨hn, hrest⟩ := chain_same_list m m2 l _ _ c1 c2
    refine ⟨e1.trans e2.symm, ?_⟩
    intro a ha
    rcases List.mem_cons.1 ha with e | e
    · subst e
      exact ⟨o, o2, ho, ho2, hn.symm⟩
    · exact hrest a e

theorem object_eq (o o2 : Object) (hm : o2.marked = o.marked) (hn : o2.next = o.next)
    (hp : o2.payload = o.payload) : o2 = o := by
  cases o
  cases o2
  simp only [Object.payload, Prod.mk.injEq] at hp
  simp only at hm hn
  simp only [Object.mk.injEq]
  exact ⟨hp.1, hm, hn, hp.2.1, hp.2.2.1, hp.2.2.2⟩

/-- A collection of a state in which every object is reachable and unmarked
changes nothing. -/
theorem gc_fixed (vm : VM) (l : List Nat) (fuel : Nat)
    (hwf : WellFormed vm l) (hun : AllUnmarked vm.mem l) (hfuel : l.length < fuel)
    (hall : ∀ a ∈ l, Reachable vm a)
    (hmax : vm.maxObjects =
      (if vm.numObjects = 0 then INIT_OBJ_NUM_MAX else wrapInt (vm.numObjects * 2))) :
    gc fuel vm = .ok vm := by
  obtain ⟨vm2, l2, hrun, hc, hsub, hmem, hpay, _, hout, hn, hs, hmx⟩ :=
    gc_spec vm l fuel hwf hun hfuel
  have hl2 : l2 = l :=
    sublist_eq_of_subset l2 l hsub (chain_nodup _ _ _ hwf.1) (fun a ha => (hmem a).2 (hall a ha))
  subst hl2
  obtain ⟨hfirst, hnext⟩ := chain_same_list vm.mem vm2.mem l2 _ _ hwf.1 hc
  have hnum : vm2.numObjects = vm.numObjects := by
    rw [hn]
    simp
  have hmem2 : vm2.mem = vm.mem := by
    funext a
    by_cases ha : a ∈ l2
    · obtain ⟨o, o2, ho, ho2, hm, hp⟩ := hpay a ha
      obtain ⟨o', o2', ho', ho2', hnx⟩ := hnext a ha
      have e1 : o' = o := Option.some.inj (ho'.symm.trans ho)
      have e2 : o2' = o2 := Option.some.inj (ho2'.symm.trans ho2)
      subst e1 e2
      have hm0 : o'.marked = 0 := by
        have := hun a ha
        rw [isMarked, ho] at this
        simpa using this
      rw [ho, ho2, object_eq o' o2' (hm.trans hm0.symm) hnx hp]
    · exact hout a ha
  have hmax2 : vm2.maxObjects = vm.maxObjects := by
    rw [hmx, hmax, hnum]
  rw [hrun]
  congr 1
  cases vm
  cases vm2
  simp only [VM.mk.injEq]
  exact ⟨hmem2, hs, hfirst.symm, hnum, hmax2⟩

/-- C11: on a well-formed state without marks, `gc` returns a state on which
a second `gc` returns the very same state (same storage and object list,
`numObjects`, `maxObjects` and stack), and reports 0 objects collected and
the same number remaining. -/
theorem gc_idempotent (vm : VM) (l : List Nat) (fuel : Nat)
    (hwf : WellFormed vm l) (hun : AllUnmarked vm.mem l) (hfuel : l.length < fuel) :
    ∃ vm2, gc fuel vm = .ok vm2 ∧ gc fuel vm2 = .ok vm2 ∧
      gcReport fuel vm2 = .ok (0, vm2.numObjects) ∧
      andThen (gc fuel vm) (gc fuel) = gc fuel vm := by
  obtain ⟨vm2, l2, hrun, hpost⟩ := gc_spec vm l fuel hwf hun hfuel
  obtain ⟨hwf2, hun2, hall2⟩ := gcPost_wf vm vm2 l l2 hpost
  have hlen : l2.length < fuel := lt_of_le_of_lt hpost.2.1.length_le hfuel
  have hfix := gc_fixed vm2 l2 fuel hwf2 hun2 hlen hall2 hpost.2.2.2.2.2.2.2.2
  refine ⟨vm2, hrun, hfix, ?_, ?_⟩
  · rw [gcReport, hfix]
    simp
  · rw [hrun]
    exact hfix

theorem gc_idempotent_witness :
    WellFormed (handlingState 1 2 3 4 5 6) [6, 5, 4, 3, 2, 1] ∧
    AllUnmarked (handlingState 1 2 3 4 5 6).mem [6, 5, 4, 3, 2, 1] ∧
    ∃ vm2, gc 7 (handlingState 1 2 3 4 5 6) = .ok vm2 ∧ gc 7 vm2 = .ok vm2 ∧
      gcReport 7 vm2 = .ok (0, vm2.numObjects) ∧
      andThen (gc 7 (handlingState 1 2 3 4 5 6)) (gc 7) = gc 7 (handlingState 1 2 3 4 5 6) :=
  ⟨by decide, by decide,
    gc_idempotent (handlingState 1 2 3 4 5 6) [6, 5, 4, 3, 2, 1] 7
      (by decide) (by decide) (by decide)⟩

/-! ## Soundness of the states of a run -/

theorem gc_sound (fuel : Nat) (vm vm2 : VM) (l : List Nat) (hs : Sound vm l)
    (hrun : gc fuel vm = .ok vm2) :
    ∃ l2, Sound vm2 l2 ∧ GcPost vm vm2 l l2 := by
  obtain ⟨hwf, hun, hn, hlen⟩ := hs
  obtain ⟨l2, hpost⟩ := gc_post_of_ok vm vm2 l fuel hwf hun hrun
  obtain ⟨hwf2, hun2, _⟩ := gcPost_wf vm vm2 l l2 hpost
  refine ⟨l2, ⟨hwf2, hun2, ?_, ?_⟩, hpost⟩
  · rw [hpost.2.2.2.2.2.2.1, hn]
    ring
  · rw [hpost.2.2.2.2.2.2.2.1]
    exact hlen

theorem collectIfFull_sound (fuel : Nat) (vm vm1 : VM) (l : List Nat) (hs : Sound vm l)
    (hrun : collectIfFull fuel vm = .ok vm1) :
    ∃ l1, Sound vm1 l1 ∧ vm1.stack = vm.stack := by
  unfold collectIfFull at hrun
  by_cases h : vm.numObjects = vm.maxObjects
  · rw [if_pos h] at hrun
    obtain ⟨l2, hs2, hpost⟩ := gc_sound fuel vm vm1 l hs hrun
    exact ⟨l2, hs2, hpost.2.2.2.2.2.2.2.1⟩
  · rw [if_neg h] at hrun
    cases hrun
    exact ⟨l, hs, rfl⟩

/-- Linking a new unmarked object whose references point into the list, with
a stack of entries of the new list, keeps the state sound. -/
theorem link_sound (vm1 : VM) (l1 : List Nat) (addr : Nat) (o : Object) (s : List Nat)
    (hs : Sound vm1 l1) (h0 : addr ≠ 0) (hfresh : vm1.mem addr = none)
    (hnext : o.next = vm1.firstObject) (hmark : o.marked = 0)
    (hrefs : o.type = ObjectType.PAIR → o.head ∈ l1 ∧ o.tail ∈ l1)
    (hstack : ∀ r ∈ s, r ∈ addr :: l1) (hlen : s.length ≤ STACK_MAX_SIZE) :
    Sound { vm1 with
      mem := store vm1.mem addr o
      stack := s
      firstObject := addr
      numObjects := vm1.numObjects + 1 } (addr :: l1) := by
  obtain ⟨⟨hc, _, hcl⟩, hun, hn, _⟩ := hs
  have hnm : addr ∉ l1 := by
    intro h
    obtain ⟨o', ho'⟩ := chain_allocated _ _ _ hc addr h
    rw [hfresh] at ho'
    cases ho'
  have hsame : ∀ a ∈ l1, store vm1.mem addr o a = vm1.mem a :=
    fun a ha => store_other _ _ _ _ (fun e => hnm (e ▸ ha))
  refine ⟨⟨?_, hstack, ?_⟩, ?_, ?_, hlen⟩
  · show Chain (store vm1.mem addr o) addr (addr :: l1)
    rw [chain_cons_iff]
    refine ⟨rfl, h0, o, store_same _ _ _, ?_⟩
    rw [hnext]
    exact chain_of_eq_on vm1.mem _ l1 _ hsame hc
  · show Closed (store vm1.mem addr o) (addr :: l1)
    rw [closed_iff] at hcl ⊢
    intro a ha oa hoa ht
    rcases List.mem_cons.1 ha with e | e
    · subst e
      rw [store_same] at hoa
      cases hoa
      obtain ⟨h1, h2⟩ := hrefs ht
      exact ⟨List.mem_cons_of_mem _ h1, List.mem_cons_of_mem _ h2⟩
    · rw [hsame a e] at hoa
      obtain ⟨h1, h2⟩ := hcl a e oa hoa ht
      exact ⟨List.mem_cons_of_mem _ h1, List.mem_cons_of_mem _ h2⟩
  · show AllUnmarked (store vm1.mem addr o) (addr :: l1)
    intro a ha
    rcases List.mem_cons.1 ha with e | e
    · subst e
      exact isMarked_false_of_mem _ _ _ (store_same _ _ _) hmark
    · rw [isMarked_congr _ _ a (hsame a e)]
      exact hun a e
  · show vm1.numObjects + 1 = _
    rw [hn]
    simp

/-- Every operation other than a direct `push` that returns keeps the state
sound. -/
theorem run_sound (fuel : Nat) (vm vm2 : VM) (l : List Nat) (op : Op) (hs : Sound vm l)
    (hop : op.isPush = false) (hm : op.mallocOk fuel vm) (hrun : op.run fuel vm = .ok vm2) :
    ∃ l2, Sound vm2 l2 := by
  cases op with
  | pushInt v addr =>
    obtain ⟨vm1, h1, h0, hlen, h2⟩ := pushInt_ok fuel vm v addr vm2 hrun
    obtain ⟨l1, hs1, _⟩ := collectIfFull_sound fuel vm vm1 l hs h1
    subst h2
    refine ⟨addr :: l1, link_sound vm1 l1 addr _ _ hs1 h0 (hm.2 vm1 h1) rfl rfl
      (fun h => by cases h) ?_ ?_⟩
    · intro r hr
      rcases List.mem_append.1 hr with e | e
      · exact List.mem_cons_of_mem _ (hs1.1.2.1 r e)
      · rw [List.mem_singleton.1 e]
        exact List.mem_cons_self _ _
    · rw [List.length_append, List.length_singleton]
      exact hlen
  | pushPair addr =>
    obtain ⟨vm1, s, x, y, h1, h0, hst, hlen, h2⟩ := pushPair_ok fuel vm addr vm2 hrun
    obtain ⟨l1, hs1, _⟩ := collectIfFull_sound fuel vm vm1 l hs h1
    subst h2
    have hin : ∀ r ∈ s ++ [x, y], r ∈ l1 := fun r hr => hs1.1.2.1 r (hst ▸ hr)
    refine ⟨addr :: l1, link_sound vm1 l1 addr _ _ hs1 h0 (hm.2 vm1 h1) rfl rfl
      (fun _ => ⟨hin x (by simp), hin y (by simp)⟩) ?_ ?_⟩
    · intro r hr
      rcases List.mem_append.1 hr with e | e
      · exact List.mem_cons_of_mem _ (hin r (List.mem_append_left _ e))
      · rw [List.mem_singleton.1 e]
        exact List.mem_cons_self _ _
    · rw [List.length_append, List.length_singleton]
      exact hlen
  | pop =>
    have hrun' : (GC.pop vm).map Prod.fst = .ok vm2 := hrun
    cases hp : GC.pop vm with
    | error e => rw [hp] at hrun'; cases hrun'
    | ok r =>
      obtain ⟨vmA, x⟩ := r
      rw [hp] at hrun'
      have e : vmA = vm2 := Except.ok.inj hrun'
      subst e
      obtain ⟨hst, h2⟩ := pop_ok vm vmA x hp
      obtain ⟨⟨hc, hroots, hcl⟩, hun, hn, hlen⟩ := hs
      refine ⟨l, ⟨?_, ?_, ?_⟩, ?_, ?_, ?_⟩
      · rw [h2]
        exact hc
      · intro r hr
        exact hroots r (hst ▸ List.mem_append_left _ hr)
      · rw [h2]
        exact hcl
      · rw [h2]
        exact hun
      · rw [h2]
        exact hn
      · rw [hst, List.length_append] at hlen
        omega
  | gc =>
    obtain ⟨l2, hs2, _⟩ := gc_sound fuel vm vm2 l hs hrun
    exact ⟨l2, hs2⟩
  | push r => cases hop

theorem reached_sound (vm : VM) (h : Reached vm) : ∃ l, Sound vm l := by
  induction h with
  | init =>
    have h : Sound newVM [] := by decide
    exact ⟨[], h⟩
  | step fuel op _ hop hm hrun ih =>
    obtain ⟨l, hs⟩ := ih
    exact run_sound fuel _ _ l op hs hop hm hrun

/-! ## Invariants of the counter and of the mark bits -/

theorem reached_pairExample : Reached pairExample := by
  have h1 : Reached (stateOf (pushInt 0 newVM 1 1)) :=
    ReachedBy.step 0 (.pushInt 1 1) ReachedBy.init rfl
      ⟨by decide, fun vm1 h => by cases h; rfl⟩ rfl
  have h2 : Reached (stateOf (andThen (pushInt 0 newVM 1 1) (fun vm => pushInt 0 vm 2 2))) :=
    ReachedBy.step 0 (.pushInt 2 2) h1 rfl ⟨by decide, fun vm1 h => by cases h; rfl⟩ rfl
  exact ReachedBy.step 0 (.pushPair 3) h2 rfl ⟨by decide, fun vm1 h => by cases h; rfl⟩ rfl

/-- C13: in every state reached from `newVM` by `pushInt`, `pushPair`, `pop`
and `gc`, every object of the object list has `marked == 0`; whenever `gc`
returns, every object of the new list has `marked == 0`, and with fuel above
the length of the list it does return. -/
theorem marks_clear_between_operations (vm : VM) (h : Reached vm) :
    ∃ l, Chain vm.mem vm.firstObject l ∧ AllUnmarked vm.mem l ∧
      (∀ fuel vm2, gc fuel vm = .ok vm2 →
        ∃ l2, Chain vm2.mem vm2.firstObject l2 ∧ AllUnmarked vm2.mem l2) ∧
      (∀ fuel, l.length < fuel → ∃ vm2, gc fuel vm = .ok vm2) := by
  obtain ⟨l, hs⟩ := reached_sound vm h
  refine ⟨l, hs.1.1, hs.2.1, ?_, ?_⟩
  · intro fuel vm2 hrun
    obtain ⟨l2, hs2, _⟩ := gc_sound fuel vm vm2 l hs hrun
    exact ⟨l2, hs2.1.1, hs2.2.1⟩
  · intro fuel hfuel
    obtain ⟨vm2, _, hrun, _⟩ := gc_spec vm l fuel hs.1 hs.2.1 hfuel
    exact ⟨vm2, hrun⟩

theorem marks_clear_between_operations_witness :
    Reached pairExample ∧
    ∃ l, Chain pairExample.mem pairExample.firstObject l ∧ AllUnmarked pairExample.mem l :=
  have h2 := marks_clear_between_operations _ reached_pairExample
  ⟨reached_pairExample, h2.choose, h2.choose_spec.1, h2.choose_spec.2.1⟩

/-! ## The root stack -/

theorem writeLoc_stack (vm vm1 : VM) (v : Nat) (loc : Loc) (h : writeLoc vm v loc = .ok vm1) :
    vm1.stack = vm.stack := by
  cases loc with
  | first =>
    cases h
    rfl
  | nextOf a =>
    rw [writeLoc] at h
    cases hl : load vm.mem a with
    | error e => rw [hl] at h; cases h
    | ok o =>
      rw [hl] at h
      cases h
      rfl

theorem sweepLoop_stack : ∀ (fuel : Nat) (vm : VM) (loc : Loc) (vm2 : VM),
    sweepLoop fuel vm loc = .ok vm2 → vm2.stack = vm.stack
  | 0, _, _, _, h => by cases h
  | fuel + 1, vm, loc, vm2, h => by
    rw [sweepLoop] at h
    cases hr : readLoc vm loc with
    | error e => rw [hr] at h; cases h
    | ok p =>
      rw [hr] at h
      simp only at h
      by_cases hp : p = 0
      · rw [if_pos hp] at h
        cases h
        rfl
      · rw [if_neg hp] at h
        cases hl : load vm.mem p with
        | error e => rw [hl] at h; cases h
        | ok o =>
          rw [hl] at h
          simp only at h
          by_cases hm : o.marked = 0
          · rw [if_pos hm] at h
            cases hw : writeLoc vm o.next loc with
            | error e => rw [hw] at h; cases h
            | ok vm1 =>
              rw [hw] at h
              simp only at h
              rw [sweepLoop_stack fuel _ _ _ h]
              exact writeLoc_stack vm vm1 _ loc hw
          · rw [if_neg hm] at h
            rw [sweepLoop_stack fuel _ _ _ h]

theorem markAll_stack (fuel : Nat) (vm vm1 : VM) (h : markAll fuel vm = .ok vm1) :
    vm1.stack = vm.stack := by
  rw [markAll] at h
  cases h1 : markRoots fuel vm.mem vm.stack with
  | error e => rw [h1] at h; cases h
  | ok m1 =>
    rw [h1] at h
    cases h
    rfl

theorem gc_stack (fuel : Nat) (vm vm2 : VM) (h : gc fuel vm = .ok vm2) :
    vm2.stack = vm.stack := by
  rw [gc] at h
  cases h1 : markAll fuel vm with
  | error e => rw [h1] at h; cases h
  | ok vm1 =>
    rw [h1] at h
    simp only at h
    cases h2 : marksweep fuel vm1 with
    | error e => rw [h2] at h; cases h
    | ok vm3 =>
      rw [h2] at h
      cases h
      show vm3.stack = vm.stack
      rw [sweepLoop_stack fuel vm1 .first vm3 h2]
      exact markAll_stack fuel vm vm1 h1

/-- On a well-formed state, whatever the mark bits, `gc` returns when the fuel
is above the length of the object list, and the stack entries are objects of
the new list, with the fields they had. -/
theorem gc_total (vm : VM) (l : List Nat) (fuel : Nat) (hwf : WellFormed vm l)
    (hfuel : l.length < fuel) :
    ∃ vm2 l2, gc fuel vm = .ok vm2 ∧ Chain vm2.mem vm2.firstObject l2 ∧ l2.Sublist l ∧
      (∀ r ∈ vm.stack, r ∈ l2) ∧ vm2.stack = vm.stack ∧
      (∀ a, a ∉ l → vm2.mem a = vm.mem a) := by
  obtain ⟨m1, hroots, hmo, hmarked, _⟩ :=
    markRoots_spec l fuel hfuel vm.stack vm.mem hwf.2.2 (wellFormed_allocated vm l hwf) hwf.2.1
  have hc1 : Chain m1 vm.firstObject l := by
    refine chain_congr vm.mem m1 l _ (fun a ha => ?_) hwf.1
    obtain ⟨o, ho⟩ := chain_allocated _ _ _ hwf.1 a ha
    obtain ⟨o2, ho2, _, hn, _⟩ := markedOnly_payload _ _ _ hmo a o ho
    exact ⟨o, o2, ho, ho2, hn⟩
  obtain ⟨vm3, hsweep, p2, hr2, hc2, _, _, hfr, _, _, _, hs, _⟩ :=
    marksweep_spec { vm with mem := m1 } l fuel hc1 hfuel
  have hp2 : p2 = vm3.firstObject := (Except.ok.inj hr2).symm
  subst hp2
  refine ⟨{ vm3 with maxObjects :=
      if vm3.numObjects = 0 then INIT_OBJ_NUM_MAX else wrapInt (vm3.numObjects * 2) },
    l.filter (isMarked m1), ?_, hc2, List.filter_sublist l, ?_, hs, ?_⟩
  · rw [gc, markAll, hroots]
    simp only [hsweep]
  · intro r hr
    exact List.mem_filter.2 ⟨hwf.2.1 r hr, hmarked r hr⟩
  · intro a ha
    have h1 : vm3.mem a = m1 a := hfr a ha (by simp)
    show vm3.mem a = vm.mem a
    rw [h1]
    rcases hmo a with h | ⟨_, _, _, _, r, hr, hra⟩
    · exact h
    · exact absurd (reach_mem_closed vm.mem l hwf.2.2 r a (hwf.2.1 r hr) hra) ha

/-- C17: whenever `markAll`, `marksweep` or `gc` returns, the stack is what
it was before; and on a well-formed state `gc` returns as soon as the fuel is
above the length of the object list. -/
theorem gc_leaves_stack (fuel : Nat) (vm : VM) :
    (∀ vm2, gc fuel vm = .ok vm2 → vm2.stack = vm.stack) ∧
    (∀ vm1, markAll fuel vm = .ok vm1 → vm1.stack = vm.stack) ∧
    (∀ vm2, marksweep fuel vm = .ok vm2 → vm2.stack = vm.stack) ∧
    (∀ l, WellFormed vm l → l.length < fuel →
      ∃ vm2, gc fuel vm = .ok vm2 ∧ vm2.stack = vm.stack) := by
  refine ⟨gc_stack fuel vm, markAll_stack fuel vm, sweepLoop_stack fuel vm .first, ?_⟩
  intro l hwf hfuel
  obtain ⟨vm2, _, hrun, _, _, _, hs, _⟩ := gc_total vm l fuel hwf hfuel
  exact ⟨vm2, hrun, hs⟩

theorem gc_leaves_stack_witness :
    WellFormed (handlingState 1 2 3 4 5 6) [6, 5, 4, 3, 2, 1] ∧
    ∃ vm2, gc 7 (handlingState 1 2 3 4 5 6) = .ok vm2 ∧ vm2.stack = [3, 6] :=
  ⟨by decide,
    (gc_leaves_stack 7 (handlingState 1 2 3 4 5 6)).2.2.2 [6, 5, 4, 3, 2, 1] (by decide)
      (by decide)⟩

/-- C16: when the stack holds fewer than `STACK_MAX_SIZE` entries, `push`
returns and the `pop` that follows returns the pushed pointer and the state
before the `push`; `push` changes neither the storage, `firstObject`,
`numObjects` nor `maxObjects`. -/
theorem push_pop_lifo (vm : VM) (r : Nat) (h : vm.stack.length < STACK_MAX_SIZE) :
    ∃ vm1, push vm r = .ok vm1 ∧ pop vm1 = .ok (vm, r) ∧ vm1.stack = vm.stack ++ [r] ∧
      vm1.mem = vm.mem ∧ vm1.firstObject = vm.firstObject ∧
      vm1.numObjects = vm.numObjects ∧ vm1.maxObjects = vm.maxObjects := by
  refine ⟨{ vm with stack := vm.stack ++ [r] }, ?_, ?_, rfl, rfl, rfl, rfl, rfl⟩
  · rw [push, if_pos h]
  · simp [pop]

theorem push_pop_lifo_witness :
    (handlingState 1 2 3 4 5 6).stack.length < STACK_MAX_SIZE ∧
    ∃ vm1, push (handlingState 1 2 3 4 5 6) 4 = .ok vm1 ∧
      pop vm1 = .ok (handlingState 1 2 3 4 5 6, 4) ∧
      vm1.stack = (handlingState 1 2 3 4 5 6).stack ++ [4] ∧
      vm1.mem = (handlingState 1 2 3 4 5 6).mem ∧
      vm1.firstObject = (handlingState 1 2 3 4 5 6).firstObject ∧
      vm1.numObjects = (handlingState 1 2 3 4 5 6).numObjects ∧
      vm1.maxObjects = (handlingState 1 2 3 4 5 6).maxObjects :=
  ⟨by decide, push_pop_lifo (handlingState 1 2 3 4 5 6) 4 (by decide)⟩

/-! ## The allocating operations on a well-formed state -/

theorem collectIfFull_total (vm : VM) (l : List Nat) (fuel : Nat) (hwf : WellFormed vm l)
    (hfuel : l.length < fuel) :
    ∃ vm1 l1, collectIfFull fuel vm = .ok vm1 ∧ Chain vm1.mem vm1.firstObject l1 ∧
      l1.Sublist l ∧ (∀ r ∈ vm.stack, r ∈ l1) ∧ vm1.stack = vm.stack ∧
      (vm.numObjects = vm.maxObjects → gc fuel vm = .ok vm1) ∧
      (vm.numObjects ≠ vm.maxObjects → vm1 = vm) := by
  unfold collectIfFull
  by_cases h : vm.numObjects = vm.maxObjects
  · rw [if_pos h]
    obtain ⟨vm2, l2, hrun, hc, hsub, hroots, hs, _⟩ := gc_total vm l fuel hwf hfuel
    exact ⟨vm2, l2, hrun, hc, hsub, hroots, hs, fun _ => hrun, fun hne => absurd h hne⟩
  · rw [if_neg h]
    exact ⟨vm, l, rfl, hwf.1, List.Sublist.refl l, hwf.2.1, rfl, fun he => absurd he h,
      fun _ => rfl⟩

theorem pushInt_eq (fuel : Nat) (vm vm1 : VM) (v : Int) (addr : Nat)
    (h1 : collectIfFull fuel vm = .ok vm1) (h0 : addr ≠ 0) :
    pushInt fuel vm v addr =
      push { vm1 with
        mem := store vm1.mem addr
          { type := .INT, marked := 0, next := vm1.firstObject, value := v, head := 0, tail := 0 }
        firstObject := addr
        numObjects := vm1.numObjects + 1 } addr := by
  rw [pushInt, newObject_eq, h1]
  simp only [andThen, allocate, load, h0, if_false, store_same, store_store]

theorem pushPair_eq (fuel : Nat) (vm vm1 : VM) (addr : Nat) (s : List Nat) (x y : Nat)
    (h1 : collectIfFull fuel vm = .ok vm1) (h0 : addr ≠ 0) (hs : vm1.stack = s ++ [x, y]) :
    pushPair fuel vm addr =
      push { vm1 with
        mem := store vm1.mem addr
          { type := .PAIR, marked := 0, next := vm1.firstObject, value := 0, head := x, tail := y }
        stack := s
        firstObject := addr
        numObjects := vm1.numObjects + 1 } addr := by
  have e1 : (s ++ [x, y]).getLast? = some y := by simp
  have e2 : (s ++ [x, y]).dropLast = s ++ [x] := by
    rw [show s ++ [x, y] = (s ++ [x]) ++ [y] by simp, List.dropLast_concat]
  have e3 : (s ++ [x]).getLast? = some x := by simp
  have e4 : (s ++ [x]).dropLast = s := List.dropLast_concat
  rw [pushPair, newObject_eq, h1]
  simp [andThen, allocate, load, h0, store_same, pop, hs, e1, e2, e3, e4, store_store]

theorem pushPair_underflow (fuel : Nat) (vm vm1 : VM) (addr : Nat)
    (h1 : collectIfFull fuel vm = .ok vm1) (h0 : addr ≠ 0) (hs : vm1.stack.length < 2) :
    pushPair fuel vm addr = .error .stackUnderflow := by
  rw [pushPair, newObject_eq, h1]
  cases hst : vm1.stack with
  | nil => simp [andThen, allocate, pop, hst]
  | cons x t =>
    cases t with
    | nil => simp [andThen, allocate, load, h0, store_same, pop, hst]
    | cons y t2 =>
      rw [hst] at hs
      simp only [List.length_cons] at hs
      omega

theorem list_two_last : ∀ (l : List Nat), 2 ≤ l.length → ∃ s x y, l = s ++ [x, y]
  | [], h => by simp at h
  | [_], h => by simp at h
  | [x, y], _ => ⟨[], x, y, rfl⟩
  | a :: b :: c :: t, _ => by
    obtain ⟨s, x, y, hs⟩ := list_two_last (b :: c :: t) (by simp)
    exact ⟨a :: s, x, y, by rw [hs]; rfl⟩

/-- C14: on a well-formed state whose stack is `s ++ [x, y]` (at most
`STACK_MAX_SIZE` entries), with `malloc` returning a valid address and fuel
above the length of the object list, `pushPair` returns; the object at the
returned address is a pair with `head == x` and `tail == y`, the stack is
`s ++ [addr]`, and the pair and both operands are in the object list. This
covers the case `numObjects == maxObjects`, in which `gc` runs first. -/
theorem pushPair_result (vm : VM) (l : List Nat) (fuel addr : Nat) (s : List Nat) (x y : Nat)
    (hwf : WellFormed vm l) (hst : vm.stack = s ++ [x, y])
    (hlen : vm.stack.length ≤ STACK_MAX_SIZE) (hm : MallocOk fuel vm addr)
    (hfuel : l.length < fuel) :
    ∃ vm2 l2, pushPair fuel vm addr = .ok vm2 ∧ vm2.stack = s ++ [addr] ∧
      vm2.stack.length + 1 = vm.stack.length ∧
      (∃ o, vm2.mem addr = some o ∧ o.type = .PAIR ∧ o.head = x ∧ o.tail = y) ∧
      Chain vm2.mem vm2.firstObject l2 ∧ addr ∈ l2 ∧ x ∈ l2 ∧ y ∈ l2 ∧
      (vm.numObjects = vm.maxObjects →
        ∃ vm1, gc fuel vm = .ok vm1 ∧ vm1.mem addr = none ∧ vm1.stack = s ++ [x, y]) := by
  obtain ⟨vm1, l1, h1, hc1, _, hroots, hs1, hgc, _⟩ := collectIfFull_total vm l fuel hwf hfuel
  have hstack1 : vm1.stack = s ++ [x, y] := hs1.trans hst
  have hslen : s.length < STACK_MAX_SIZE := by
    rw [hst] at hlen
    simp only [List.length_append, List.length_cons, List.length_nil] at hlen
    omega
  have hfresh := hm.2 vm1 h1
  have hnm : addr ∉ l1 := by
    intro h
    obtain ⟨o', ho'⟩ := chain_allocated _ _ _ hc1 addr h
    rw [hfresh] at ho'
    cases ho'
  refine ⟨{ vm1 with
      mem := store vm1.mem addr
        { type := .PAIR, marked := 0, next := vm1.firstObject, value := 0, head := x, tail := y }
      stack := s ++ [addr]
      firstObject := addr
      numObjects := vm1.numObjects + 1 }, addr :: l1, ?_, rfl, ?_,
    ⟨_, store_same _ _ _, rfl, rfl, rfl⟩, ?_, List.mem_cons_self _ _, ?_, ?_, ?_⟩
  · rw [pushPair_eq fuel vm vm1 addr s x y h1 hm.1 hstack1, push]
    simp only [hslen, if_true]
  · rw [hst]
    simp
  · show Chain (store vm1.mem addr _) addr (addr :: l1)
    rw [chain_cons_iff]
    refine ⟨rfl, hm.1, _, store_same _ _ _, ?_⟩
    exact chain_of_eq_on vm1.mem _ l1 _
      (fun a ha => store_other _ _ _ _ (fun e => hnm (e ▸ ha))) hc1
  · exact List.mem_cons_of_mem _ (hroots x (by rw [hst]; simp))
  · exact List.mem_cons_of_mem _ (hroots y (by rw [hst]; simp))
  · intro hfull
    exact ⟨vm1, hgc hfull, hfresh, hstack1⟩

theorem fullHandling_mallocOk : MallocOk 7 fullHandling 2 := by
  refine ⟨by decide, ?_⟩
  intro vm1 h
  have e : collectIfFull 7 fullHandling = .ok (stateOf (collectIfFull 7 fullHandling)) := rfl
  rw [e] at h
  cases h
  rfl

theorem pushPair_result_witness :
    WellFormed fullHandling [6, 5, 4, 3, 2, 1] ∧ fullHandling.stack = [] ++ [3, 6] ∧
    fullHandling.numObjects = fullHandling.maxObjects ∧ MallocOk 7 fullHandling 2 ∧
    ∃ vm2 l2, pushPair 7 fullHandling 2 = .ok vm2 ∧ vm2.stack = [] ++ [2] ∧
      vm2.stack.length + 1 = fullHandling.stack.length ∧
      (∃ o, vm2.mem 2 = some o ∧ o.type = .PAIR ∧ o.head = 3 ∧ o.tail = 6) ∧
      Chain vm2.mem vm2.firstObject l2 ∧ 2 ∈ l2 ∧ 3 ∈ l2 ∧ 6 ∈ l2 ∧
      (fullHandling.numObjects = fullHandling.maxObjects →
        ∃ vm1, gc 7 fullHandling = .ok vm1 ∧ vm1.mem 2 = none ∧ vm1.stack = [] ++ [3, 6]) :=
  ⟨by decide, rfl, by decide, fullHandling_mallocOk,
    pushPair_result fullHandling [6, 5, 4, 3, 2, 1] 7 2 [] 3 6 (by decide) rfl (by decide)
      fullHandling_mallocOk (by decide)⟩

/-! ## Failures of the stack operations -/

theorem push_overflow_iff (vm : VM) (r : Nat) (hlen : vm.stack.length ≤ STACK_MAX_SIZE) :
    (push vm r = .error .stackOverflow ↔ vm.stack.length = STACK_MAX_SIZE) ∧
    (vm.stack.length ≠ STACK_MAX_SIZE → ∃ vm2, push vm r = .ok vm2) := by
  unfold push
  by_cases h : vm.stack.length < STACK_MAX_SIZE
  · rw [if_pos h]
    refine ⟨⟨fun e => (by cases e), fun e => (by omega)⟩, fun _ => ⟨_, rfl⟩⟩
  · rw [if_neg h]
    refine ⟨⟨fun _ => by omega, fun _ => rfl⟩, fun hne => by omega⟩

theorem pop_underflow_iff (vm : VM) :
    (pop vm = .error .stackUnderflow ↔ vm.stack = []) ∧
    (vm.stack ≠ [] → ∃ vm2 r, pop vm = .ok (vm2, r)) := by
  unfold pop
  cases h : vm.stack.getLast? with
  | none =>
    have hnil : vm.stack = [] := List.getLast?_eq_none_iff.1 h
    exact ⟨⟨fun _ => hnil, fun _ => rfl⟩, fun hne => absurd hnil hne⟩
  | some v =>
    have hne : vm.stack ≠ [] := by
      intro e
      rw [e] at h
      cases h
    exact ⟨⟨fun e => (by cases e), fun e => absurd e hne⟩, fun _ => ⟨_, _, rfl⟩⟩

/-- C15: with at most `STACK_MAX_SIZE` entries on the stack, `push` fails,
with "Stack overflow!", exactly when the stack holds `STACK_MAX_SIZE`
entries; `pop` fails, with "Stack underflow!", exactly when the stack is
empty; on a well-formed state, with a non-null address from `malloc` and fuel
above the length of the object list, `pushPair` fails, with the underflow,
exactly when fewer than two entries are on the stack, and `pushInt` fails,
with the overflow, exactly when the stack is full. Otherwise each of them
returns. -/
theorem stack_failures_exact (vm : VM) (hlen : vm.stack.length ≤ STACK_MAX_SIZE) :
    (∀ r, (push vm r = .error .stackOverflow ↔ vm.stack.length = STACK_MAX_SIZE) ∧
      (vm.stack.length ≠ STACK_MAX_SIZE → ∃ vm2, push vm r = .ok vm2)) ∧
    ((pop vm = .error .stackUnderflow ↔ vm.stack = []) ∧
      (vm.stack ≠ [] → ∃ vm2 r, pop vm = .ok (vm2, r))) ∧
    (∀ l fuel addr, WellFormed vm l → l.length < fuel → addr ≠ 0 →
      (pushPair fuel vm addr = .error .stackUnderflow ↔ vm.stack.length < 2) ∧
      (2 ≤ vm.stack.length → ∃ vm2, pushPair fuel vm addr = .ok vm2)) ∧
    (∀ l fuel v addr, WellFormed vm l → l.length < fuel → addr ≠ 0 →
      (pushInt fuel vm v addr = .error .stackOverflow ↔ vm.stack.length = STACK_MAX_SIZE) ∧
      (vm.stack.length ≠ STACK_MAX_SIZE → ∃ vm2, pushInt fuel vm v addr = .ok vm2)) ∧
    Fault.message .stackOverflow = "Stack overflow!" ∧
    Fault.message .stackUnderflow = "Stack underflow!" ∧ STACK_MAX_SIZE = 256 := by
  refine ⟨fun r => push_overflow_iff vm r hlen, pop_underflow_iff vm, ?_, ?_, rfl, rfl, rfl⟩
  · intro l fuel addr hwf hfuel h0
    obtain ⟨vm1, _, h1, _, _, _, hs1, _⟩ := collectIfFull_total vm l fuel hwf hfuel
    have hok : 2 ≤ vm.stack.length → ∃ vm2, pushPair fuel vm addr = .ok vm2 := by
      intro h2
      obtain ⟨s, x, y, hst⟩ := list_two_last vm.stack h2
      have hslen : s.length < STACK_MAX_SIZE := by
        rw [hst] at hlen
        simp only [List.length_append, List.length_cons, List.length_nil] at hlen
        omega
      rw [pushPair_eq fuel vm vm1 addr s x y h1 h0 (hs1.trans hst), push]
      simp only [hslen, if_true]
      exact ⟨_, rfl⟩
    refine ⟨⟨?_, ?_⟩, hok⟩
    · intro herr
      by_contra hge
      obtain ⟨vm2, hrun⟩ := hok (by omega)
      rw [hrun] at herr
      cases herr
    · intro hlt
      exact pushPair_underflow fuel vm vm1 addr h1 h0 (hs1 ▸ hlt)
  · intro l fuel v addr hwf hfuel h0
    obtain ⟨vm1, _, h1, _, _, _, hs1, _⟩ := collectIfFull_total vm l fuel hwf hfuel
    rw [pushInt_eq fuel vm vm1 v addr h1 h0]
    have hlen1 : vm1.stack.length ≤ STACK_MAX_SIZE := hs1 ▸ hlen
    have := push_overflow_iff
      { vm1 with
        mem := store vm1.mem addr
          { type := .INT, marked := 0, next := vm1.firstObject, value := v, head := 0, tail := 0 }
        firstObject := addr
        numObjects := vm1.numObjects + 1 } addr hlen1
    rw [← hs1]
    exact this

set_option maxRecDepth 20000 in
theorem stack_failures_exact_witness :
    fullStackExample.stack.length ≤ STACK_MAX_SIZE ∧
    WellFormed fullStackExample [2, 1] ∧
    push fullStackExample 2 = .error .stackOverflow ∧
    pushInt 3 fullStackExample 5 3 = .error .stackOverflow ∧
    (∃ vm2, pushPair 3 fullStackExample 3 = .ok vm2) ∧
    (∃ vm2 r, pop fullStackExample = .ok (vm2, r)) :=
  have h := stack_failures_exact fullStackExample (by decide)
  have hwf : WellFormed fullStackExample [2, 1] := by decide
  ⟨by decide, hwf, (h.1 2).1.2 (by decide),
    (h.2.2.2.1 [2, 1] 3 5 3 hwf (by decide) (by decide)).1.2 (by decide),
    (h.2.2.1 [2, 1] 3 3 hwf (by decide) (by decide)).2 (by decide), h.2.1.2 (by decide)⟩

/-! ## Results that do not depend on the fuel -/

theorem mark_fuel_stable : ∀ (fuel : Nat) (m : Mem) (p : Nat) (r : Except Fault Mem),
    mark fuel m p = r → r ≠ .error .outOfFuel → mark (fuel + 1) m p = r
  | 0, _, _, r, h, hr => by
    rw [mark] at h
    exact absurd h.symm hr
  | fuel + 1, m, p, r, h, hr => by
    rw [mark] at h ⊢
    cases hl : load m p with
    | error e =>
      rw [hl] at h
      exact h
    | ok o =>
      rw [hl] at h
      simp only at h ⊢
      by_cases hm : o.marked ≠ 0
      · rw [if_pos hm] at h ⊢
        exact h
      · rw [if_neg hm] at h ⊢
        by_cases ht : o.type = ObjectType.PAIR
        · rw [if_pos ht] at h ⊢
          cases h1 : mark fuel (store m p { o with marked := 1 }) o.head with
          | error e =>
            rw [h1] at h
            simp only at h
            rw [mark_fuel_stable fuel _ _ _ h1 (by rw [h]; exact hr)]
            exact h
          | ok m1 =>
            rw [h1] at h
            rw [mark_fuel_stable fuel _ _ _ h1 (by simp)]
            simp only at h ⊢
            cases h2 : load m1 p with
            | error e =>
              rw [h2] at h
              exact h
            | ok o2 =>
              rw [h2] at h
              simp only at h ⊢
              exact mark_fuel_stable fuel _ _ _ h hr
        · rw [if_neg ht] at h ⊢
          exact h

theorem markRoots_fuel_stable (fuel : Nat) : ∀ (rs : List Nat) (m : Mem)
    (r : Except Fault Mem),
    markRoots fuel m rs = r → r ≠ .error .outOfFuel → markRoots (fuel + 1) m rs = r
  | [], _, _, h, _ => h
  | x :: rs, m, r, h, hr => by
    rw [markRoots] at h ⊢
    cases h1 : mark fuel m x with
    | error e =>
      rw [h1] at h
      simp only at h
      rw [mark_fuel_stable fuel _ _ _ h1 (by rw [h]; exact hr)]
      exact h
    | ok m1 =>
      rw [h1] at h
      rw [mark_fuel_stable fuel _ _ _ h1 (by simp)]
      exact markRoots_fuel_stable fuel rs m1 r h hr

theorem sweepLoop_fuel_stable : ∀ (fuel : Nat) (vm : VM) (loc : Loc) (r : Except Fault VM),
    sweepLoop fuel vm loc = r → r ≠ .error .outOfFuel → sweepLoop (fuel + 1) vm loc = r
  | 0, _, _, r, h, hr => by
    rw [sweepLoop] at h
    exact absurd h.symm hr
  | fuel + 1, vm, loc, r, h, hr => by
    rw [sweepLoop] at h ⊢
    cases hrd : readLoc vm loc with
    | error e =>
      rw [hrd] at h
      exact h
    | ok p =>
      rw [hrd] at h
      simp only at h ⊢
      by_cases hp : p = 0
      · rw [if_pos hp] at h ⊢
        exact h
      · rw [if_neg hp] at h ⊢
        cases hl : load vm.mem p with
        | error e =>
          rw [hl] at h
          exact h
        | ok o =>
          rw [hl] at h
          simp only at h ⊢
          by_cases hm : o.marked = 0
          · rw [if_pos hm] at h ⊢
            cases hw : writeLoc vm o.next loc with
            | error e =>
              rw [hw] at h
              exact h
            | ok vm1 =>
              rw [hw] at h
              simp only at h ⊢
              exact sweepLoop_fuel_stable fuel _ _ _ h hr
          · rw [if_neg hm] at h ⊢
            exact sweepLoop_fuel_stable fuel _ _ _ h hr

theorem gc_fuel_stable (fuel : Nat) (vm : VM) (r : Except Fault VM) (h : gc fuel vm = r)
    (hr : r ≠ .error .outOfFuel) : gc (fuel + 1) vm = r := by
  rw [gc, markAll] at h ⊢
  cases h1 : markRoots fuel vm.mem vm.stack with
  | error e =>
    rw [h1] at h
    simp only at h
    rw [markRoots_fuel_stable fuel _ _ _ h1 (by intro hh; cases hh; exact hr h.symm)]
    exact h
  | ok m1 =>
    rw [h1] at h
    rw [markRoots_fuel_stable fuel _ _ _ h1 (by simp)]
    simp only at h ⊢
    rw [marksweep] at h ⊢
    cases h2 : sweepLoop fuel { vm with mem := m1 } .first with
    | error e =>
      rw [h2] at h
      simp only at h
      rw [sweepLoop_fuel_stable fuel _ _ _ h2 (by rw [h]; exact hr)]
      exact h
    | ok vm3 =>
      rw [h2] at h
      rw [sweepLoop_fuel_stable fuel _ _ _ h2 (by simp)]
      exact h

theorem gc_fuel_stable_le (fuel k : Nat) (vm : VM) (r : Except Fault VM)
    (h : gc fuel vm = r) (hr : r ≠ .error .outOfFuel) : gc (fuel + k) vm = r := by
  induction k with
  | zero => exact h
  | succ k ih => exact gc_fuel_stable _ _ _ ih hr

/-- On a well-formed state `gc` can only fail by lack of fuel, and only when
the fuel is at most the length of the object list. -/
theorem gc_error_fuel (vm : VM) (l : List Nat) (fuel : Nat) (e : Fault)
    (hwf : WellFormed vm l) (h : gc fuel vm = .error e) :
    e = .outOfFuel ∧ fuel ≤ l.length := by
  have hbig : ∀ f, l.length < f → ∀ e', gc f vm ≠ .error e' := by
    intro f hf e' he
    obtain ⟨vm2, _, hrun, _⟩ := gc_total vm l f hwf hf
    rw [hrun] at he
    cases he
  constructor
  · by_contra hne
    have := gc_fuel_stable_le fuel (l.length + 1) vm _ h
      (by intro hh; cases hh; exact hne rfl)
    exact hbig _ (by omega) e this
  · by_contra hgt
    exact hbig fuel (by omega) e h

/-! ## No dangling reference along runs -/

/-- C19: in every state reached from `newVM` by `pushInt`, `pushPair`, `pop`
and `gc`, every stack entry and the `head` and `tail` of every pair of the
object list are objects of the object list; so `gc` returns as soon as the
fuel is above the length of the list and never fails on a pointer. When
`pushPair` returns, its possible collection has run on a stack that still
holds both operands, before the new pair is allocated: both operands are in
the object list after it, and the new pair has them as `head` and `tail`. -/
theorem reached_references_valid (vm : VM) (h : Reached vm) :
    ∃ l, WellFormed vm l ∧
      (∀ r ∈ vm.stack, r ∈ l ∧ ∃ o, vm.mem r = some o) ∧
      (∀ a ∈ l, ∀ o, vm.mem a = some o → o.type = ObjectType.PAIR →
        (o.head ∈ l ∧ ∃ oh, vm.mem o.head = some oh) ∧
        (o.tail ∈ l ∧ ∃ ot, vm.mem o.tail = some ot)) ∧
      (∀ fuel, l.length < fuel → ∃ vm2, gc fuel vm = .ok vm2) ∧
      (∀ fuel e, gc fuel vm = .error e → e = .outOfFuel ∧ fuel ≤ l.length) ∧
      (∀ fuel addr vm2, MallocOk fuel vm addr → pushPair fuel vm addr = .ok vm2 →
        ∃ vm1 l1 s x y, collectIfFull fuel vm = .ok vm1 ∧ WellFormed vm1 l1 ∧
          vm.stack = s ++ [x, y] ∧ vm1.stack = s ++ [x, y] ∧ x ∈ l1 ∧ y ∈ l1 ∧
          vm1.mem addr = none ∧
          ∃ o, vm2.mem addr = some o ∧ o.type = .PAIR ∧ o.head = x ∧ o.tail = y) := by
  obtain ⟨l, hs⟩ := reached_sound vm h
  have hwf := hs.1
  have halloc := chain_allocated _ _ _ hwf.1
  refine ⟨l, hwf, ?_, ?_, ?_, ?_, ?_⟩
  · intro r hr
    exact ⟨hwf.2.1 r hr, halloc r (hwf.2.1 r hr)⟩
  · intro a ha o ho ht
    obtain ⟨h1, h2⟩ := (closed_iff _ _).1 hwf.2.2 a ha o ho ht
    exact ⟨⟨h1, halloc _ h1⟩, ⟨h2, halloc _ h2⟩⟩
  · intro fuel hfuel
    obtain ⟨vm2, _, hrun, _⟩ := gc_total vm l fuel hwf hfuel
    exact ⟨vm2, hrun⟩
  · intro fuel e he
    exact gc_error_fuel vm l fuel e hwf he
  · intro fuel addr vm2 hm hrun
    obtain ⟨vm1, s, x, y, h1, _, hst, _, h2⟩ := pushPair_ok fuel vm addr vm2 hrun
    obtain ⟨l1, hs1, hstack⟩ := collectIfFull_sound fuel vm vm1 l hs h1
    have hin : ∀ r ∈ s ++ [x, y], r ∈ l1 := fun r hr => hs1.1.2.1 r (hst ▸ hr)
    refine ⟨vm1, l1, s, x, y, h1, hs1.1, hstack ▸ hst, hst, hin x (by simp), hin y (by simp),
      hm.2 vm1 h1, ?_⟩
    subst h2
    exact ⟨_, store_same _ _ _, rfl, rfl, rfl⟩

theorem reached_references_valid_witness :
    Reached pairExample ∧ pairExample.stack = [3] ∧
    ∃ l, WellFormed pairExample l ∧
      (∀ r ∈ pairExample.stack, r ∈ l ∧ ∃ o, pairExample.mem r = some o) ∧
      (∀ a ∈ l, ∀ o, pairExample.mem a = some o → o.type = ObjectType.PAIR →
        (o.head ∈ l ∧ ∃ oh, pairExample.mem o.head = some oh) ∧
        (o.tail ∈ l ∧ ∃ ot, pairExample.mem o.tail = some ot)) :=
  have h := reached_references_valid pairExample reached_pairExample
  ⟨reached_pairExample, rfl, h.choose, h.choose_spec.1, h.choose_spec.2.1,
    h.choose_spec.2.2.1⟩

/-! ## Termination of the mark phase -/

theorem markTrace_fst : ∀ (fuel : Nat) (m : Mem) (p : Nat),
    (markTrace fuel m p).map Prod.fst = mark fuel m p
  | 0, _, _ => rfl
  | fuel + 1, m, p => by
    rw [markTrace, mark]
    cases hl : load m p with
    | error e => rfl
    | ok o =>
      simp only
      by_cases hm : o.marked ≠ 0
      · rw [if_pos hm, if_pos hm]
        rfl
      · rw [if_neg hm, if_neg hm]
        by_cases ht : o.type = ObjectType.PAIR
        · rw [if_pos ht, if_pos ht]
          have ih1 := markTrace_fst fuel (store m p { o with marked := 1 }) o.head
          cases h1 : markTrace fuel (store m p { o with marked := 1 }) o.head with
          | error e =>
            rw [h1] at ih1
            rw [← ih1]
            rfl
          | ok r1 =>
            obtain ⟨m2, t1⟩ := r1
            rw [h1] at ih1
            rw [← ih1]
            simp only [Except.map]
            cases h2 : load m2 p with
            | error e => rfl
            | ok o2 =>
              simp only
              have ih2 := markTrace_fst fuel m2 o2.tail
              cases h3 : markTrace fuel m2 o2.tail with
              | error e =>
                rw [h3] at ih2
                rw [← ih2]
                rfl
              | ok r2 =>
                obtain ⟨m3, t2⟩ := r2
                rw [h3] at ih2
                rw [← ih2]
                rfl
        · rw [if_neg ht, if_neg ht]
          rfl

theorem markTrace_ok_of_mark (fuel : Nat) (m : Mem) (p : Nat) (m2 : Mem)
    (h : mark fuel m p = .ok m2) : ∃ t, markTrace fuel m p = .ok (m2, t) := by
  have := markTrace_fst fuel m p
  rw [h] at this
  cases h1 : markTrace fuel m p with
  | error e =>
    rw [h1] at this
    cases this
  | ok r =>
    obtain ⟨m2', t⟩ := r
    rw [h1] at this
    cases this
    exact ⟨t, rfl⟩

theorem mark_of_markTrace (fuel : Nat) (m : Mem) (p : Nat) (m2 : Mem) (t : List Nat)
    (h : markTrace fuel m p = .ok (m2, t)) : mark fuel m p = .ok m2 := by
  rw [← markTrace_fst, h]
  rfl

theorem isMarked_false_mono (m m2 : Mem) (S : Nat → Prop) (h : MarkedOnly m m2 S) (a : Nat)
    (ha : isMarked m2 a = false) : isMarked m a = false := by
  cases hx : isMarked m a
  · rfl
  · rw [markedOnly_isMarked m m2 S h a hx] at ha
    cases ha

/-- The trace of `mark` has no repetition and holds exactly the objects that
went from unmarked to marked. -/
theorem markTrace_nodup : ∀ (fuel : Nat) (m : Mem) (p : Nat) (m2 : Mem) (t : List Nat),
    markTrace fuel m p = .ok (m2, t) →
    t.Nodup ∧ ∀ a, a ∈ t ↔ (isMarked m a = false ∧ isMarked m2 a = true)
  | 0, _, _, _, _, h => by cases h
  | fuel + 1, m, p, m3, t, h => by
    rw [markTrace] at h
    cases hl : load m p with
    | error e => rw [hl] at h; cases h
    | ok o =>
      rw [hl] at h
      simp only at h
      obtain ⟨_, ho⟩ := (load_ok_iff m p o).1 hl
      by_cases hm : o.marked ≠ 0
      · rw [if_pos hm] at h
        cases h
        refine ⟨List.nodup_nil, fun a => ⟨fun ha => (by cases ha), fun ha => ?_⟩⟩
        have hb := ha.2
        rw [ha.1] at hb
        cases hb
      · rw [if_neg hm] at h
        have h0 : o.marked = 0 := by omega
        have hst := markedOnly_store m p o (fun _ => True) ho h0 trivial
        have hpm : isMarked m p = false := isMarked_false_of_mem m p o ho h0
        have hp1 : isMarked (store m p { o with marked := 1 }) p = true :=
          isMarked_of_mem _ p _ (store_same _ _ _) (by simp)
        have hother : ∀ a, a ≠ p →
            isMarked (store m p { o with marked := 1 }) a = isMarked m a :=
          fun a ha => isMarked_congr _ _ a (store_other _ _ _ _ ha)
        by_cases ht : o.type = ObjectType.PAIR
        · rw [if_pos ht] at h
          cases h1 : markTrace fuel (store m p { o with marked := 1 }) o.head with
          | error e => rw [h1] at h; cases h
          | ok r1 =>
            obtain ⟨m2, t1⟩ := r1
            rw [h1] at h
            simp only at h
            cases h2 : load m2 p with
            | error e => rw [h2] at h; cases h
            | ok o2 =>
              rw [h2] at h
              simp only at h
              cases h3 : markTrace fuel m2 o2.tail with
              | error e => rw [h3] at h; cases h
              | ok r2 =>
                obtain ⟨m3', t2⟩ := r2
                rw [h3] at h
                simp only [Except.ok.injEq, Prod.mk.injEq] at h
                obtain ⟨e1, e2⟩ := h
                subst e1 e2
                obtain ⟨hn1, hmem1⟩ := markTrace_nodup fuel _ _ _ _ h1
                obtain ⟨hn2, hmem2⟩ := markTrace_nodup fuel _ _ _ _ h3
                have hf1 := mark_frame fuel _ _ _ (mark_of_markTrace fuel _ _ _ _ h1)
                have hf2 := mark_frame fuel _ _ _ (mark_of_markTrace fuel _ _ _ _ h3)
                have hp2 : isMarked m2 p = true := markedOnly_isMarked _ _ _ hf1 p hp1
                have hp3 : isMarked m3' p = true := markedOnly_isMarked _ _ _ hf2 p hp2
                constructor
                · rw [List.nodup_cons, List.nodup_append]
                  refine ⟨?_, hn1, hn2, ?_⟩
                  · intro hp
                    rcases List.mem_append.1 hp with e | e
                    · rw [((hmem1 p).1 e).1] at hp1
                      cases hp1
                    · rw [((hmem2 p).1 e).1] at hp2
                      cases hp2
                  · intro a ha1 ha2
                    have hb := ((hmem2 a).1 ha2).1
                    rw [((hmem1 a).1 ha1).2] at hb
                    cases hb
                · intro a
                  rw [List.mem_cons, List.mem_append]
                  constructor
                  · rintro (e | e | e)
                    · rw [e]
                      exact ⟨hpm, hp3⟩
                    · obtain ⟨u, v⟩ := (hmem1 a).1 e
                      exact ⟨isMarked_false_mono _ _ _ hst a u,
                        markedOnly_isMarked _ _ _ hf2 a v⟩
                    · obtain ⟨u, v⟩ := (hmem2 a).1 e
                      exact ⟨isMarked_false_mono _ _ _ hst a
                        (isMarked_false_mono _ _ _ hf1 a u), v⟩
                  · rintro ⟨u, v⟩
                    by_cases hap : a = p
                    · exact Or.inl hap
                    · right
                      have u1 : isMarked (store m p { o with marked := 1 }) a = false :=
                        (hother a hap).trans u
                      cases hx : isMarked m2 a
                      · exact Or.inr ((hmem2 a).2 ⟨hx, v⟩)
                      · exact Or.inl ((hmem1 a).2 ⟨u1, hx⟩)
        · rw [if_neg ht] at h
          simp only [Except.ok.injEq, Prod.mk.injEq] at h
          obtain ⟨e1, e2⟩ := h
          subst e1 e2
          refine ⟨List.nodup_singleton p, fun a => ?_⟩
          rw [List.mem_singleton]
          constructor
          · intro e
            rw [e]
            exact ⟨hpm, hp1⟩
          · rintro ⟨u, v⟩
            by_contra hap
            rw [hother a hap, u] at v
            cases v

theorem markRootsTrace_fst (fuel : Nat) : ∀ (rs : List Nat) (m : Mem),
    (markRootsTrace fuel m rs).map Prod.fst = markRoots fuel m rs
  | [], _ => rfl
  | r :: rs, m => by
    rw [markRootsTrace, markRoots]
    have ih1 := markTrace_fst fuel m r
    cases h1 : markTrace fuel m r with
    | error e =>
      rw [h1] at ih1
      rw [← ih1]
      rfl
    | ok r1 =>
      obtain ⟨m1, t1⟩ := r1
      rw [h1] at ih1
      rw [← ih1]
      simp only [Except.map]
      have ih2 := markRootsTrace_fst fuel rs m1
      cases h2 : markRootsTrace fuel m1 rs with
      | error e =>
        rw [h2] at ih2
        rw [← ih2]
        rfl
      | ok r2 =>
        obtain ⟨m2, t2⟩ := r2
        rw [h2] at ih2
        rw [← ih2]
        rfl

theorem markRootsTrace_ok_of_markRoots (fuel : Nat) (m : Mem) (rs : List Nat) (m2 : Mem)
    (h : markRoots fuel m rs = .ok m2) : ∃ t, markRootsTrace fuel m rs = .ok (m2, t) := by
  have := markRootsTrace_fst fuel rs m
  rw [h] at this
  cases h1 : markRootsTrace fuel m rs with
  | error e =>
    rw [h1] at this
    cases this
  | ok r =>
    obtain ⟨m2', t⟩ := r
    rw [h1] at this
    cases this
    exact ⟨t, rfl⟩

theorem markRoots_of_markRootsTrace (fuel : Nat) (m : Mem) (rs : List Nat) (m2 : Mem)
    (t : List Nat) (h : markRootsTrace fuel m rs = .ok (m2, t)) :
    markRoots fuel m rs = .ok m2 := by
  rw [← markRootsTrace_fst, h]
  rfl

/-- Over a whole mark phase no object has its mark set twice. -/
theorem markRootsTrace_nodup (fuel : Nat) : ∀ (rs : List Nat) (m m2 : Mem) (t : List Nat),
    markRootsTrace fuel m rs = .ok (m2, t) →
    t.Nodup ∧ ∀ a, a ∈ t ↔ (isMarked m a = false ∧ isMarked m2 a = true)
  | [], m, m2, t, h => by
    simp only [markRootsTrace, Except.ok.injEq, Prod.mk.injEq] at h
    obtain ⟨e1, e2⟩ := h
    subst e1 e2
    refine ⟨List.nodup_nil, fun a => ⟨fun ha => (by cases ha), fun ha => ?_⟩⟩
    have hb := ha.2
    rw [ha.1] at hb
    cases hb
  | r :: rs, m, m3, t, h => by
    rw [markRootsTrace] at h
    cases h1 : markTrace fuel m r with
    | error e => rw [h1] at h; cases h
    | ok r1 =>
      obtain ⟨m1, t1⟩ := r1
      rw [h1] at h
      simp only at h
      cases h2 : markRootsTrace fuel m1 rs with
      | error e => rw [h2] at h; cases h
      | ok r2 =>
        obtain ⟨m2, t2⟩ := r2
        rw [h2] at h
        simp only [Except.ok.injEq, Prod.mk.injEq] at h
        obtain ⟨e1, e2⟩ := h
        subst e1 e2
        obtain ⟨hn1, hmem1⟩ := markTrace_nodup fuel _ _ _ _ h1
        obtain ⟨hn2, hmem2⟩ := markRootsTrace_nodup fuel rs _ _ _ h2
        have hf1 := mark_frame fuel _ _ _ (mark_of_markTrace fuel _ _ _ _ h1)
        have hf2 := markRoots_frame fuel _ _ _ (markRoots_of_markRootsTrace fuel _ _ _ _ h2)
        constructor
        · rw [List.nodup_append]
          refine ⟨hn1, hn2, ?_⟩
          intro a ha1 ha2
          have hb := ((hmem2 a).1 ha2).1
          rw [((hmem1 a).1 ha1).2] at hb
          cases hb
        · intro a
          rw [List.mem_append]
          constructor
          · rintro (e | e)
            · obtain ⟨u, v⟩ := (hmem1 a).1 e
              exact ⟨u, markedOnly_isMarked _ _ _ hf2 a v⟩
            · obtain ⟨u, v⟩ := (hmem2 a).1 e
              exact ⟨isMarked_false_mono _ _ _ hf1 a u, v⟩
          · rintro ⟨u, v⟩
            cases hx : isMarked m1 a
            · exact Or.inr ((hmem2 a).2 ⟨hx, v⟩)
            · exact Or.inl ((hmem1 a).2 ⟨u, hx⟩)

theorem trace_length_le (m : Mem) (l t : List Nat) (hnd : t.Nodup)
    (hin : ∀ a ∈ t, a ∈ l) (hun : ∀ a ∈ t, isMarked m a = false) :
    t.length ≤ unmarkedCount m l := by
  unfold unmarkedCount
  apply List.Subperm.length_le
  apply List.subperm_of_subset hnd
  intro a ha
  rw [List.mem_filter]
  exact ⟨hin a ha, by rw [hun a ha]; rfl⟩

/-- C18: on a finite heap in which the references of the objects stay among
the objects, cyclic or not, `mark` returns when the fuel is above the number
of unmarked objects: each descent past the test of `marked` lowers that
number. The assignment `marked = 1` is executed at most once per object,
exactly on the objects that go from unmarked to marked, in one call of `mark`
and in the whole loop of `markAll`. -/
theorem mark_terminates (l : List Nat) (fuel : Nat) (m : Mem) (p : Nat)
    (hc : Closed m l) (hal : Allocated m l) (hp : p ∈ l)
    (hfuel : unmarkedCount m l < fuel) :
    (∃ m2 t, mark fuel m p = .ok m2 ∧ markTrace fuel m p = .ok (m2, t) ∧ t.Nodup ∧
      (∀ a, a ∈ t ↔ (isMarked m a = false ∧ isMarked m2 a = true)) ∧
      t.length ≤ unmarkedCount m l ∧ unmarkedCount m2 l ≤ unmarkedCount m l) ∧
    (∀ o, m p = some o → o.marked = 0 →
      unmarkedCount (store m p { o with marked := 1 }) l < unmarkedCount m l) ∧
    (∀ rs, (∀ r ∈ rs, r ∈ l) → l.length < fuel →
      ∃ m2 t, markRoots fuel m rs = .ok m2 ∧ markRootsTrace fuel m rs = .ok (m2, t) ∧
        t.Nodup ∧ (∀ a, a ∈ t ↔ (isMarked m a = false ∧ isMarked m2 a = true)) ∧
        t.length ≤ unmarkedCount m l) := by
  refine ⟨?_, ?_, ?_⟩
  · obtain ⟨m2, hrun, hmo, _, _⟩ := mark_spec l fuel m p hc hal hp hfuel
    obtain ⟨t, ht⟩ := markTrace_ok_of_mark fuel m p m2 hrun
    obtain ⟨hnd, hmem⟩ := markTrace_nodup fuel m p m2 t ht
    refine ⟨m2, t, hrun, ht, hnd, hmem, ?_, unmarkedCount_le m m2 _ hmo l⟩
    refine trace_length_le m l t hnd ?_ (fun a ha => ((hmem a).1 ha).1)
    intro a ha
    obtain ⟨u, v⟩ := (hmem a).1 ha
    rcases hmo a with h | ⟨_, _, _, _, hr⟩
    · rw [isMarked_congr m m2 a h, u] at v
      cases v
    · exact reach_mem_closed m l hc p a hp hr
  · intro o ho h0
    exact unmarkedCount_lt m _ (fun _ => True) (markedOnly_store m p o _ ho h0 trivial) p
      (isMarked_false_of_mem m p o ho h0)
      (isMarked_of_mem _ p _ (store_same _ _ _) (by simp)) l hp
  · intro rs hrs hlen
    obtain ⟨m2, hrun, hmo, _, _⟩ := markRoots_spec l fuel hlen rs m hc hal hrs
    obtain ⟨t, ht⟩ := markRootsTrace_ok_of_markRoots fuel m rs m2 hrun
    obtain ⟨hnd, hmem⟩ := markRootsTrace_nodup fuel rs m m2 t ht
    refine ⟨m2, t, hrun, ht, hnd, hmem, ?_⟩
    refine trace_length_le m l t hnd ?_ (fun a ha => ((hmem a).1 ha).1)
    intro a ha
    obtain ⟨u, v⟩ := (hmem a).1 ha
    rcases hmo a with h | ⟨_, _, _, _, r, hr, hra⟩
    · rw [isMarked_congr m m2 a h, u] at v
      cases v
    · exact reach_mem_closed m l hc r a (hrs r hr) hra

theorem mark_terminates_witness :
    Closed selfExample.mem [1] ∧ Allocated selfExample.mem [1] ∧
    Edge selfExample.mem 1 1 ∧ unmarkedCount selfExample.mem [1] < 2 ∧
    ∃ m2 t, mark 2 selfExample.mem 1 = .ok m2 ∧ markTrace 2 selfExample.mem 1 = .ok (m2, t) ∧
      t.Nodup ∧ (∀ a, a ∈ t ↔ (isMarked selfExample.mem a = false ∧ isMarked m2 a = true)) ∧
      t.length ≤ unmarkedCount selfExample.mem [1] ∧
      unmarkedCount m2 [1] ≤ unmarkedCount selfExample.mem [1] :=
  have hc : Closed selfExample.mem [1] := by decide
  have hal : Allocated selfExample.mem [1] := by
    intro a ha
    rw [List.mem_singleton.1 ha]
    exact ⟨by decide, _, rfl⟩
  ⟨hc, hal, (edge_iff _ _ _).2 ⟨_, rfl, rfl, Or.inl rfl⟩, by decide,
    (mark_terminates [1] 2 selfExample.mem 1 hc hal (by decide) (by decide)).1⟩

/-! ## The threshold test beyond 2^30 objects -/

theorem reachedBelow_pairExample : ReachedBelow COUNT_LIMIT pairExample := by
  have h1 : ReachedBelow COUNT_LIMIT (stateOf (pushInt 0 newVM 1 1)) :=
    ReachedBelow.step 0 (.pushInt 1 1) ReachedBelow.init rfl
      ⟨by decide, fun vm1 h => by cases h; rfl⟩ rfl (by decide)
  have h2 : ReachedBelow COUNT_LIMIT
      (stateOf (andThen (pushInt 0 newVM 1 1) (fun vm => pushInt 0 vm 2 2))) :=
    ReachedBelow.step 0 (.pushInt 2 2) h1 rfl ⟨by decide, fun vm1 h => by cases h; rfl⟩ rfl
      (by decide)
  exact ReachedBelow.step 0 (.pushPair 3) h2 rfl ⟨by decide, fun vm1 h => by cases h; rfl⟩ rfl
    (by decide)

/-- A collection of a state in which every object is reachable and unmarked
only recomputes the threshold. -/
theorem gc_keeps_all (vm : VM) (l : List Nat) (fuel : Nat)
    (hwf : WellFormed vm l) (hun : AllUnmarked vm.mem l) (hfuel : l.length < fuel)
    (hall : ∀ a ∈ l, Reachable vm a) :
    gc fuel vm = .ok { vm with
      maxObjects :=
        if vm.numObjects = 0 then INIT_OBJ_NUM_MAX else wrapInt (vm.numObjects * 2) } := by
  obtain ⟨vm2, l2, hrun, hc, hsub, hmem, hpay, _, hout, hn, hs, hmx⟩ :=
    gc_spec vm l fuel hwf hun hfuel
  have hl2 : l2 = l :=
    sublist_eq_of_subset l2 l hsub (chain_nodup _ _ _ hwf.1) (fun a ha => (hmem a).2 (hall a ha))
  subst hl2
  obtain ⟨hfirst, hnext⟩ := chain_same_list vm.mem vm2.mem l2 _ _ hwf.1 hc
  have hnum : vm2.numObjects = vm.numObjects := by
    rw [hn]
    simp
  have hmem2 : vm2.mem = vm.mem := by
    funext a
    by_cases ha : a ∈ l2
    · obtain ⟨o, o2, ho, ho2, hm, hp⟩ := hpay a ha
      obtain ⟨o', o2', ho', ho2', hnx⟩ := hnext a ha
      have e1 : o' = o := Option.some.inj (ho'.symm.trans ho)
      have e2 : o2' = o2 := Option.some.inj (ho2'.symm.trans ho2)
      subst e1 e2
      have hm0 : o'.marked = 0 := by
        have := hun a ha
        rw [isMarked, ho] at this
        simpa using this
      rw [ho, ho2, object_eq o' o2' (hm.trans hm0.symm) hnx hp]
    · exact hout a ha
  rw [hrun]
  congr 1
  cases vm
  cases vm2
  simp only [VM.mk.injEq]
  simp only at hmem2 hs hfirst hnum hmx
  exact ⟨hmem2, hs, hfirst.symm, hnum, by rw [hmx, hnum]⟩

theorem fresh_address (l : List Nat) : ∃ a, a ≠ 0 ∧ a ∉ l := by
  obtain ⟨a, ha⟩ := Infinite.exists_not_mem_finset (0 :: l).toFinset
  simp only [List.toFinset_cons, Finset.mem_insert, List.mem_toFinset, not_or] at ha
  exact ⟨a, ha.1, ha.2⟩

theorem edge_mem_closed (m : Mem) (l : List Nat) (hc : Closed m l) (r b : Nat)
    (hr : r ∈ l) (h : Edge m r b) : b ∈ l := by
  have h1 := hc r hr
  unfold closedAt at h1
  unfold Edge at h
  cases ho : m r with
  | none => simp [ho] at h
  | some o =>
    simp only [ho] at h h1
    have h2 := of_decide_eq_true h1 h.1
    rcases h.2 with e | e
    · exact e ▸ h2.1
    · exact e ▸ h2.2

theorem reach_store_fresh (m : Mem) (l : List Nat) (addr : Nat) (o : Object)
    (hc : Closed m l) (hfresh : addr ∉ l) (r a : Nat) (hr : r ∈ l) (h : Reach m r a) :
    Reach (store m addr o) r a := by
  revert hr
  induction h using Relation.ReflTransGen.head_induction_on with
  | refl => exact fun _ => Relation.ReflTransGen.refl
  | @head x y hab _ ih =>
    intro hr
    have hy : y ∈ l := edge_mem_closed m l hc x y hr hab
    have hx : x ≠ addr := fun e => hfresh (e ▸ hr)
    refine Relation.ReflTransGen.head ?_ (ih hy)
    unfold Edge at hab ⊢
    simp only [store, if_neg hx]
    exact hab

theorem live_collectIfFull (vm : VM) (l : List Nat) (fuel : Nat) (h : Live vm l)
    (hfuel : l.length < fuel) :
    ∃ mx, collectIfFull fuel vm = .ok { vm with maxObjects := mx } := by
  unfold collectIfFull
  split
  · exact ⟨_, gc_keeps_all vm l fuel h.1.1 h.1.2.1 hfuel h.2.1⟩
  · exact ⟨vm.maxObjects, rfl⟩

theorem live_link (vm1 : VM) (l : List Nat) (addr : Nat) (o : Object) (s : List Nat)
    (h : Live vm1 l) (h0 : addr ≠ 0) (hfresh : addr ∉ l)
    (hnext : o.next = vm1.firstObject) (hmark : o.marked = 0)
    (hrefs : o.type = ObjectType.PAIR → o.head ∈ l ∧ o.tail ∈ l)
    (hstack : ∀ r ∈ s, r ∈ addr :: l) (hlen : s.length ≤ STACK_MAX_SIZE)
    (haddr : addr ∈ s)
    (hold : ∀ r ∈ vm1.stack, r ∈ s ∨ (o.type = ObjectType.PAIR ∧ (o.head = r ∨ o.tail = r))) :
    Live { vm1 with
      mem := store vm1.mem addr o
      stack := s
      firstObject := addr
      numObjects := vm1.numObjects + 1 } (addr :: l) := by
  refine ⟨link_sound vm1 l addr o s h.1 h0 (h.2.2 addr hfresh) hnext hmark hrefs hstack hlen,
    ?_, ?_⟩
  · intro a ha
    rcases List.mem_cons.1 ha with e | ha
    · subst e
      exact ⟨a, haddr, Relation.ReflTransGen.refl⟩
    · obtain ⟨r, hr, hreach⟩ := h.2.1 a ha
      have hrl : r ∈ l := h.1.1.2.1 r hr
      have hreach2 := reach_store_fresh vm1.mem l addr o h.1.1.2.2 hfresh r a hrl hreach
      rcases hold r hr with hrs | hedge
      · exact ⟨r, hrs, hreach2⟩
      · refine ⟨addr, haddr, Relation.ReflTransGen.head ?_ hreach2⟩
        unfold Edge
        simp only [store, if_pos]
        exact hedge
  · intro a ha
    have h1 : a ≠ addr := fun e => ha (e ▸ List.mem_cons_self _ _)
    have h2 : a ∉ l := fun e => ha (List.mem_cons_of_mem _ e)
    simp only [store, if_neg h1]
    exact h.2.2 a h2

theorem live_threshold (vm : VM) (l : List Nat) (mx : Int) (h : Live vm l) :
    Live { vm with maxObjects := mx } l := h

theorem live_pushInt (vm : VM) (l : List Nat) (fuel : Nat) (v : Int) (addr : Nat)
    (h : Live vm l) (hlen : vm.stack.length < STACK_MAX_SIZE) (hfuel : l.length < fuel)
    (h0 : addr ≠ 0) (hfresh : addr ∉ l) :
    ∃ vm2, pushInt fuel vm v addr = .ok vm2 ∧ MallocOk fuel vm addr ∧ Live vm2 (addr :: l) ∧
      vm2.stack = vm.stack ++ [addr] := by
  obtain ⟨mx, hc⟩ := live_collectIfFull vm l fuel h hfuel
  have hl := live_link { vm with maxObjects := mx } l addr
    { type := .INT, marked := 0, next := vm.firstObject, value := v, head := 0, tail := 0 }
    (vm.stack ++ [addr]) (live_threshold vm l mx h) h0 hfresh rfl rfl (fun e => by cases e)
    (fun r hr => by
      rcases List.mem_append.1 hr with hr | hr
      · exact List.mem_cons_of_mem _ (h.1.1.2.1 r hr)
      · rw [List.mem_singleton.1 hr]
        exact List.mem_cons_self _ _)
    (by
      rw [List.length_append]
      simp only [List.length_singleton]
      exact hlen)
    (by simp)
    (fun r hr => Or.inl (List.mem_append_left _ hr))
  refine ⟨_, ?_, ⟨h0, fun vm1 h1 => ?_⟩, hl, rfl⟩
  · rw [pushInt_eq fuel vm _ v addr hc h0]
    simp only [push]
    rw [if_pos hlen]
  · rw [hc] at h1
    cases h1
    exact h.2.2 addr hfresh

theorem live_pushPair (vm : VM) (l : List Nat) (fuel : Nat) (addr : Nat) (s : List Nat)
    (x y : Nat) (h : Live vm l) (hst : vm.stack = s ++ [x, y]) (hfuel : l.length < fuel)
    (h0 : addr ≠ 0) (hfresh : addr ∉ l) :
    ∃ vm2, pushPair fuel vm addr = .ok vm2 ∧ MallocOk fuel vm addr ∧ Live vm2 (addr :: l) ∧
      vm2.stack = s ++ [addr] := by
  obtain ⟨mx, hc⟩ := live_collectIfFull vm l fuel h hfuel
  have hslen : s.length + 2 ≤ STACK_MAX_SIZE := by
    have := h.1.2.2.2
    rw [hst, List.length_append] at this
    simpa using this
  have hsl : s.length < STACK_MAX_SIZE := by omega
  have hx : x ∈ l := h.1.1.2.1 x (by rw [hst]; simp)
  have hy : y ∈ l := h.1.1.2.1 y (by rw [hst]; simp)
  have hl := live_link { vm with maxObjects := mx } l addr
    { type := .PAIR, marked := 0, next := vm.firstObject, value := 0, head := x, tail := y }
    (s ++ [addr]) (live_threshold vm l mx h) h0 hfresh rfl rfl (fun _ => ⟨hx, hy⟩)
    (fun r hr => by
      rcases List.mem_append.1 hr with hr | hr
      · exact List.mem_cons_of_mem _ (h.1.1.2.1 r (by rw [hst]; exact List.mem_append_left _ hr))
      · rw [List.mem_singleton.1 hr]
        exact List.mem_cons_self _ _)
    (by
      rw [List.length_append]
      simp only [List.length_singleton]
      omega)
    (by simp)
    (fun r hr => by
      have hr2 : r ∈ s ++ [x, y] := hst ▸ hr
      rcases List.mem_append.1 hr2 with hr3 | hr3
      · exact Or.inl (List.mem_append_left _ hr3)
      · simp only [List.mem_cons, List.mem_singleton, List.not_mem_nil, or_false] at hr3
        rcases hr3 with e | e
        · exact Or.inr ⟨rfl, Or.inl e.symm⟩
        · exact Or.inr ⟨rfl, Or.inr e.symm⟩)
  refine ⟨_, ?_, ⟨h0, fun vm1 h1 => ?_⟩, hl, rfl⟩
  · rw [pushPair_eq fuel vm _ addr s x y hc h0 hst]
    simp only [push]
    rw [if_pos hsl]
  · rw [hc] at h1
    cases h1
    exact h.2.2 addr hfresh

theorem live_newVM : Live newVM [] :=
  ⟨by decide, fun _ h => absurd h (List.not_mem_nil _), fun _ _ => rfl⟩

/-- A balanced tree of pairs of depth `d` over `2 ^ d` integers is built on top
of any stack with room for `d + 1` more entries: the run keeps every object
reachable and adds `2 ^ (d + 1) - 1` objects and one stack entry. -/
theorem live_tree : ∀ (d : Nat) (vm : VM) (l : List Nat), Reached vm → Live vm l →
    vm.stack.length + (d + 1) ≤ STACK_MAX_SIZE →
    ∃ vm2 l2 r, Reached vm2 ∧ Live vm2 l2 ∧ vm2.stack = vm.stack ++ [r] ∧
      l2.length + 1 = l.length + 2 ^ (d + 1)
  | 0, vm, l, hr, hl, hlen => by
    obtain ⟨addr, h0, hfresh⟩ := fresh_address l
    have hlen2 : vm.stack.length < STACK_MAX_SIZE := by omega
    obtain ⟨vm2, hrun, hm, hl2, hst⟩ :=
      live_pushInt vm l (l.length + 1) 0 addr hl hlen2 (Nat.lt_succ_self _) h0 hfresh
    exact ⟨vm2, addr :: l, addr, ReachedBy.step (l.length + 1) (.pushInt 0 addr) hr rfl hm hrun,
      hl2, hst, by simp⟩
  | d + 1, vm, l, hr, hl, hlen => by
    obtain ⟨vma, la, x, hra, hla, hsta, hna⟩ := live_tree d vm l hr hl (by omega)
    obtain ⟨vmb, lb, y, hrb, hlb, hstb, hnb⟩ := live_tree d vma la hra hla (by
      rw [hsta, List.length_append, List.length_singleton]
      omega)
    obtain ⟨addr, h0, hfresh⟩ := fresh_address lb
    have hst2 : vmb.stack = vm.stack ++ [x, y] := by
      rw [hstb, hsta, List.append_assoc]
      rfl
    obtain ⟨vm2, hrun, hm, hl2, hst⟩ :=
      live_pushPair vmb lb (lb.length + 1) addr vm.stack x y hlb hst2 (Nat.lt_succ_self _)
        h0 hfresh
    refine ⟨vm2, addr :: lb, addr,
      ReachedBy.step (lb.length + 1) (.pushPair addr) hrb rfl hm hrun, hl2, hst, ?_⟩
    rw [List.length_cons, pow_succ]
    omega

/-- C20, as stated, fails: a run of `pushInt`, `pushPair` and `gc` from `newVM`
(a balanced tree of pairs over 2^29 integers, one more integer, then `gc`)
reaches a state with 2^30 objects, all reachable, where the product
`numObjects * 2` of `gc` has overflowed `int`: `maxObjects` is -2^31, below
`numObjects`, and the test of `newObject` no longer triggers a collection. -/
theorem numObjects_le_maxObjects_counterexample :
    ∃ vm, Reached vm ∧ vm.numObjects = 1073741824 ∧ vm.maxObjects = -2147483648 ∧
      ¬ (vm.numObjects ≤ vm.maxObjects) ∧ ∀ fuel, collectIfFull fuel vm = .ok vm := by
  obtain ⟨vma, la, x, hra, hla, hsta, hna⟩ :=
    live_tree 29 newVM [] ReachedBy.init live_newVM (by decide)
  obtain ⟨addr, h0, hfresh⟩ := fresh_address la
  have hlen : vma.stack.length < STACK_MAX_SIZE := by
    rw [hsta, List.length_append, List.length_singleton]
    decide
  obtain ⟨vmb, hrun, hm, hlb, _⟩ :=
    live_pushInt vma la (la.length + 1) 0 addr hla hlen (Nat.lt_succ_self _) h0 hfresh
  have hrb : Reached vmb := ReachedBy.step (la.length + 1) (.pushInt 0 addr) hra rfl hm hrun
  have hgc := gc_keeps_all vmb (addr :: la) ((addr :: la).length + 1) hlb.1.1 hlb.1.2.1
    (Nat.lt_succ_self _) hlb.2.1
  have hnum : vmb.numObjects = 1073741824 := by
    rw [hlb.1.2.2.1, List.length_cons]
    simp only [List.length_nil, zero_add] at hna
    rw [hna]
    norm_num
  rw [hnum] at hgc
  have hmax : (if (1073741824 : Int) = 0 then INIT_OBJ_NUM_MAX else wrapInt (1073741824 * 2)) =
      -2147483648 := by decide
  rw [hmax] at hgc
  refine ⟨_, ReachedBy.step ((addr :: la).length + 1) .gc hrb rfl trivial hgc, rfl, rfl, ?_, ?_⟩
  · show ¬ ((1073741824 : Int) ≤ -2147483648)
    decide
  · intro fuel
    unfold collectIfFull
    rw [if_neg]
    show ¬ ((1073741824 : Int) = -2147483648)
    decide

/-- C20, amended: in every state reached from `newVM` by `pushInt`, `pushPair`,
`pop` and `gc` in a run all of whose states hold fewer than 2^30 objects,
`0 <= numObjects <= maxObjects`; a collection of such a state that returns
leaves `numObjects < maxObjects`, and so does the test at the start of
`newObject`, so that the pending allocation has room. -/
theorem numObjects_le_maxObjects (vm : VM) (h : ReachedBelow COUNT_LIMIT vm) :
    0 ≤ vm.numObjects ∧ vm.numObjects ≤ vm.maxObjects ∧
    (∀ fuel vm1, gc fuel vm = .ok vm1 → vm1.numObjects < vm1.maxObjects) ∧
    (∀ fuel vm1, collectIfFull fuel vm = .ok vm1 → vm1.numObjects < vm1.maxObjects) := by
  have hc : Counted vm := reachedBy_counted _ vm (reachedBelow_reached _ vm h)
  have hb : vm.numObjects < COUNT_LIMIT := reachedBelow_lt _ vm (by decide) h
  obtain ⟨hle, h2⟩ := reachedBelow_threshold vm h
  refine ⟨counted_nonneg vm hc, hle, fun fuel vm1 hrun => ?_, fun fuel vm1 hrun => ?_⟩
  · exact (gc_below fuel vm vm1 hc hrun
      (lt_of_le_of_lt (gc_counted_step fuel vm vm1 hc hrun).2 hb)).1
  · exact (collectIfFull_below fuel vm vm1 hc hle h2 hb hrun).1

theorem numObjects_le_maxObjects_witness :
    ReachedBelow COUNT_LIMIT pairExample ∧
    0 ≤ pairExample.numObjects ∧ pairExample.numObjects ≤ pairExample.maxObjects ∧
    (∀ fuel vm1, gc fuel pairExample = .ok vm1 → vm1.numObjects < vm1.maxObjects) ∧
    (∀ fuel vm1, collectIfFull fuel pairExample = .ok vm1 →
      vm1.numObjects < vm1.maxObjects) :=
  ⟨reachedBelow_pairExample, numObjects_le_maxObjects pairExample reachedBelow_pairExample⟩
end GC
